import Mathlib

/-!
Verification of the multi-contract Solidity reentrancy analyzer
(`backend/analyzer.py`, with its CLI and HTTP wrappers in `backend/cli.py`
and `backend/api.py`).

The development shallowly embeds the analyzer: Python dicts parsed from the
JSON artifacts become the nested inductive `JVal`; the networkx directed
graphs become association lists of nodes plus ordered edge lists (networkx
keeps insertion order and replaces attributes on re-insertion, which the
list operations below reproduce); Python's recursive walks with `visited`
sets become fuel-indexed structural recursions, with adequacy lemmas showing
the fuel chosen by the top-level wrappers is never exhausted.

Because Lean's built-in `String` primitives (`String.replace`,
`String.isPrefixOf`, ...) are not kernel-reducible, the embedding uses its
own character-list implementations of the string operations the Python code
performs (`str.replace`, `str.startswith`, `str.endswith`, `in`,
`str.split`, f-string rendering of the node counter).
-/

namespace RA

/-! ## String utilities (kernel-reducible images of the Python operations) -/

/-- `python: s.replace(".", "_")` — single-character replacement is a
character-wise map. -/
def sanitize (s : String) : String :=
  ⟨s.data.map (fun c => if c = '.' then '_' else c)⟩

/-- `python: s.startswith(p)`. -/
def strPre (p s : String) : Bool :=
  p.data.isPrefixOf s.data

/-- `python: s.endswith(p)`. -/
def strSuf (p s : String) : Bool :=
  p.data.reverse.isPrefixOf s.data.reverse

/-- `python: p in s` (substring containment) on character lists. -/
def listHasInfix (pat : List Char) : List Char → Bool
  | [] => pat.isEmpty
  | c :: rest => pat.isPrefixOf (c :: rest) || listHasInfix pat rest

/-- `python: p in s` (substring containment). -/
def strIn (pat s : String) : Bool :=
  listHasInfix pat.data s.data

/-- `python: s.split()` restricted to spaces: the analyzer only ever splits
`typeDescriptions.typeString` values, whose whitespace is single spaces.
Empty fragments are discarded, as `str.split()` with no argument does. -/
def splitWsAux (cur : List Char) (acc : List String) : List Char → List String
  | [] => if cur.isEmpty then acc.reverse else acc.reverse ++ [⟨cur.reverse⟩]
  | c :: rest =>
    if c = ' ' then
      if cur.isEmpty then splitWsAux [] acc rest
      else splitWsAux [] (⟨cur.reverse⟩ :: acc) rest
    else splitWsAux (c :: cur) acc rest

def splitWs (s : String) : List String :=
  splitWsAux [] [] s.data

/-- Lower-casing, `python: s.lower()`, for ASCII letters (type strings are
ASCII). -/
def lowerStr (s : String) : String :=
  ⟨s.data.map (fun c =>
    if 'A' ≤ c ∧ c ≤ 'Z' then Char.ofNat (c.toNat + 32) else c)⟩

/-- Decimal digits of a natural number, most significant first; the fuel is
an upper bound on the number of division steps. -/
def natDigitsAux : Nat → Nat → List Char → List Char
  | 0, _, acc => acc
  | f + 1, n, acc =>
    let d := Nat.digitChar (n % 10)
    if n < 10 then d :: acc else natDigitsAux f (n / 10) (d :: acc)

/-- Decimal rendering of a natural number, as Python's f-string interpolation
of `self.node_counter` produces it. -/
def natStr (n : Nat) : String :=
  ⟨natDigitsAux (n + 1) n []⟩

/-! Injectivity of `natStr`, via a most-significant-first evaluation map. -/

def digitVal (c : Char) : Nat := c.toNat - 48

def digitsVal (l : List Char) : Nat :=
  l.foldl (fun a c => 10 * a + digitVal c) 0

/-! ## JSON values

Python dicts parsed by `json.load` become `JVal.obj` (insertion-ordered
association lists), JSON arrays become `JVal.arr`, JSON `null` and Python
`None` are both `JVal.null` (`dict.get` returns `None` equally for an absent
key and for a key bound to `null`, so the collapse is faithful). -/

inductive JVal where
  | obj (fields : List (String × JVal))
  | arr (elems : List JVal)
  | str (s : String)
  | jbool (b : Bool)
  | num (n : Int)
  | null
deriving Repr, Inhabited

namespace JVal

/-- `python: node.get(k)` on a dict (returns `None` when absent); on
non-dicts the analyzer never calls `.get`, the guard `isinstance(node, dict)`
having filtered them out, so `null` is as good as anything there. -/
def get : JVal → String → JVal
  | obj fields, k => lookupField fields k
  | _, _ => null
where
  lookupField : List (String × JVal) → String → JVal
    | [], _ => null
    | (k', v) :: rest, k => if k' = k then v else lookupField rest k

/-- `python: node.get(k, d)`: an absent key yields the default; a key bound
to JSON `null` yields Python `None`, i.e. `JVal.null`. -/
def getD (v : JVal) (k : String) (d : JVal) : JVal :=
  match v with
  | obj fields => getDField fields k d
  | _ => d
where
  getDField : List (String × JVal) → String → JVal → JVal
    | [], _, d => d
    | (k', v) :: rest, k, d => if k' = k then v else getDField rest k d

/-- Python truthiness of the JSON values the analyzer branches on. -/
def truthy : JVal → Bool
  | obj fields => !fields.isEmpty
  | arr elems => !elems.isEmpty
  | str s => !s.data.isEmpty
  | jbool b => b
  | num n => n ≠ 0
  | null => false

/-- The string value of a field, with `""` for anything that is not a
string (the analyzer only compares these against non-empty literals, so the
collapse is faithful). -/
def asStr : JVal → String
  | str s => s
  | _ => ""

/-- `python: node.get(k, '')` read as a string. -/
def getStr (v : JVal) (k : String) : String :=
  (v.getD k (str "")).asStr

/-- `python: node.get(k, False)` read as a boolean (Python truthiness). -/
def getBool (v : JVal) (k : String) : Bool :=
  (v.getD k (jbool false)).truthy

/-- `python: node.get('nodeType', '') == t`. -/
def isType (v : JVal) (t : String) : Bool :=
  v.getStr "nodeType" = t

/-- Whether the value is a Python dict. -/
def isObj : JVal → Bool
  | obj _ => true
  | _ => false

/-- The elements iterated by `for x in v` when `v` is a JSON array; the
analyzer only iterates statement/argument/node lists, which are arrays in
every solc artifact. -/
def items : JVal → List JVal
  | arr elems => elems
  | _ => []

end JVal

/-! ## CFG data model (`CFGNode`, networkx `DiGraph` as ordered lists) -/

/-- `python: class NodeType(Enum)`. -/
inductive NodeType where
  | FUNCTION_CALL | EXTERNAL_CALL | STATE_CHANGE | CONDITION | LOOP
  | RETURN | REVERT | MODIFIER | ENTRY | EXIT
  | INHERITED_CALL | INDIRECT_CALL | KNOWN_EXTERNAL_CALL
deriving DecidableEq, Repr, Inhabited

/-- `python: @dataclass class CFGNode`. The `source_location`,
`contract_name`, `predecessors` and `successors` fields are never written or
read by the analyzer and are omitted. -/
structure CFGNode where
  id : String
  node_type : NodeType
  function_name : Option String := none
  called_function : Option String := none
  is_external : Bool := false
  is_inherited : Bool := false
  modifies_state : Bool := false
  ast_node : Option JVal := none
deriving Inhabited

/-- A directed edge with its optional `label` attribute. -/
structure Edge where
  src : String
  tgt : String
  label : Option String := none
deriving DecidableEq, Repr, Inhabited

/-- The state mutated by the CFG builder: `self.node_counter`, the nodes of
`self.cfg` (an association list in insertion order: networkx preserves
insertion order and `add_node` with an existing id replaces the stored
attributes in place), and the edges of `self.cfg` in insertion order
(`add_edge` on an existing pair updates the attributes in place). -/
structure CfgSt where
  counter : Nat := 0
  nodes : List (String × CFGNode) := []
  edges : List Edge := []

/-- `python: self.cfg.add_node(id, cfg_node=node)` — replace in place when
the id exists, append otherwise. -/
def addNode (st : CfgSt) (id : String) (nd : CFGNode) : CfgSt :=
  { st with nodes := go st.nodes }
where
  go : List (String × CFGNode) → List (String × CFGNode)
    | [] => [(id, nd)]
    | (k, v) :: rest => if k = id then (k, nd) :: rest else (k, v) :: go rest

/-- `python: self.cfg.add_edge(u, v[, label=l])` — on an existing pair
networkx merges the attribute dict, so an explicit label overwrites and an
absent one leaves the old label in place. -/
def addEdge (st : CfgSt) (u v : String) (l : Option String) : CfgSt :=
  { st with edges := go st.edges }
where
  go : List Edge → List Edge
    | [] => [⟨u, v, l⟩]
    | e :: rest =>
      if e.src = u ∧ e.tgt = v then
        ⟨u, v, match l with | some s => some s | none => e.label⟩ :: rest
      else e :: go rest

/-- `python: self.cfg.nodes.get(id, {}).get('cfg_node')`. -/
def lookupNode (nodes : List (String × CFGNode)) (id : String) :
    Option CFGNode :=
  match nodes with
  | [] => none
  | (k, v) :: rest => if k = id then some v else lookupNode rest id

/-- `python: list(graph.successors(u))` — neighbours in edge-insertion
order; with the replace-in-place `addEdge` each pair occurs at most once. -/
def successorsOf (edges : List Edge) (u : String) : List String :=
  (edges.filter (fun e => e.src = u)).map Edge.tgt

/-! ## Symbol table -/

/-- Generic insertion-ordered dict lookup. -/
def alookup {α : Type} : List (String × α) → String → Option α
  | [], _ => none
  | (k', v) :: rest, k => if k' = k then some v else alookup rest k

/-- The part of a `self.all_contracts[name]` record the analysis reads:
the function short-name keys, `is_interface` and `is_abstract`
(`is_library`, the AST node, state variables and modifiers stored there are
never read back by the analysed code paths). -/
structure ContractData where
  functions : List String := []
  is_interface : Bool := false
  is_abstract : Bool := false
  base_contracts : List String := []
deriving DecidableEq, Repr, Inhabited

/-- The part of a `self.all_functions[key]` record the analysis reads back:
the visibility (for severity). -/
structure FuncInfo where
  visibility : String := "internal"
deriving DecidableEq, Repr, Inhabited

/-- The symbol tables populated by `_extract_contract_info` and
`_identify_interface_implementations`; they are frozen before the call-graph
and CFG phases read them. -/
structure SymTab where
  allContracts : List (String × ContractData) := []
  allFunctions : List (String × FuncInfo) := []
  stateVariables : List (String × List String) := []
  interfaceImplementations : List (String × List String) := []

/-- `python: current_function.split('.')[0]`. -/
def contractOf (s : String) : String :=
  ⟨s.data.takeWhile (fun c => c ≠ '.')⟩

/-! ## Call classifier (`_classify_call`, `_extract_contract_from_type`,
`_find_implementation`) -/

/-- `python: _extract_contract_from_type` — split the type string on
whitespace and return the token following the first `"contract"` token that
has one. -/
def extractContractFromType (ts : String) : Option String :=
  go (splitWs ts)
where
  go : List String → Option String
    | "contract" :: next :: _ => some next
    | _ :: rest => go rest
    | [] => none

/-- The record `_classify_call` returns. -/
structure CallInfo where
  is_external : Bool := false
  is_cross_contract : Bool := false
  is_inherited : Bool := false
  called_function : String := "unknown"
  target_contract : Option String := none
  target_function : Option String := none
  implementation_contract : Option String := none
deriving DecidableEq, Repr, Inhabited

/-- `python: self.all_contracts[c].get('functions', {})` keys (the lookup is
only performed on names recorded in the tables, hence total there). -/
def functionsOfContract (tab : SymTab) (c : String) : List String :=
  match alookup tab.allContracts c with
  | some cd => cd.functions
  | none => []

/-- `python: _find_implementation` — for an interface, the first recorded
implementer whose function set contains the short name; for a concrete
non-abstract contract, the contract itself. -/
def findImplementation (tab : SymTab) (interfaceName functionName : String) :
    Option String :=
  match alookup tab.allContracts interfaceName with
  | none => none
  | some cd =>
    if cd.is_interface then
      firstWith tab functionName
        ((alookup tab.interfaceImplementations interfaceName).getD [])
    else if !cd.is_abstract then some interfaceName
    else none
where
  firstWith (tab : SymTab) (functionName : String) :
      List String → Option String
    | [] => none
    | impl :: rest =>
      if functionName ∈ functionsOfContract tab impl then some impl
      else firstWith tab functionName rest

/-- `python: _classify_call`. -/
def classifyCall (tab : SymTab) (expression : JVal) (currentContract : String) :
    CallInfo :=
  let exprType := expression.getStr "nodeType"
  if exprType = "MemberAccess" then
    let baseExpr := expression.getD "expression" (.obj [])
    let memberName := expression.getStr "memberName"
    let r : CallInfo :=
      { called_function := memberName, target_function := some memberName }
    let typeString := (expression.getD "typeDescriptions" (.obj [])).getStr
      "typeString"
    if baseExpr.isType "Identifier" then
      if baseExpr.getStr "name" = "super" then
        { r with is_inherited := true }
      else
        let baseTypeString :=
          (baseExpr.getD "typeDescriptions" (.obj [])).getStr "typeString"
        let r :=
          if strIn "contract" baseTypeString then
            match extractContractFromType baseTypeString with
            | some cm =>
              let r := { r with target_contract := some cm }
              let r :=
                match findImplementation tab cm memberName with
                | some impl => { r with implementation_contract := some impl }
                | none => r
              if cm ≠ currentContract then
                { r with is_cross_contract := true, is_external := true }
              else
                { r with is_external := false }
            | none => r
          else r
        if strIn "external" typeString ∧ strIn "function" typeString then
          { r with is_external := true }
        else r
    else
      if strIn "external" typeString ∧ strIn "function" typeString then
        { r with is_external := true }
      else r
  else if exprType = "Identifier" then
    let n := expression.getStr "name"
    { called_function := n, target_function := some n }
  else
    ({} : CallInfo)

/-! ## State-variable access test (`_is_state_variable_access_multi`) and
variable paths (`_get_full_variable_path`)

Both recurse through `node.get('expression', {})`, which Lean cannot see as
structural descent, so they carry fuel; the wrappers hand them the value's
nesting depth, which the Python recursion never exceeds. -/

mutual

def jvalDepth : JVal → Nat
  | .obj fields => 1 + jfieldsDepth fields
  | .arr elems => 1 + jelemsDepth elems
  | _ => 1

def jfieldsDepth : List (String × JVal) → Nat
  | [] => 0
  | (_, v) :: rest => max (jvalDepth v) (jfieldsDepth rest)

def jelemsDepth : List JVal → Nat
  | [] => 0
  | v :: rest => max (jvalDepth v) (jelemsDepth rest)

end

/-- `python: _is_state_variable_access_multi` (fuelled). -/
def isStateVarAccessF (tab : SymTab) : Nat → JVal → String → Bool
  | 0, _, _ => false
  | f + 1, node, contractName =>
    if !node.isObj then false
    else
      let nodeType := node.getStr "nodeType"
      if nodeType = "Identifier" then
        let varName := node.getStr "name"
        let typeString := lowerStr
          ((node.getD "typeDescriptions" (.obj [])).getStr "typeString")
        if strIn "storage" typeString then true
        else varName ∈ (alookup tab.stateVariables contractName).getD []
      else if nodeType = "MemberAccess" then
        let typeString := lowerStr
          ((node.getD "typeDescriptions" (.obj [])).getStr "typeString")
        if strIn "storage" typeString then true
        else
          let baseExpr := node.getD "expression" (.obj [])
          if baseExpr.isType "Identifier" ∧
              strIn "storage" (lowerStr
                ((baseExpr.getD "typeDescriptions" (.obj [])).getStr
                  "typeString")) then
            true
          else isStateVarAccessF tab f baseExpr contractName
      else false

/-- `python: _is_state_variable_access_multi`. -/
def isStateVarAccess (tab : SymTab) (node : JVal) (contractName : String) :
    Bool :=
  isStateVarAccessF tab (jvalDepth node) node contractName

/-- `python: _get_full_variable_path` (fuelled). -/
def getFullVariablePathF : Nat → JVal → String
  | 0, _ => ""
  | f + 1, node =>
    if !node.isObj then ""
    else
      let nodeType := node.getStr "nodeType"
      if nodeType = "Identifier" then node.getStr "name"
      else if nodeType = "MemberAccess" then
        let baseExpr := node.getD "expression" (.obj [])
        let memberName := node.getStr "memberName"
        if baseExpr.isType "Identifier" then
          baseExpr.getStr "name" ++ "." ++ memberName
        else if baseExpr.isType "MemberAccess" then
          getFullVariablePathF f baseExpr ++ "." ++ memberName
        else memberName
      else ""

/-- `python: _get_full_variable_path`. -/
def getFullVariablePath (node : JVal) : String :=
  getFullVariablePathF (jvalDepth node) node

/-! ## Severity (`_determine_severity`) -/

/-- One entry of a pattern's `state_changes_after` list. -/
structure ScEntry where
  node_id : String
  name : String
deriving DecidableEq, Repr, Inhabited

/-- `python: _determine_severity` (its `ext_call` argument is never read). -/
def determineSeverity (tab : SymTab) (stateChanges : List ScEntry)
    (funcKey classification : String) : String :=
  if classification = "safe_external_call" then "low"
  else if classification = "confirmed_reentrancy" then "critical"
  else
    let visibility :=
      match alookup tab.allFunctions funcKey with
      | some fi => fi.visibility
      | none => "internal"
    if stateChanges.length > 1 ∧
        (visibility = "public" ∨ visibility = "external") then "high"
    else if !stateChanges.isEmpty ∧
        (visibility = "public" ∨ visibility = "external") then "medium"
    else "low"

/-! ## CFG builder (`get_next_node_id`, `_build_function_cfg`,
`_process_statement`, `_process_if_statement`, `_find_branch_end`,
`_process_expression`)

`_process_statement` recurses through values produced by `dict.get`, which
is not structural descent for Lean, so the processors carry fuel that drops
by one per Python call level; the wrappers pass each statement's nesting
depth plus one, which the recursion never exhausts (every nested call is on
a strictly deeper subvalue). General lemmas below are fuel-generic. -/

/-- `python: f"{safe_func_key}_node_{self.node_counter}"`. -/
def nodeIdOf (key : String) (n : Nat) : String :=
  sanitize key ++ "_node_" ++ natStr n

def entryIdOf (key : String) : String := sanitize key ++ "_entry"

def exitIdOf (key : String) : String := sanitize key ++ "_exit"

/-- `python: get_next_node_id(func_key)` (the analyzer always passes the
function key on the paths modelled here). -/
def getNextNodeId (key : String) (st : CfgSt) : String × CfgSt :=
  (nodeIdOf key (st.counter + 1), { st with counter := st.counter + 1 })

/-! `_find_branch_end`: a DFS over the partially built CFG with a shared
`visited` set and a `nonlocal last_node` accumulator. -/

def fbDfs : Nat → List Edge → String → String → List String → String →
    (List String × String)
  | 0, _, _, _, visited, last => (visited, last)
  | f + 1, edges, exitId, node, visited, last =>
    if node ∈ visited ∨ node = exitId then (visited, last)
    else
      let visited := node :: visited
      let succs := successorsOf edges node
      if succs.isEmpty ∨ succs.all (fun s => s = exitId) then (visited, node)
      else
        succs.foldl (fun acc s =>
          if s ≠ exitId then fbDfs f edges exitId s acc.1 acc.2 else acc)
          (visited, last)

/-- `python: _find_branch_end(start_node, func_key, exit_id)`; the call
depth is bounded by the number of distinct ids the DFS can visit, at most
one per edge target plus the start node. -/
def findBranchEnd (edges : List Edge) (exitId start : String) : String :=
  (fbDfs (edges.length + 2) edges exitId start [] start).2

/-- `python: _process_expression(expr, func_key, node_id)` (fuelled for the
`BinaryOperation` descent). -/
def processExpression (tab : SymTab) :
    Nat → JVal → String → String → CfgSt → (Option String × CfgSt)
  | 0, _, _, _, st => (none, st)
  | f + 1, expr, key, nodeId, st =>
    if !expr.isObj then (none, st)
    else
      let exprType := expr.getStr "nodeType"
      if exprType = "FunctionCall" then
        let expression := expr.getD "expression" (.obj [])
        let contractName := contractOf key
        let ci := classifyCall tab expression contractName
        let tcf : NodeType × String :=
          if ci.is_cross_contract then
            match ci.implementation_contract.orElse (fun _ =>
                ci.target_contract) with
            | some tc =>
              (.KNOWN_EXTERNAL_CALL, tc ++ "." ++ ci.target_function.getD "")
            | none => (.EXTERNAL_CALL, ci.called_function)
          else if ci.is_external then (.EXTERNAL_CALL, ci.called_function)
          else if ci.is_inherited then (.INHERITED_CALL, ci.called_function)
          else (.FUNCTION_CALL, ci.called_function)
        let st := addNode st nodeId
          { id := nodeId, node_type := tcf.1, function_name := some key,
            called_function := some tcf.2,
            is_external := ci.is_external || ci.is_cross_contract,
            is_inherited := ci.is_inherited, ast_node := some expr }
        (some nodeId, st)
      else if exprType = "Assignment" then
        let l1 := expr.getD "leftHandSide" (.obj [])
        let leftSide := if l1.truthy then l1 else expr.getD "left" (.obj [])
        let isSc := isStateVarAccess tab leftSide (contractOf key)
        let st := addNode st nodeId
          { id := nodeId, node_type := .STATE_CHANGE,
            function_name := some key, modifies_state := isSc,
            ast_node := some expr }
        (some nodeId, st)
      else if exprType = "BinaryOperation" then
        let left := expr.getD "leftExpression" (.obj [])
        let right := expr.getD "rightExpression" (.obj [])
        if left.isType "FunctionCall" then
          processExpression tab f left key nodeId st
        else if right.isType "FunctionCall" then
          processExpression tab f right key nodeId st
        else
          let st := addNode st nodeId
            { id := nodeId, node_type := .CONDITION,
              function_name := some key, ast_node := some expr }
          (some nodeId, st)
      else
        let st := addNode st nodeId
          { id := nodeId, node_type := .CONDITION, function_name := some key,
            ast_node := some expr }
        (some nodeId, st)

/-- One branch of `_process_if_statement` (the true and false halves of the
Python function are the same code up to the edge label): process the branch
body, wire the condition to its first node and its branch end to the merge
node, or wire condition → merge directly when the branch is absent. -/
def ifBranch (proc : JVal → CfgSt → (Option String × CfgSt))
    (branch : JVal) (conditionId mergeId exitId lab : String)
    (st : CfgSt) : CfgSt :=
  if branch.truthy then
    let r := proc branch st
    match r.1 with
    | some first =>
      let st := addEdge r.2 conditionId first (some lab)
      let last := findBranchEnd st.edges exitId first
      if !last.data.isEmpty ∧ !strSuf "_exit" last then
        addEdge st last mergeId none
      else st
    | none => r.2
  else addEdge st conditionId mergeId (some lab)

/-- `python: _process_if_statement(stmt, func_key, exit_id)`, parametrised
by the statement processor used on the two branches (the recursive call one
fuel level down). -/
def processIfWith (proc : JVal → CfgSt → (Option String × CfgSt))
    (stmt : JVal) (key exitId : String) (st : CfgSt) : String × CfgSt :=
  let pc := getNextNodeId key st
  let conditionId := pc.1
  let st := addNode pc.2 conditionId
    { id := conditionId, node_type := .CONDITION,
      function_name := some key, ast_node := some stmt }
  let pm := getNextNodeId key st
  let mergeId := pm.1
  let st := addNode pm.2 mergeId
    { id := mergeId, node_type := .CONDITION, function_name := some key }
  let st := ifBranch proc (stmt.getD "trueBody" (.obj [])) conditionId
    mergeId exitId "true" st
  let st := ifBranch proc (stmt.getD "falseBody" .null) conditionId
    mergeId exitId "false" st
  (conditionId, st)

/-- One step of the `for s in statements` loop inside the `Block` case,
carrying `(first_id, prev_id, cfg)`. -/
def blockStep (r : Option String × CfgSt)
    (acc : Option String × Option String × CfgSt) :
    Option String × Option String × CfgSt :=
  match r.1 with
  | some i =>
    let first := match acc.1 with | none => some i | some x => some x
    let st := match acc.2.1 with
      | some p => addEdge r.2 p i none
      | none => r.2
    (first, some i, st)
  | none => (acc.1, acc.2.1, r.2)

/-- `python: _process_statement(stmt, func_key, exit_id)`. -/
def processStatement (tab : SymTab) :
    Nat → JVal → String → String → CfgSt → (Option String × CfgSt)
  | 0, _, _, _, st => (none, st)
  | f + 1, stmt, key, exitId, st =>
    if !stmt.isObj then (none, st)
    else
      let stmtType := stmt.getStr "nodeType"
      if stmtType = "ExpressionStatement" then
        let expr := stmt.getD "expression" (.obj [])
        let p := getNextNodeId key st
        processExpression tab (jvalDepth expr) expr key p.1 p.2
      else if stmtType = "EmitStatement" then
        let p := getNextNodeId key st
        (some p.1, addNode p.2 p.1
          { id := p.1, node_type := .CONDITION, function_name := some key,
            ast_node := some stmt })
      else if stmtType = "VariableDeclarationStatement" then
        let p := getNextNodeId key st
        let initialValue := stmt.getD "initialValue" (.obj [])
        if initialValue.truthy ∧ initialValue.isType "FunctionCall" then
          processExpression tab (jvalDepth initialValue) initialValue key
            p.1 p.2
        else
          (some p.1, addNode p.2 p.1
            { id := p.1, node_type := .CONDITION, function_name := some key,
              ast_node := some stmt })
      else if stmtType = "Return" then
        let p := getNextNodeId key st
        let st := addNode p.2 p.1
          { id := p.1, node_type := .RETURN, function_name := some key,
            ast_node := some stmt }
        (some p.1, addEdge st p.1 exitId none)
      else if stmtType = "Block" then
        let stmts := stmt.getD "statements" (.arr [])
        if stmts.truthy then
          let r := stmts.items.foldl (fun acc s =>
            blockStep (processStatement tab f s key exitId acc.2.2) acc)
            (none, none, st)
          (r.1, r.2.2)
        else (none, st)
      else if stmtType = "IfStatement" then
        let r := processIfWith
          (fun s st => processStatement tab f s key exitId st)
          stmt key exitId st
        (some r.1, r.2)
      else
        let p := getNextNodeId key st
        (some p.1, addNode p.2 p.1
          { id := p.1, node_type := .CONDITION, function_name := some key,
            ast_node := some stmt })

/-- `python: _process_if_statement` with the fuel the recursion hands the
branches. -/
def processIfStatement (tab : SymTab) (f : Nat) (stmt : JVal)
    (key exitId : String) (st : CfgSt) : String × CfgSt :=
  processIfWith (fun s st => processStatement tab f s key exitId st)
    stmt key exitId st

/-- The `prev_id` loop of `_build_function_cfg`; returns the final
`prev_id`. -/
def buildSeq (tab : SymTab) :
    List JVal → String → String → String → CfgSt → (String × CfgSt)
  | [], _, _, prev, st => (prev, st)
  | s :: rest, key, exitId, prev, st =>
    let r := processStatement tab (2 * jvalDepth s + 2) s key exitId st
    match r.1 with
    | some i => buildSeq tab rest key exitId i (addEdge r.2 prev i none)
    | none => buildSeq tab rest key exitId prev r.2

/-- `python: _build_function_cfg(func_key, func_node)`. -/
def buildFunctionCfg (tab : SymTab) (funcKey : String) (funcNode : JVal)
    (st : CfgSt) : CfgSt :=
  let entryId := entryIdOf funcKey
  let exitId := exitIdOf funcKey
  let st := addNode st entryId
    { id := entryId, node_type := .ENTRY, function_name := some funcKey }
  let st := addNode st exitId
    { id := exitId, node_type := .EXIT, function_name := some funcKey }
  let body := funcNode.getD "body" (.obj [])
  if body.truthy then
    let stmts := body.getD "statements" (.arr [])
    if stmts.truthy then
      let r := buildSeq tab stmts.items funcKey exitId entryId st
      if r.1 ≠ entryId then addEdge r.2 r.1 exitId none else r.2
    else st
  else st

/-! ## Reentrancy detector (`_check_reentrancy_path`,
`_find_state_changes_after_node`, `_create_reentrancy_pattern`,
`_analyze_function_reentrancy_multi`) -/

/-- An edge of `self.global_call_graph` with its attributes. -/
structure CgEdge where
  src : String
  tgt : String
  call_type : String := "internal"
  is_resolved : Bool := false
  via_interface : Option String := none
deriving DecidableEq, Repr, Inhabited

/-- `python: self.global_call_graph.successors(u)`. (networkx raises on a
node absent from the graph; the detector only queries function keys that the
call-graph phase inserted, where the result is the filtered edge list.) -/
def cgSuccessors (cg : List CgEdge) (u : String) : List String :=
  (cg.filter (fun e => e.src = u)).map CgEdge.tgt

/-- The body of the `for successor in successors` loop of
`_check_reentrancy_path`, abstracted over the recursive call (`recur` is
the DFS one fuel level down); the loop's early `return True` becomes an
accumulator that short-circuits once true. -/
def crpGo (recur : List String → String → Bool × List String)
    (orig : String) (acc : Bool × List String) (s : String) :
    Bool × List String :=
  if acc.1 then acc
  else if strPre "EXTERNAL:" s then (true, acc.2)
  else if s = orig then (true, acc.2)
  else recur acc.2 s

/-- `python: _check_reentrancy_path(from_func, original_func, visited)` —
a DFS sharing its `visited` set across recursive calls. Fuel bounds the
call depth, which grows only when a new node enters `visited`. -/
def crpDfs : Nat → List CgEdge → String → List String → String →
    (Bool × List String)
  | 0, _, _, visited, _ => (false, visited)
  | f + 1, cg, orig, visited, cur =>
    if cur ∈ visited then (false, visited)
    else
      (cgSuccessors cg cur).foldl
        (crpGo (fun v s => crpDfs f cg orig v s) orig)
        (false, cur :: visited)

/-- `python: _check_reentrancy_path(target, func_key)` — the call depth is
bounded by the number of distinct call-graph nodes, at most two per edge
plus the start node. -/
def checkReentrancyPath (cg : List CgEdge) (fromFunc originalFunc : String) :
    Bool :=
  (crpDfs (2 * cg.length + 2) cg originalFunc [] fromFunc).1

/-- The `name` recorded for a collected state change. -/
def scName (nd : CFGNode) : String :=
  match nd.ast_node with
  | some a => getFullVariablePath (a.getD "leftHandSide" (.obj []))
  | none => "unknown"

/-- The `while queue` loop of `_find_state_changes_after_node`; the first
component records whether the queue drained before the fuel ran out. -/
def bfsSC : Nat → List (String × CFGNode) → List Edge → List String →
    List String → List ScEntry → (Bool × List String × List ScEntry)
  | 0, _, _, queue, visited, acc => (queue.isEmpty, visited, acc)
  | _ + 1, _, _, [], visited, acc => (true, visited, acc)
  | f + 1, nodes, edges, n :: queue, visited, acc =>
    if n ∈ visited then bfsSC f nodes edges queue visited acc
    else
      let visited' := n :: visited
      if strSuf "_exit" n then bfsSC f nodes edges queue visited' acc
      else
        let acc' :=
          match lookupNode nodes n with
          | some nd =>
            if nd.node_type = .STATE_CHANGE ∧ nd.modifies_state then
              acc ++ [⟨n, scName nd⟩]
            else acc
          | none => acc
        let newQ := (successorsOf edges n).filter
          (fun s => s ∉ visited' ∧ !strSuf "_exit" s)
        bfsSC f nodes edges (queue ++ newQ) visited' acc'

/-- `python: _find_state_changes_after_node(start_node, safe_func_key)`. -/
def findStateChangesAfterNode (nodes : List (String × CFGNode))
    (edges : List Edge) (start safeFuncKey : String) : List ScEntry :=
  let initQ := (successorsOf edges start).filter
    (fun s => strPre safeFuncKey s)
  (bfsSC ((edges.length + 1) * (edges.length + 1) + initQ.length + 1)
    nodes edges initQ [] []).2.2

/-- The entries `_analyze_function_reentrancy_multi` collects into
`external_calls_found`. -/
structure ExtCallEntry where
  node_id : String
  called_function : Option String
  is_known : Bool
deriving DecidableEq, Repr, Inhabited

/-- Python's `str` rendering of an optional string record value. -/
def optStr : Option String → String
  | some s => s
  | none => "None"

/-- A reentrancy pattern record. -/
structure Pattern where
  ptype : String
  function : String
  external_call_node : String
  external_call_target : Option String
  state_changes_after : List ScEntry
  severity : String
  classification : String
  details : String
deriving DecidableEq, Repr, Inhabited

/-- `python: _create_reentrancy_pattern`. -/
def createReentrancyPattern (tab : SymTab) (funcKey : String)
    (ec : ExtCallEntry) (stateChanges : List ScEntry)
    (classification : String) : Pattern :=
  { ptype := classification, function := funcKey,
    external_call_node := ec.node_id,
    external_call_target := ec.called_function,
    state_changes_after := stateChanges,
    severity := determineSeverity tab stateChanges funcKey classification,
    classification := classification,
    details := "External call to " ++ optStr ec.called_function ++
      " followed by " ++ natStr stateChanges.length ++ " state changes" }

/-- The patterns emitted for one entry of `external_calls_found`. -/
def patternsForExtCall (tab : SymTab) (cg : List CgEdge)
    (cfgNodes : List (String × CFGNode)) (cfgEdges : List Edge)
    (funcKey safeFuncKey : String) (ec : ExtCallEntry) : List Pattern :=
  if ec.is_known then
    match ec.called_function with
    | some target =>
      if (alookup tab.allFunctions target).isSome then
        let canReenter := checkReentrancyPath cg target funcKey
        let scs := findStateChangesAfterNode cfgNodes cfgEdges ec.node_id
          safeFuncKey
        if canReenter then
          if !scs.isEmpty then
            [createReentrancyPattern tab funcKey ec scs
              "confirmed_reentrancy"]
          else []
        else
          if !scs.isEmpty then
            [createReentrancyPattern tab funcKey ec scs "safe_external_call"]
          else []
      else []
    | none => []
  else
    let scs := findStateChangesAfterNode cfgNodes cfgEdges ec.node_id
      safeFuncKey
    if !scs.isEmpty then
      [createReentrancyPattern tab funcKey ec scs "potential_reentrancy"]
    else []

/-- `python: _analyze_function_reentrancy_multi(func_key)`. -/
def analyzeFunctionReentrancyMulti (tab : SymTab) (cg : List CgEdge)
    (cfgNodes : List (String × CFGNode)) (cfgEdges : List Edge)
    (funcKey : String) : List Pattern :=
  let safeFuncKey := sanitize funcKey
  let funcNodes := cfgNodes.filter (fun p => strPre safeFuncKey p.1)
  let extCalls := funcNodes.filterMap (fun p =>
    if p.2.node_type = .EXTERNAL_CALL ∨
        p.2.node_type = .KNOWN_EXTERNAL_CALL then
      some (⟨p.1, p.2.called_function,
        p.2.node_type = .KNOWN_EXTERNAL_CALL⟩ : ExtCallEntry)
    else none)
  extCalls.flatMap
    (patternsForExtCall tab cg cfgNodes cfgEdges funcKey safeFuncKey)

/-! ## Call-graph builder (`_analyze_function_calls_multi`,
`_process_function_call_multi`, `_add_external_call`,
`_process_internal_call`, `_find_inherited_function`,
`_check_for_indirect_call_multi`)

The walk only appends to the analyzer's records; nothing it reads is
mutated while it runs, so it is modelled as a pure function producing the
ordered list of effects (edges emitted into `self.global_call_graph`, and
the records appended to `self.external_calls`, `self.cross_contract_calls`,
`self.indirect_calls` and the per-function `state_changes` lists; the
per-function copies of the first three are the same data filtered by
caller and are not duplicated here). -/

/-- One `self.cross_contract_calls` record (`ast_node` omitted). -/
structure CrossRec where
  cfrom : String
  cto : String
  via_interface : Option String
deriving DecidableEq, Repr, Inhabited

/-- The ordered effects of the call-graph walk. -/
structure WalkEff where
  edges : List CgEdge := []
  externalCalls : List (String × String) := []
  crossContractCalls : List CrossRec := []
  indirectCalls : List (String × String) := []
  stateChanges : List (String × String) := []
deriving DecidableEq, Repr, Inhabited

def WalkEff.app (a b : WalkEff) : WalkEff :=
  { edges := a.edges ++ b.edges,
    externalCalls := a.externalCalls ++ b.externalCalls,
    crossContractCalls := a.crossContractCalls ++ b.crossContractCalls,
    indirectCalls := a.indirectCalls ++ b.indirectCalls,
    stateChanges := a.stateChanges ++ b.stateChanges }

instance : Append WalkEff := ⟨WalkEff.app⟩

/-- `python: self.inheritance_map` is stored alongside the other tables. -/
structure InhMap where
  bases : List (String × List String) := []
deriving Repr, Inhabited

/-- `python: _find_inherited_function(func_name, contract)` — DFS over base
contracts, first match wins; the loop with its early returns becomes a fold
short-circuiting on the first hit (fuelled: the Python recursion has no
visited set and the inheritance map of a loaded artifact set is acyclic). -/
def findInheritedFunction (tab : SymTab) (im : InhMap) :
    Nat → String → String → Option String
  | 0, _, _ => none
  | f + 1, funcName, contract =>
    ((alookup im.bases contract).getD []).foldl (fun acc base =>
      match acc with
      | some x => some x
      | none =>
        let fullName := base ++ "." ++ funcName
        if (alookup tab.allFunctions fullName).isSome then some fullName
        else findInheritedFunction tab im f funcName base) none

/-- `python: _add_external_call(from_function, target, ast_node)`. -/
def addExternalCall (fromFunction target : String) : WalkEff :=
  { externalCalls := [(fromFunction, target)],
    edges := [{ src := fromFunction, tgt := "EXTERNAL:" ++ target,
                call_type := "external" }] }

/-- `python: _process_internal_call(current_function, call_info, ast_node)`. -/
def processInternalCall (tab : SymTab) (im : InhMap)
    (currentFunction : String) (ci : CallInfo) : WalkEff :=
  let currentContract := contractOf currentFunction
  if ci.is_inherited then
    match findInheritedFunction tab im (tab.allContracts.length + 1)
        (optStr ci.target_function) currentContract with
    | some inheritedTarget =>
      { edges := [{ src := currentFunction, tgt := inheritedTarget,
                    call_type := "inherited" }] }
    | none => {}
  else
    let fullTarget := currentContract ++ "." ++ optStr ci.target_function
    if (alookup tab.allFunctions fullTarget).isSome then
      { edges := [{ src := currentFunction, tgt := fullTarget,
                    call_type := "internal" }] }
    else {}

/-- `python: _process_function_call_multi(call_node, current_function)`. -/
def processFunctionCallMulti (tab : SymTab) (im : InhMap) (callNode : JVal)
    (currentFunction : String) : WalkEff :=
  let expression := callNode.getD "expression" (.obj [])
  let currentContract := contractOf currentFunction
  let ci := classifyCall tab expression currentContract
  if ci.is_cross_contract then
    match ci.implementation_contract.orElse (fun _ => ci.target_contract),
        ci.target_function with
    | some targetContract, some targetFunction =>
      let fullTarget := targetContract ++ "." ++ targetFunction
      let viaInterface :=
        if ci.implementation_contract.isSome then ci.target_contract
        else none
      if (alookup tab.allFunctions fullTarget).isSome then
        { crossContractCalls :=
            [⟨currentFunction, fullTarget, viaInterface⟩],
          edges := [{ src := currentFunction, tgt := fullTarget,
                      call_type := "cross_contract", is_resolved := true,
                      via_interface := viaInterface }] }
      else addExternalCall currentFunction ci.called_function
    | _, _ => {}
  else if ci.is_external then
    addExternalCall currentFunction ci.called_function
  else processInternalCall tab im currentFunction ci

/-- `python: _check_for_indirect_call_multi(encode_node, current_function,
parent_node)`. -/
def checkForIndirectCallMulti (tab : SymTab) (currentFunction : String)
    (parentNode : Option JVal) : WalkEff :=
  match parentNode with
  | none => {}
  | some parent =>
    if parent.isType "FunctionCall" then
      let args := parent.getD "arguments" (.arr [])
      match args.items with
      | [] => {}
      | firstArg :: _ =>
        if firstArg.isType "MemberAccess" ∧
            firstArg.getStr "memberName" = "selector" then
          let selectorBase := firstArg.getD "expression" (.obj [])
          if selectorBase.isType "MemberAccess" then
            let funcName := selectorBase.getStr "memberName"
            let baseExpr := selectorBase.getD "expression" (.obj [])
            let isThisContract := baseExpr.isType "Identifier" ∧
              baseExpr.getStr "name" = "this"
            if isThisContract then
              let currentContract := contractOf currentFunction
              let targetFunc := currentContract ++ "." ++ funcName
              if (alookup tab.allFunctions targetFunc).isSome then
                { edges := [{ src := currentFunction, tgt := targetFunc,
                              call_type := "indirect" }],
                  indirectCalls := [(currentFunction, targetFunc)] }
              else {}
            else {}
          else {}
        else {}
    else {}

/-- The `if/elif` dispatch at the top of `_analyze_function_calls_multi`. -/
def walkDispatch (tab : SymTab) (im : InhMap) (currentFunction : String)
    (node : JVal) (parent : Option JVal) : WalkEff :=
  let nodeType := node.getStr "nodeType"
  if nodeType = "FunctionCall" then
    processFunctionCallMulti tab im node currentFunction
  else if nodeType = "MemberAccess" then
    let memberName := node.getStr "memberName"
    if memberName = "encodeWithSelector" ∨ memberName = "encode" ∨
        memberName = "encodePacked" then
      checkForIndirectCallMulti tab currentFunction parent
    else {}
  else if nodeType = "Assignment" then
    let l1 := node.getD "leftHandSide" (.obj [])
    let left := if l1.truthy then l1 else node.getD "left" (.obj [])
    if isStateVarAccess tab left (contractOf currentFunction) then
      { stateChanges := [(currentFunction, getFullVariablePath left)] }
    else {}
  else {}

mutual

/-- `python: _analyze_function_calls_multi(node, current_function,
parent_node)` — dispatch on the node, then recurse into every dict-valued
field and every dict item of every list-valued field, passing the node as
the parent. -/
def walkAst (tab : SymTab) (im : InhMap) (currentFunction : String) :
    JVal → Option JVal → WalkEff
  | .obj fields, parent =>
    walkDispatch tab im currentFunction (.obj fields) parent ++
      walkFields tab im currentFunction (.obj fields) fields
  | _, _ => {}

def walkFields (tab : SymTab) (im : InhMap) (currentFunction : String) :
    JVal → List (String × JVal) → WalkEff
  | _, [] => {}
  | self, (_, v) :: rest =>
    (match v with
     | .obj f => walkAst tab im currentFunction (.obj f) (some self)
     | .arr items => walkItems tab im currentFunction self items
     | _ => {}) ++ walkFields tab im currentFunction self rest

def walkItems (tab : SymTab) (im : InhMap) (currentFunction : String) :
    JVal → List JVal → WalkEff
  | _, [] => {}
  | self, item :: rest =>
    (match item with
     | .obj f => walkAst tab im currentFunction (.obj f) (some self)
     | _ => {}) ++ walkItems tab im currentFunction self rest

end

/-! ## AST loader (`load_build_info`, `_extract_contracts_from_build`,
`_extract_contracts_from_ast`) -/

/-- `python: @dataclass class ContractContext` (parsed `ast_data` kept). -/
structure ContractContext where
  contract_name : String
  file_path : String
  ast_data : JVal
  is_interface : Bool := false
  is_library : Bool := false
  is_abstract : Bool := false
deriving Repr, Inhabited

/-- `python: 'k' in node` — dict key presence (a key bound to JSON `null`
is present). -/
def hasKey (v : JVal) (k : String) : Bool :=
  match v with
  | .obj fields => go fields k
  | _ => false
where
  go : List (String × JVal) → String → Bool
    | [], _ => false
    | (k', _) :: rest, k => if k' = k then true else go rest k

/-- `python: _extract_contracts_from_ast(ast_node, source_file,
build_file)`. -/
def extractContractsFromAst (astNode : JVal) (sourceFile : String) :
    List ContractContext :=
  if astNode.getStr "nodeType" = "SourceUnit" then
    (astNode.getD "nodes" (.arr [])).items.filterMap (fun node =>
      if node.getStr "nodeType" = "ContractDefinition" then
        some { contract_name := node.getStr "name",
               file_path := sourceFile, ast_data := node,
               is_interface := node.getStr "contractKind" = "interface",
               is_library := node.getStr "contractKind" = "library",
               is_abstract := node.getBool "abstract" }
      else none)
  else []

/-- `python: _extract_contracts_from_build(build_data, file_path)`. The
`contracts_data` it reads from `output.contracts` is assigned and never
used. -/
def extractContractsFromBuild (buildData : JVal) (filePath : String) :
    List ContractContext :=
  if hasKey buildData "output" then
    let sourcesData := (buildData.get "output").getD "sources" (.obj [])
    match sourcesData with
    | .obj entries =>
      entries.flatMap (fun p =>
        if hasKey p.2 "ast" then
          extractContractsFromAst (p.2.get "ast") p.1
        else [])
    | _ => []
  else if hasKey buildData "nodeType" ∧
      buildData.getStr "nodeType" = "SourceUnit" then
    extractContractsFromAst buildData filePath
  else []

/-- The filesystem object a build-info path can name: a directory (whose
entries are listed in the order `os.scandir` happens to yield them —
`Path.glob` does not sort) or a single file with parsed JSON contents. -/
inductive FsPath where
  | dirPath (listing : List (String × JVal))
  | filePath (name : String) (content : JVal)

/-- `python: Path(p).glob("*.json")` — on a directory, the entries whose
name ends in `.json`, in enumeration order; on anything that is not a
directory, pathlib's glob yields nothing. -/
def globJson : FsPath → List (String × JVal)
  | .dirPath listing => listing.filter (fun p => strSuf ".json" p.1)
  | .filePath _ _ => []

/-- `python: load_build_info(build_info_path)`. -/
def loadBuildInfo (p : FsPath) : List ContractContext :=
  (globJson p).flatMap (fun f => extractContractsFromBuild f.2 f.1)

/-! ## Symbol-table extraction (`_extract_contract_info`,
`_extract_base_contract_name`, `_extract_contract_members`,
`_extract_function`, `_extract_state_variable`,
`_build_inheritance_map`, `_identify_interface_implementations`) -/

/-- Python dict assignment `d[k] = v`: replace in place or append. -/
def aupdate {α : Type} : List (String × α) → String → α → List (String × α)
  | [], k, v => [(k, v)]
  | (k', v') :: rest, k, v =>
    if k' = k then (k, v) :: rest else (k', v') :: aupdate rest k v

/-- Keyed insertion that keeps the first position (dict key addition /
`set.add`). -/
def insertKey (l : List String) (k : String) : List String :=
  if k ∈ l then l else l ++ [k]

/-- `python: _extract_base_contract_name(base_node)`; the caller treats an
empty string like `None` (both are falsy). -/
def extractBaseContractName (baseNode : JVal) : Option String :=
  let baseName := baseNode.getD "baseName" (.obj [])
  if baseName.isObj then
    if baseName.getStr "nodeType" = "UserDefinedTypeName" then
      some ((baseName.getD "pathNode" baseName).getStr "name")
    else if baseName.getStr "nodeType" = "IdentifierPath" then
      some (baseName.getStr "name")
    else none
  else none

/-- The symbol tables together with the per-function ASTs the later phases
walk (`all_functions[k]['ast_node']`). -/
structure Tables where
  tab : SymTab := {}
  funcAsts : List (String × JVal) := []

/-- `python: _extract_function(node, contract_name)`. -/
def extractFunction (node : JVal) (contractName : String) (ts : Tables) :
    Tables :=
  let funcName := node.getStr "name"
  if funcName = "" then ts
  else
    let visibility := (node.getD "visibility" (.str "internal")).asStr
    let fullFuncName := contractName ++ "." ++ funcName
    let tab := ts.tab
    let tab := { tab with
      allFunctions := aupdate tab.allFunctions fullFuncName ⟨visibility⟩,
      allContracts :=
        match alookup tab.allContracts contractName with
        | some cd =>
          aupdate tab.allContracts contractName
            { cd with functions := insertKey cd.functions funcName }
        | none => tab.allContracts }
    { tab := tab, funcAsts := aupdate ts.funcAsts fullFuncName node }

/-- `python: _extract_state_variable(node, contract_name)` (only the name
set is read back). -/
def extractStateVariable (node : JVal) (contractName : String)
    (ts : Tables) : Tables :=
  let varName := node.getStr "name"
  { ts with tab := { ts.tab with
      stateVariables := aupdate ts.tab.stateVariables contractName
        (insertKey ((alookup ts.tab.stateVariables contractName).getD [])
          varName) } }

/-- `python: _extract_contract_members(node, contract_name)` (modifiers are
stored but never read back). -/
def extractContractMembers (node : JVal) (contractName : String)
    (ts : Tables) : Tables :=
  (node.getD "nodes" (.arr [])).items.foldl (fun ts child =>
    let nodeType := child.getStr "nodeType"
    if nodeType = "FunctionDefinition" ∧ child.getStr "kind" = "function" then
      extractFunction child contractName ts
    else if nodeType = "VariableDeclaration" ∧
        child.getBool "stateVariable" then
      extractStateVariable child contractName ts
    else ts) ts

/-- `python: _extract_contract_info(context)`. -/
def extractContractInfo (ctx : ContractContext) (ts : Tables) : Tables :=
  let contractName := ctx.contract_name
  let node := ctx.ast_data
  let baseContracts :=
    (node.getD "baseContracts" (.arr [])).items.foldl (fun acc base =>
      match extractBaseContractName base with
      | some s => if s ≠ "" then acc ++ [s] else acc
      | none => acc) []
  let ts : Tables := { ts with tab := { ts.tab with
    allContracts := aupdate ts.tab.allContracts contractName
      { functions := [], is_interface := ctx.is_interface,
        is_abstract := ctx.is_abstract, base_contracts := baseContracts },
    stateVariables := aupdate ts.tab.stateVariables contractName [] } }
  extractContractMembers node contractName ts

/-- `python: _build_inheritance_map()`. -/
def buildInheritanceMap (tab : SymTab) : InhMap :=
  ⟨tab.allContracts.map (fun p => (p.1, p.2.base_contracts))⟩

/-- `python: _identify_interface_implementations()`. -/
def identifyInterfaceImplementations (tab : SymTab) : SymTab :=
  tab.allContracts.foldl (fun acc p =>
    if p.2.is_interface then
      let interfaceFunctions := p.2.functions
      acc.allContracts.foldl (fun acc q =>
        if q.1 ≠ p.1 ∧ !q.2.is_interface then
          let acc :=
            if interfaceFunctions.all (fun f => f ∈ q.2.functions) then
              let cur := (alookup acc.interfaceImplementations p.1).getD []
              let upd := aupdate acc.interfaceImplementations p.1 (cur ++ [q.1])
              { acc with interfaceImplementations := upd }
            else acc
          if p.1 ∈ q.2.base_contracts then
            let cur := (alookup acc.interfaceImplementations p.1).getD []
            let upd := aupdate acc.interfaceImplementations p.1
              (insertKey cur q.1)
            { acc with interfaceImplementations := upd }
          else acc
        else acc) acc
    else acc) tab

/-! ## Full pipeline (`analyze_contracts`) -/

/-- networkx `add_edge` on the global call graph: the attribute dict is
merged — every emission passes `call_type`, and only the cross-contract
emission passes `is_resolved`/`via_interface`, so those survive a later
re-emission of the same pair with another type. -/
def addCgEdgeOp (g : List CgEdge) (op : CgEdge) : List CgEdge :=
  match g with
  | [] => [op]
  | e :: rest =>
    if e.src = op.src ∧ e.tgt = op.tgt then
      (if op.call_type = "cross_contract" then op
       else { e with call_type := op.call_type }) :: rest
    else e :: addCgEdgeOp rest op

/-- Fold the emitted edge operations into the call graph. -/
def materializeCg (ops : List CgEdge) : List CgEdge :=
  ops.foldl addCgEdgeOp []

/-- The functions of a contract in symbol-table order, with their ASTs:
`python: self.all_contracts[name]['functions'].items()`. -/
def contractFunctionAsts (ts : Tables) (contractName : String) :
    List (String × JVal) :=
  (functionsOfContract ts.tab contractName).filterMap (fun fn =>
    let full := contractName ++ "." ++ fn
    match alookup ts.funcAsts full with
    | some ast => some (full, ast)
    | none => none)

/-- Phase 3 of `analyze_contracts`: the global call-graph effects, in
emission order. -/
def buildAllCallGraphs (ts : Tables) (im : InhMap)
    (contexts : List ContractContext) : WalkEff :=
  contexts.foldl (fun eff ctx =>
    if !ctx.is_interface then
      (contractFunctionAsts ts ctx.contract_name).foldl (fun eff p =>
        eff ++ walkAst ts.tab im p.1 p.2 none) eff
    else eff) {}

/-- Phase 4 of `analyze_contracts`: all CFGs. -/
def buildAllCfgs (ts : Tables) (contexts : List ContractContext) : CfgSt :=
  contexts.foldl (fun st ctx =>
    if !ctx.is_interface then
      (contractFunctionAsts ts ctx.contract_name).foldl (fun st p =>
        buildFunctionCfg ts.tab p.1 p.2 st) st
    else st) {}

/-- The final analyzer state observable by the report/API projections. -/
structure AnalyzerOut where
  tab : SymTab
  cgEff : WalkEff
  cfg : CfgSt
  patterns : List Pattern

/-- `python: analyze_contracts(contexts)`. -/
def analyzeContracts (contexts : List ContractContext) : AnalyzerOut :=
  let ts := contexts.foldl (fun ts ctx => extractContractInfo ctx ts) {}
  let im := buildInheritanceMap ts.tab
  let tab := identifyInterfaceImplementations ts.tab
  let ts : Tables := { ts with tab := tab }
  let eff := buildAllCallGraphs ts im contexts
  let cfgSt := buildAllCfgs ts contexts
  let cg := materializeCg eff.edges
  let patterns := ts.tab.allFunctions.flatMap (fun p =>
    analyzeFunctionReentrancyMulti ts.tab cg cfgSt.nodes cfgSt.edges p.1)
  { tab := ts.tab, cgEff := eff, cfg := cfgSt, patterns := patterns }

/-- The whole run: load from a path, analyze. -/
def runAnalyzer (p : FsPath) : AnalyzerOut :=
  analyzeContracts (loadBuildInfo p)

/-! ## Specification-side reachability predicates -/

/-- Re-entry reachability as the spec describes it: from `a`, the call
graph reaches (in at least one step) a node whose id starts with
`EXTERNAL:` or reaches `orig` itself. -/
inductive CgReaches (cg : List CgEdge) (orig : String) : String → Prop where
  | found : ∀ a b, b ∈ cgSuccessors cg a →
      (strPre "EXTERNAL:" b = true ∨ b = orig) → CgReaches cg orig a
  | step : ∀ a b, b ∈ cgSuccessors cg a → CgReaches cg orig b →
      CgReaches cg orig a

/-- Forward reachability in the CFG from the external-call node `start`,
as `_find_state_changes_after_node` explores it: the first step goes to a
successor carrying the function's sanitized prefix, and every expanded node
must not be the Exit (ids ending in `_exit` are never expanded). -/
inductive BfsReach (edges : List Edge) (safeKey start : String) :
    String → Prop where
  | head : ∀ n, n ∈ successorsOf edges start → strPre safeKey n = true →
      BfsReach edges safeKey start n
  | step : ∀ m n, BfsReach edges safeKey start m →
      strSuf "_exit" m = false → n ∈ successorsOf edges m →
      BfsReach edges safeKey start n

/-- Whether a CFG node is a `StateChange` with `modifies_state = true`. -/
def scEligible (nodes : List (String × CFGNode)) (n : String) : Bool :=
  match lookupNode nodes n with
  | some nd => if nd.node_type = .STATE_CHANGE then nd.modifies_state
    else false
  | none => false

/-- The spec-side condition "at least one `StateChange` node with
`modifies_state = true` is forward-reachable from `start` (excluding
Exit)". -/
def StateChangeReachable (nodes : List (String × CFGNode))
    (edges : List Edge) (safeKey start : String) : Prop :=
  ∃ n, BfsReach edges safeKey start n ∧ strSuf "_exit" n = false ∧
    scEligible nodes n = true

/-! ## Concrete inputs used by the claim checks -/

/-- Scenario 1 symbol table: contract `Vault` declares the state variable
`balances`; `Vault.withdraw` is public. -/
def vaultTab : SymTab :=
  { stateVariables := [("Vault", ["balances"])],
    allFunctions := [("Vault.withdraw", ⟨"public"⟩)] }

/-- `balances[msg.sender]`, the LHS of `balances[msg.sender] -= amount`:
an `IndexAccess` over the declared state variable. -/
def withdrawLhs : JVal :=
  .obj [("nodeType", .str "IndexAccess"),
    ("baseExpression", .obj [("nodeType", .str "Identifier"),
      ("name", .str "balances"),
      ("typeDescriptions", .obj [("typeString",
        .str "mapping(address => uint256)")])]),
    ("indexExpression", .obj [("nodeType", .str "MemberAccess"),
      ("memberName", .str "sender"),
      ("expression", .obj [("nodeType", .str "Identifier"),
        ("name", .str "msg")])]),
    ("typeDescriptions", .obj [("typeString", .str "uint256")])]

/-- The body of scenario 1's `withdraw`:
`require(...); msg.sender.call(...); balances[msg.sender] -= amount;`. -/
def withdrawFn : JVal :=
  .obj [("body", .obj [("statements", .arr [
    .obj [("nodeType", .str "ExpressionStatement"),
      ("expression", .obj [("nodeType", .str "FunctionCall"),
        ("expression", .obj [("nodeType", .str "Identifier"),
          ("name", .str "require")])])],
    .obj [("nodeType", .str "ExpressionStatement"),
      ("expression", .obj [("nodeType", .str "FunctionCall"),
        ("expression", .obj [("nodeType", .str "MemberAccess"),
          ("memberName", .str "call"),
          ("typeDescriptions", .obj [("typeString",
            .str "function (bytes memory) payable external returns (bool,bytes memory)")]),
          ("expression", .obj [("nodeType", .str "MemberAccess"),
            ("memberName", .str "sender"),
            ("expression", .obj [("nodeType", .str "Identifier"),
              ("name", .str "msg")])])])])],
    .obj [("nodeType", .str "ExpressionStatement"),
      ("expression", .obj [("nodeType", .str "Assignment"),
        ("operator", .str "-="),
        ("leftHandSide", withdrawLhs),
        ("rightHandSide", .obj [("nodeType", .str "Identifier"),
          ("name", .str "amount")])])]])])]

/-- The CFG the builder produces for scenario 1's `withdraw`. -/
def vaultSt : CfgSt := buildFunctionCfg vaultTab "Vault.withdraw" withdrawFn {}

/-- A one-contract raw `SourceUnit` artifact (contract `Vault`). -/
def srcUnitVault : JVal :=
  .obj [("nodeType", .str "SourceUnit"),
    ("nodes", .arr [.obj [("nodeType", .str "ContractDefinition"),
      ("name", .str "Vault")]])]

/-- A raw `SourceUnit` holding one contract with one public function whose
body is a single `return`. -/
def oneFnSourceUnit (contractName fnName : String) : JVal :=
  .obj [("nodeType", .str "SourceUnit"),
    ("nodes", .arr [.obj [("nodeType", .str "ContractDefinition"),
      ("name", .str contractName),
      ("nodes", .arr [.obj [("nodeType", .str "FunctionDefinition"),
        ("kind", .str "function"), ("name", .str fnName),
        ("visibility", .str "public"),
        ("body", .obj [("statements", .arr
          [.obj [("nodeType", .str "Return")]])])]])]])]

/-- Two artifact files with the same bytes, listed in the two possible
enumeration orders. -/
def listingVW : List (String × JVal) :=
  [("v.json", oneFnSourceUnit "V" "f"), ("w.json", oneFnSourceUnit "W" "g")]

def listingWV : List (String × JVal) :=
  [("w.json", oneFnSourceUnit "W" "g"), ("v.json", oneFnSourceUnit "V" "f")]

/-- A function AST with an empty statement list. -/
def emptyBodyFn : JVal := .obj [("body", .obj [("statements", .arr [])])]

/-- A function AST whose single statement is an empty `Block` (legal
Solidity: `function f() public { { } }`), which `_process_statement` maps to
no node at all. -/
def blockOnlyFn : JVal :=
  .obj [("body", .obj [("statements", .arr
    [.obj [("nodeType", .str "Block"), ("statements", .arr [])]])])]

/-- Two-contract symbol table: `A.enter` calls `B.pull`, which calls back. -/
def tabAB : SymTab :=
  { allFunctions := [("A.enter", ⟨"public"⟩), ("B.pull", ⟨"public"⟩)],
    stateVariables := [("A", ["locked"])] }

/-- A `KnownExternalCall` node in `A.enter`'s CFG targeting `B.pull`. -/
def kecNode : CFGNode :=
  { id := "A_enter_node_1", node_type := .KNOWN_EXTERNAL_CALL,
    function_name := some "A.enter", called_function := some "B.pull",
    is_external := true }

/-- A state-changing node that follows the external call. -/
def scNode2 : CFGNode :=
  { id := "A_enter_node_2", node_type := .STATE_CHANGE,
    function_name := some "A.enter", modifies_state := true }

/-- Entry node of `A.enter`'s CFG. -/
def enterEntryNode : CFGNode :=
  { id := "A_enter_entry", node_type := .ENTRY,
    function_name := some "A.enter" }

/-- Exit node of `A.enter`'s CFG. -/
def enterExitNode : CFGNode :=
  { id := "A_enter_exit", node_type := .EXIT,
    function_name := some "A.enter" }

/-- CFG nodes of `A.enter`: Entry, Exit, the external call, a state change. -/
def cfgN : List (String × CFGNode) :=
  [("A_enter_entry", enterEntryNode),
   ("A_enter_exit", enterExitNode),
   ("A_enter_node_1", kecNode),
   ("A_enter_node_2", scNode2)]

/-- CFG edges: Entry → call → state change → Exit. -/
def cfgE : List Edge :=
  [⟨"A_enter_entry", "A_enter_node_1", none⟩,
   ⟨"A_enter_node_1", "A_enter_node_2", none⟩,
   ⟨"A_enter_node_2", "A_enter_exit", none⟩]

/-- Call graph with the re-entrant cycle `A.enter → B.pull → A.enter`. -/
def cgAB : List CgEdge :=
  [{ src := "A.enter", tgt := "B.pull", call_type := "cross_contract",
     is_resolved := true },
   { src := "B.pull", tgt := "A.enter", call_type := "cross_contract",
     is_resolved := true }]

/-- The `MemberAccess` expression `token.transfer` where `token` has the
declared type `contract IToken` (scenario 5). -/
def itokenExpr : JVal :=
  .obj [("nodeType", .str "MemberAccess"),
    ("memberName", .str "transfer"),
    ("expression", .obj [("nodeType", .str "Identifier"),
      ("name", .str "token"),
      ("typeDescriptions", .obj [("typeString", .str "contract IToken")])]),
    ("typeDescriptions", .obj [("typeString",
      .str "function (address,uint256) external returns (bool)")])]

/-- The `FunctionCall` node `token.transfer(...)`. -/
def itokenCall : JVal :=
  .obj [("nodeType", .str "FunctionCall"), ("expression", itokenExpr)]

/-- Symbol table for scenario 5: interface `IToken` implemented by `Token`,
and the caller `Vault.deposit`. -/
def tab7 : SymTab :=
  { allContracts :=
      [("IToken", { functions := ["transfer"], is_interface := true }),
       ("Token", { functions := ["transfer"] }),
       ("Vault", { functions := ["deposit"] })],
    allFunctions :=
      [("Token.transfer", ⟨"external"⟩), ("Vault.deposit", ⟨"public"⟩)],
    interfaceImplementations := [("IToken", ["Token"])] }

/-- The nodes the recursive walk of `_analyze_function_calls_multi`
dispatches on, together with the parent it hands them: the root itself,
every dict-valued field of a visited node (parent: the node), and every
dict item of a list-valued field of a visited node (parent: the node). -/
inductive WalkVisits : JVal → Option JVal → JVal → Option JVal → Prop where
  | here : ∀ (fields : List (String × JVal)) (p : Option JVal),
      WalkVisits (.obj fields) p (.obj fields) p
  | fieldObj : ∀ (fields : List (String × JVal)) (p : Option JVal)
      (k : String) (g : List (String × JVal)) (n : JVal) (q : Option JVal),
      (k, JVal.obj g) ∈ fields →
      WalkVisits (.obj g) (some (.obj fields)) n q →
      WalkVisits (.obj fields) p n q
  | arrItem : ∀ (fields : List (String × JVal)) (p : Option JVal)
      (k : String) (items : List JVal) (g : List (String × JVal))
      (n : JVal) (q : Option JVal),
      (k, JVal.arr items) ∈ fields → JVal.obj g ∈ items →
      WalkVisits (.obj g) (some (.obj fields)) n q →
      WalkVisits (.obj fields) p n q

/-- `this` identifier node. -/
def thisExprFields : List (String × JVal) :=
  [("nodeType", .str "Identifier"), ("name", .str "this")]

/-- `this.target`, the member access under `.selector`. -/
def selBaseFields : List (String × JVal) :=
  [("nodeType", .str "MemberAccess"), ("memberName", .str "target"),
   ("expression", .obj thisExprFields)]

/-- `this.target.selector`, the first argument of the encode call. -/
def selArgFields : List (String × JVal) :=
  [("nodeType", .str "MemberAccess"), ("memberName", .str "selector"),
   ("expression", .obj selBaseFields)]

/-- `abi.encodeWithSelector`, the member access the walker dispatches on. -/
def encMemFields : List (String × JVal) :=
  [("nodeType", .str "MemberAccess"),
   ("memberName", .str "encodeWithSelector"),
   ("expression", .obj [("nodeType", .str "Identifier"),
     ("name", .str "abi")])]

/-- `abi.encodeWithSelector(this.target.selector)` — the parent
`FunctionCall`. -/
def encCallFields : List (String × JVal) :=
  [("nodeType", .str "FunctionCall"), ("expression", .obj encMemFields),
   ("arguments", .arr [.obj selArgFields])]

/-- The expression statement wrapping the encode call. -/
def exprStmtFields : List (String × JVal) :=
  [("nodeType", .str "ExpressionStatement"),
   ("expression", .obj encCallFields)]

/-- The statement list of `A.dispatch`'s body. -/
def bodyFields : List (String × JVal) :=
  [("statements", .arr [.obj exprStmtFields])]

/-- The `FunctionDefinition` AST of `A.dispatch`, whose body holds the
indirect-call pattern. -/
def dispatchFields : List (String × JVal) :=
  [("nodeType", .str "FunctionDefinition"), ("body", .obj bodyFields)]

/-- Symbol table where both `A.dispatch` and the indirect target `A.target`
are recorded. -/
def tabD : SymTab :=
  { allContracts := [("A", { functions := ["dispatch", "target"] })],
    allFunctions := [("A.dispatch", ⟨"public"⟩), ("A.target", ⟨"public"⟩)] }

/-- Symbol table where the indirect target `A.target` is missing. -/
def tab8bad : SymTab :=
  { allContracts := [("A", { functions := ["dispatch"] })],
    allFunctions := [("A.dispatch", ⟨"public"⟩)] }

/-- The Entry node record `_build_function_cfg` writes. -/
def entryNodeOf (key : String) : CFGNode :=
  { id := entryIdOf key, node_type := .ENTRY, function_name := some key }

/-- The Exit node record `_build_function_cfg` writes. -/
def exitNodeOf (key : String) : CFGNode :=
  { id := exitIdOf key, node_type := .EXIT, function_name := some key }

/-- Whether the CFG contains an edge `u → v` (with any label). -/
def pairMem (edges : List Edge) (u v : String) : Bool :=
  edges.any (fun e => e.src = u ∧ e.tgt = v)

/-- Forward reachability along CFG edges. -/
inductive CfgReach (edges : List Edge) : String → String → Prop where
  | refl : ∀ a, CfgReach edges a a
  | step : ∀ a b c, pairMem edges a b = true → CfgReach edges b c →
      CfgReach edges a c

/-- The successive per-function builds of `_build_all_cfgs` on the one
shared CFG state. -/
def buildCfgs (tab : SymTab) (fns : List (String × JVal)) (st : CfgSt) :
    CfgSt :=
  fns.foldl (fun st p => buildFunctionCfg tab p.1 p.2 st) st

/-- A stored CFG node attributed to function `key`: its id is the Entry id,
the Exit id or a counter node id of `key`, and its `function_name` is
`key`. -/
def FnNodeOK (key : String) (p : String × CFGNode) : Prop :=
  p.2.function_name = some key ∧
    (p.1 = entryIdOf key ∨ p.1 = exitIdOf key ∨ ∃ n, p.1 = nodeIdOf key n)

/-- The node-list changes the statement processors can make: a sequence of
`add_node` calls, each writing a counter node of `key` that carries the
function name and is neither an Entry nor an Exit. -/
inductive NEvolve (key : String) :
    List (String × CFGNode) → List (String × CFGNode) → Prop where
  | refl : ∀ l, NEvolve key l l
  | step : ∀ l m id nd, NEvolve key l m → (∃ n, id = nodeIdOf key n) →
      nd.function_name = some key → nd.node_type ≠ .ENTRY →
      nd.node_type ≠ .EXIT → NEvolve key l (addNode.go id nd m)

/-- The edge-list changes the statement processors can make: a sequence of
`add_edge` calls. -/
inductive EEvolve : List Edge → List Edge → Prop where
  | refl : ∀ l, EEvolve l l
  | step : ∀ l m u v lab, EEvolve l m → EEvolve l (addEdge.go u v lab m)

/-- `locked = ...;` — an expression statement whose processing yields a
`StateChange` node. -/
def asgLockedStmt : JVal :=
  .obj [("nodeType", .str "ExpressionStatement"),
    ("expression", .obj [("nodeType", .str "Assignment"),
      ("leftHandSide", .obj [("nodeType", .str "Identifier"),
        ("name", .str "locked")])])]

/-- Function body with the single assignment statement. -/
def fnLocked : JVal :=
  .obj [("body", .obj [("statements", .arr [asgLockedStmt])])]

/-- Inner `if` with a single expression statement in its true branch. -/
def innerIfStmt : JVal :=
  .obj [("nodeType", .str "IfStatement"),
    ("trueBody", .obj [("nodeType", .str "ExpressionStatement"),
      ("expression", .obj [("nodeType", .str "Other")])])]

/-- Outer `if` whose true branch is a block holding the inner `if`. -/
def outerIfStmt : JVal :=
  .obj [("nodeType", .str "IfStatement"),
    ("trueBody", .obj [("nodeType", .str "Block"),
      ("statements", .arr [innerIfStmt])])]

/-- Function body consisting of the nested `if` alone. -/
def fnNest : JVal :=
  .obj [("body", .obj [("statements", .arr [outerIfStmt])])]

/-! # Theorems -/

/-! ## Decimal rendering is injective -/

theorem digitsVal_append_one (l : List Char) (c : Char) :
    digitsVal (l ++ [c]) = 10 * digitsVal l + digitVal c := by
  simp [digitsVal, List.foldl_append]

theorem natDigitsAux_acc (f n : Nat) (acc : List Char) :
    natDigitsAux f n acc = natDigitsAux f n [] ++ acc := by
  induction f generalizing n acc with
  | zero => simp [natDigitsAux]
  | succ f ih =>
    simp only [natDigitsAux]
    by_cases h : n < 10
    · simp [h]
    · simp only [h, if_false]
      rw [ih (n / 10) (Nat.digitChar (n % 10) :: acc),
        ih (n / 10) [Nat.digitChar (n % 10)]]
      simp

theorem natDigitsAux_fuel (f g n : Nat) (hf : n < f) (hg : n < g) :
    natDigitsAux f n [] = natDigitsAux g n [] := by
  induction n using Nat.strong_induction_on generalizing f g with
  | _ n ih =>
    match f, g with
    | f' + 1, g' + 1 =>
      simp only [natDigitsAux]
      by_cases h : n < 10
      · simp [h]
      · simp only [h, if_false]
        rw [natDigitsAux_acc f', natDigitsAux_acc g',
          ih (n / 10) (Nat.div_lt_self (by omega) (by omega)) f' g'
            (by omega) (by omega)]

theorem digitVal_digitChar (r : Nat) (h : r < 10) :
    digitVal (Nat.digitChar r) = r := by
  interval_cases r <;> decide

theorem digitsVal_natDigits (n : Nat) :
    ∀ f, n < f → digitsVal (natDigitsAux f n []) = n := by
  induction n using Nat.strong_induction_on with
  | _ n ih =>
    intro f hf
    match f with
    | f' + 1 =>
      simp only [natDigitsAux]
      by_cases h : n < 10
      · simp only [h, if_true]
        rw [show digitsVal [Nat.digitChar (n % 10)]
              = digitVal (Nat.digitChar (n % 10)) by simp [digitsVal],
          digitVal_digitChar (n % 10) (by omega), Nat.mod_eq_of_lt h]
      · simp only [h, if_false]
        rw [natDigitsAux_acc, digitsVal_append_one,
          natDigitsAux_fuel f' (n / 10 + 1) (n / 10)
            (by omega) (by omega),
          ih (n / 10) (Nat.div_lt_self (by omega) (by omega)) (n / 10 + 1)
            (by omega),
          digitVal_digitChar (n % 10) (by omega)]
        omega

theorem natStr_inj {a b : Nat} (h : natStr a = natStr b) : a = b := by
  have ha := digitsVal_natDigits a (a + 1) (by omega)
  have hb := digitsVal_natDigits b (b + 1) (by omega)
  have : (natStr a).data = (natStr b).data := by rw [h]
  simp only [natStr] at this
  rw [← ha, ← hb, this]

/-! ## Filtered-cardinality helpers (fuel adequacy) -/

theorem length_filter_le_of_imp {α : Type} (U : List α) {p q : α → Bool}
    (h : ∀ x, p x = true → q x = true) :
    (U.filter p).length ≤ (U.filter q).length := by
  induction U with
  | nil => simp
  | cons a U ih =>
    simp only [List.filter_cons]
    by_cases hp : p a = true
    · rw [if_pos hp, if_pos (h a hp)]
      simpa using ih
    · rw [if_neg hp]
      by_cases hq : q a = true
      · rw [if_pos hq]
        simp only [List.length_cons]
        omega
      · rw [if_neg hq]
        exact ih

theorem length_filter_lt_of_flip {α : Type} (U : List α) {p q : α → Bool}
    {u : α} (h : ∀ x, p x = true → q x = true) (hu : u ∈ U)
    (hq : q u = true) (hp : p u = false) :
    (U.filter p).length < (U.filter q).length := by
  induction U with
  | nil => simp at hu
  | cons a U ih =>
    simp only [List.filter_cons]
    rcases List.mem_cons.mp hu with rfl | hu'
    · rw [if_neg (by rw [hp]; exact Bool.false_ne_true), if_pos hq]
      simp only [List.length_cons]
      have := length_filter_le_of_imp U h
      omega
    · by_cases hpa : p a = true
      · rw [if_pos hpa, if_pos (h a hpa)]
        simpa using ih hu'
      · rw [if_neg hpa]
        by_cases hqa : q a = true
        · rw [if_pos hqa]
          simp only [List.length_cons]
          have := ih hu'
          omega
        · rw [if_neg hqa]
          exact ih hu'

/-! ## Correctness of `_check_reentrancy_path` -/

theorem crpGo_foldl_true (recur : List String → String → Bool × List String)
    (orig : String) (l : List String) (acc : Bool × List String)
    (h : acc.1 = true) : l.foldl (crpGo recur orig) acc = acc := by
  induction l generalizing acc with
  | nil => rfl
  | cons s rest ih =>
    simp only [List.foldl_cons, crpGo, h, if_true]
    exact ih acc h

theorem crpGo_foldl_sub (recur : List String → String → Bool × List String)
    (orig : String) (hrec : ∀ v s, v ⊆ (recur v s).2) (l : List String)
    (acc : Bool × List String) :
    acc.2 ⊆ (l.foldl (crpGo recur orig) acc).2 := by
  induction l generalizing acc with
  | nil => exact fun x hx => hx
  | cons s rest ih =>
    simp only [List.foldl_cons]
    refine List.Subset.trans ?_ (ih _)
    simp only [crpGo]
    split_ifs
    · exact fun x hx => hx
    · exact fun x hx => hx
    · exact fun x hx => hx
    · exact hrec acc.2 s

theorem crpGo_foldl_sound (recur : List String → String → Bool × List String)
    (orig : String) (P : String → Prop)
    (hrec : ∀ v s, (recur v s).1 = true → P s) (l : List String) :
    ∀ acc : Bool × List String, (l.foldl (crpGo recur orig) acc).1 = true →
      acc.1 = true ∨ ∃ s, s ∈ l ∧
        ((strPre "EXTERNAL:" s = true ∨ s = orig) ∨ P s) := by
  induction l with
  | nil => exact fun acc h => Or.inl h
  | cons s rest ih =>
    intro acc h
    simp only [List.foldl_cons] at h
    rcases ih _ h with h' | ⟨s', hs', hg⟩
    · simp only [crpGo] at h'
      by_cases h1 : acc.1 = true
      · exact Or.inl h1
      · rw [if_neg h1] at h'
        by_cases h2 : strPre "EXTERNAL:" s = true
        · exact Or.inr ⟨s, List.mem_cons_self _ _, Or.inl (Or.inl h2)⟩
        · rw [if_neg h2] at h'
          by_cases h3 : s = orig
          · exact Or.inr ⟨s, List.mem_cons_self _ _, Or.inl (Or.inr h3)⟩
          · rw [if_neg h3] at h'
            exact Or.inr ⟨s, List.mem_cons_self _ _,
              Or.inr (hrec acc.2 s h')⟩
    · exact Or.inr ⟨s', List.mem_cons_of_mem _ hs', hg⟩

theorem crpDfs_visited_sub (f : Nat) :
    ∀ cg orig visited cur, visited ⊆ (crpDfs f cg orig visited cur).2 := by
  induction f with
  | zero =>
    intro cg orig visited cur
    exact fun x hx => hx
  | succ f ih =>
    intro cg orig visited cur
    simp only [crpDfs]
    by_cases hv : cur ∈ visited
    · rw [if_pos hv]
      exact fun x hx => hx
    · rw [if_neg hv]
      exact List.Subset.trans (List.subset_cons_self _ _)
        (crpGo_foldl_sub (fun v s => crpDfs f cg orig v s) orig
          (fun v s => ih cg orig v s) (cgSuccessors cg cur)
          (false, cur :: visited))

theorem crpDfs_sound (f : Nat) :
    ∀ cg orig visited cur, (crpDfs f cg orig visited cur).1 = true →
      CgReaches cg orig cur := by
  induction f with
  | zero =>
    intro cg orig visited cur h
    simp [crpDfs] at h
  | succ f ih =>
    intro cg orig visited cur h
    simp only [crpDfs] at h
    by_cases hv : cur ∈ visited
    · rw [if_pos hv] at h
      simp at h
    · rw [if_neg hv] at h
      rcases crpGo_foldl_sound _ orig (CgReaches cg orig)
        (fun v s hs => ih cg orig v s hs) _ _ h with h' | ⟨s, hs, hg⟩
      · simp at h'
      · rcases hg with hgoal | hr
        · exact CgReaches.found cur s hs hgoal
        · exact CgReaches.step cur s hs hr

/-- Once a call returns `False`, the nodes it added to `visited` are
sealed: all their successors are non-goal and inside the final set. -/
def CrpSealed (cg : List CgEdge) (orig : String) (V₀ V' : List String) :
    Prop :=
  ∀ u, u ∈ V' → u ∉ V₀ → ∀ w, w ∈ cgSuccessors cg u →
    ¬(strPre "EXTERNAL:" w = true ∨ w = orig) ∧ w ∈ V'

theorem crpSealed_trans {cg : List CgEdge} {orig : String}
    {V₀ V₁ V₂ : List String} (hs1 : CrpSealed cg orig V₀ V₁)
    (hs2 : CrpSealed cg orig V₁ V₂) (h12 : V₁ ⊆ V₂) :
    CrpSealed cg orig V₀ V₂ := by
  intro u hu hu0 w hw
  by_cases h1 : u ∈ V₁
  · rcases hs1 u h1 hu0 w hw with ⟨hg, hm⟩
    exact ⟨hg, h12 hm⟩
  · exact hs2 u hu h1 w hw

theorem cgSuccessors_sub_targets (cg : List CgEdge) (a : String) :
    ∀ w, w ∈ cgSuccessors cg a → w ∈ cg.map CgEdge.tgt := by
  intro w hw
  simp only [cgSuccessors, List.mem_map] at hw
  rcases hw with ⟨e, he, rfl⟩
  exact List.mem_map_of_mem _ (List.mem_of_mem_filter he)

theorem crpGo_foldl_sealed (cg : List CgEdge) (orig : String)
    (U : List String) (N : Nat)
    (recur : List String → String → Bool × List String)
    (hsub : ∀ v s, v ⊆ (recur v s).2)
    (hseal : ∀ v s, s ∈ U →
      (U.filter (fun x => decide (x ∉ v))).length < N →
      (recur v s).1 = false →
      v ⊆ (recur v s).2 ∧ s ∈ (recur v s).2 ∧
        CrpSealed cg orig v (recur v s).2)
    (V₀ : List String) :
    ∀ (l : List String) (acc : Bool × List String),
      (∀ s, s ∈ l → s ∈ U) → acc.1 = false → V₀ ⊆ acc.2 →
      (U.filter (fun x => decide (x ∉ acc.2))).length < N →
      CrpSealed cg orig V₀ acc.2 →
      (l.foldl (crpGo recur orig) acc).1 = false →
      acc.2 ⊆ (l.foldl (crpGo recur orig) acc).2 ∧
      (∀ s, s ∈ l → ¬(strPre "EXTERNAL:" s = true ∨ s = orig) ∧
        s ∈ (l.foldl (crpGo recur orig) acc).2) ∧
      CrpSealed cg orig V₀ (l.foldl (crpGo recur orig) acc).2 := by
  intro l
  induction l with
  | nil =>
    intro acc _ _ _ _ hsealAcc _
    exact ⟨fun x hx => hx, fun s hs => absurd hs (List.not_mem_nil s),
      hsealAcc⟩
  | cons s rest ih =>
    intro acc hlU hacc hV0 hmeas hsealAcc hr
    simp only [List.foldl_cons] at hr ⊢
    have hgo : crpGo recur orig acc s =
        if strPre "EXTERNAL:" s then (true, acc.2)
        else if s = orig then (true, acc.2)
        else recur acc.2 s := by
      simp only [crpGo, hacc]
      rw [if_neg Bool.false_ne_true]
    by_cases h2 : strPre "EXTERNAL:" s = true
    · exfalso
      rw [hgo, if_pos h2, crpGo_foldl_true _ _ _ _ rfl] at hr
      exact Bool.true_eq_false.mp hr
    · by_cases h3 : s = orig
      · exfalso
        rw [hgo, if_pos h3, if_neg h2, crpGo_foldl_true _ _ _ _ rfl] at hr
        exact Bool.true_eq_false.mp hr
      · rw [hgo, if_neg h2, if_neg h3] at hr ⊢
        cases hcr : (recur acc.2 s).1 with
        | true =>
          exfalso
          rw [crpGo_foldl_true _ _ _ _ hcr] at hr
          rw [hcr] at hr
          exact Bool.true_eq_false.mp hr
        | false =>
          obtain ⟨hsubR, hsmem, hsealR⟩ :=
            hseal acc.2 s (hlU s (List.mem_cons_self _ _)) hmeas hcr
          have hmeas' : (U.filter
              (fun x => decide (x ∉ (recur acc.2 s).2))).length < N := by
            have hle := length_filter_le_of_imp U
              (p := fun x => decide (x ∉ (recur acc.2 s).2))
              (q := fun x => decide (x ∉ acc.2))
              (fun x hx => by
                simp only [decide_eq_true_eq] at hx ⊢
                exact fun hmem => hx (hsubR hmem))
            omega
          obtain ⟨hsub', hmem', hseal'⟩ := ih (recur acc.2 s)
            (fun t ht => hlU t (List.mem_cons_of_mem _ ht)) hcr
            (List.Subset.trans hV0 hsubR) hmeas'
            (crpSealed_trans hsealAcc hsealR hsubR) hr
          refine ⟨List.Subset.trans hsubR hsub', ?_, hseal'⟩
          intro t ht
          rcases List.mem_cons.mp ht with rfl | ht'
          · exact ⟨fun hg => by
              rcases hg with hg | hg
              · exact h2 hg
              · exact h3 hg, hsub' hsmem⟩
          · exact hmem' t ht'

theorem crpDfs_sealed (f : Nat) :
    ∀ (cg : List CgEdge) (orig : String) (U visited : List String)
      (cur : String),
      (∀ a w, w ∈ cgSuccessors cg a → w ∈ U) → cur ∈ U →
      (U.filter (fun x => decide (x ∉ visited))).length < f →
      (crpDfs f cg orig visited cur).1 = false →
      visited ⊆ (crpDfs f cg orig visited cur).2 ∧
      cur ∈ (crpDfs f cg orig visited cur).2 ∧
      CrpSealed cg orig visited (crpDfs f cg orig visited cur).2 := by
  induction f with
  | zero =>
    intro cg orig U visited cur _ _ hm _
    omega
  | succ f ih =>
    intro cg orig U visited cur hU hcur hm hr
    simp only [crpDfs] at hr ⊢
    by_cases hv : cur ∈ visited
    · rw [if_pos hv] at hr ⊢
      exact ⟨fun x hx => hx, hv, fun u hu hu0 => absurd hu hu0⟩
    · rw [if_neg hv] at hr ⊢
      have hmeas0 : (U.filter
          (fun x => decide (x ∉ (cur :: visited)))).length < f := by
        have hlt := length_filter_lt_of_flip U
          (p := fun x => decide (x ∉ (cur :: visited)))
          (q := fun x => decide (x ∉ visited))
          (fun x hx => by
            simp only [decide_eq_true_eq] at hx ⊢
            exact fun hmem => hx (List.mem_cons_of_mem _ hmem))
          hcur (by simp [hv]) (by simp)
        omega
      obtain ⟨hsub, hmem, hseal⟩ := crpGo_foldl_sealed cg orig U f
        (fun v s => crpDfs f cg orig v s)
        (fun v s => crpDfs_visited_sub f cg orig v s)
        (fun v s hsU hmv hrv => ih cg orig U v s hU hsU hmv hrv)
        (cur :: visited) (cgSuccessors cg cur) (false, cur :: visited)
        (fun s hs => hU cur s hs) rfl (fun x hx => hx) hmeas0
        (fun u hu hu0 => absurd hu hu0) hr
      refine ⟨List.Subset.trans (List.subset_cons_self _ _) hsub,
        hsub (List.mem_cons_self _ _), ?_⟩
      intro u hu hu0 w hw
      by_cases hucur : u = cur
      · subst hucur
        exact hmem w hw
      · exact hseal u hu (by
          intro hc
          rcases List.mem_cons.mp hc with h | h
          · exact hucur h
          · exact hu0 h) w hw

theorem cgReaches_not_of_sealed (cg : List CgEdge) (orig : String)
    (V' : List String) (hseal : CrpSealed cg orig [] V') :
    ∀ u, u ∈ V' → ¬CgReaches cg orig u := by
  intro u hu hre
  induction hre with
  | found a b hs hg => exact (hseal a hu (List.not_mem_nil a) b hs).1 hg
  | step a b hs _ ih => exact ih ((hseal a hu (List.not_mem_nil a) b hs).2)

/-- Claim C1's `can_reach`: `_check_reentrancy_path(target, F)` returns
true exactly when the call graph reaches, from `target`, a node whose id
starts with `EXTERNAL:` or reaches `F` itself. -/
theorem checkReentrancyPath_iff (cg : List CgEdge) (target orig : String) :
    checkReentrancyPath cg target orig = true ↔ CgReaches cg orig target := by
  constructor
  · exact fun h => crpDfs_sound _ cg orig [] target h
  · intro hre
    by_contra hne
    have hfalse : (crpDfs (2 * cg.length + 2) cg orig [] target).1
        = false := by
      cases h : (crpDfs (2 * cg.length + 2) cg orig [] target).1 with
      | true => exact absurd h hne
      | false => rfl
    have hfilter : (List.filter (fun x => decide (x ∉ ([] : List String)))
        (target :: cg.map CgEdge.tgt)).length < 2 * cg.length + 2 := by
      have : List.filter (fun x => decide (x ∉ ([] : List String)))
          (target :: cg.map CgEdge.tgt) = target :: cg.map CgEdge.tgt :=
        List.filter_eq_self.mpr (fun a _ => by simp)
      rw [this]
      simp only [List.length_cons, List.length_map]
      omega
    obtain ⟨_, hmem, hseal⟩ := crpDfs_sealed (2 * cg.length + 2) cg orig
      (target :: cg.map CgEdge.tgt) [] target
      (fun a w hw => List.mem_cons_of_mem _
        (cgSuccessors_sub_targets cg a w hw))
      (List.mem_cons_self _ _) hfilter hfalse
    exact cgReaches_not_of_sealed cg orig _ hseal target hmem hre

/-! ## Correctness of `_find_state_changes_after_node` -/

theorem successorsOf_sub_targets (edges : List Edge) (m : String) :
    ∀ s, s ∈ successorsOf edges m → s ∈ edges.map Edge.tgt := by
  intro s hs
  simp only [successorsOf, List.mem_map] at hs
  rcases hs with ⟨e, he, rfl⟩
  exact List.mem_map_of_mem _ (List.mem_of_mem_filter he)

theorem successorsOf_length_le (edges : List Edge) (m : String) :
    (successorsOf edges m).length ≤ edges.length := by
  simp only [successorsOf, List.length_map]
  exact List.length_filter_le _ _

theorem scEligible_iff (nodes : List (String × CFGNode)) (n : String) :
    scEligible nodes n = true ↔ ∃ nd, lookupNode nodes n = some nd ∧
      nd.node_type = .STATE_CHANGE ∧ nd.modifies_state = true := by
  simp only [scEligible]
  cases h : lookupNode nodes n with
  | none => simp
  | some nd =>
    simp only [Option.some.injEq]
    by_cases ht : nd.node_type = .STATE_CHANGE
    · rw [if_pos ht]
      constructor
      · exact fun hm => ⟨nd, rfl, ht, hm⟩
      · rintro ⟨nd', rfl, _, hm⟩
        exact hm
    · rw [if_neg ht]
      constructor
      · intro hc
        exact absurd hc Bool.false_ne_true
      · rintro ⟨nd', rfl, hty, _⟩
        exact absurd hty ht

theorem bfsSC_acc_ext (f : Nat) :
    ∀ nodes edges queue visited acc, ∃ ext,
      (bfsSC f nodes edges queue visited acc).2.2 = acc ++ ext := by
  induction f with
  | zero =>
    intro nodes edges queue visited acc
    exact ⟨[], by simp [bfsSC]⟩
  | succ f ih =>
    intro nodes edges queue visited acc
    match queue with
    | [] => exact ⟨[], by simp [bfsSC]⟩
    | n :: queue =>
      simp only [bfsSC]
      by_cases hv : n ∈ visited
      · rw [if_pos hv]
        exact ih nodes edges queue visited acc
      · rw [if_neg hv]
        by_cases hex : strSuf "_exit" n = true
        · rw [if_pos hex]
          exact ih nodes edges queue (n :: visited) acc
        · rw [if_neg hex]
          cases hl : lookupNode nodes n with
          | none => exact ih nodes edges _ _ acc
          | some nd =>
            dsimp only
            by_cases hc : nd.node_type = .STATE_CHANGE ∧
                nd.modifies_state = true
            · rw [if_pos hc]
              obtain ⟨ext, hext⟩ := ih nodes edges
                (queue ++ (successorsOf edges n).filter
                  (fun s => s ∉ (n :: visited) ∧ !strSuf "_exit" s))
                (n :: visited) (acc ++ [⟨n, scName nd⟩])
              exact ⟨⟨n, scName nd⟩ :: ext, by rw [hext]; simp⟩
            · rw [if_neg hc]
              exact ih nodes edges _ _ acc

theorem bfsSC_visited_sub (f : Nat) :
    ∀ nodes edges queue visited acc,
      visited ⊆ (bfsSC f nodes edges queue visited acc).2.1 := by
  induction f with
  | zero =>
    intro nodes edges queue visited acc
    exact fun x hx => hx
  | succ f ih =>
    intro nodes edges queue visited acc
    match queue with
    | [] => exact fun x hx => hx
    | n :: queue =>
      simp only [bfsSC]
      by_cases hv : n ∈ visited
      · rw [if_pos hv]
        exact ih nodes edges queue visited acc
      · rw [if_neg hv]
        by_cases hex : strSuf "_exit" n = true
        · rw [if_pos hex]
          exact List.Subset.trans (List.subset_cons_self _ _)
            (ih nodes edges queue (n :: visited) acc)
        · rw [if_neg hex]
          refine List.Subset.trans (List.subset_cons_self n visited) ?_
          exact ih nodes edges _ _ _

theorem bfsSC_sound (nodes : List (String × CFGNode)) (edges : List Edge)
    (P : String → Prop)
    (hstep : ∀ m s, P m → strSuf "_exit" m = false →
      s ∈ successorsOf edges m → P s) :
    ∀ (f : Nat) (queue visited : List String) (acc : List ScEntry),
      (∀ q, q ∈ queue → P q) →
      (∀ e, e ∈ acc → P e.node_id ∧ strSuf "_exit" e.node_id = false ∧
        scEligible nodes e.node_id = true) →
      ∀ e, e ∈ (bfsSC f nodes edges queue visited acc).2.2 →
        P e.node_id ∧ strSuf "_exit" e.node_id = false ∧
          scEligible nodes e.node_id = true := by
  intro f
  induction f with
  | zero =>
    intro queue visited acc _ hacc e he
    exact hacc e (by simpa [bfsSC] using he)
  | succ f ih =>
    intro queue visited acc hq hacc e he
    match queue with
    | [] => exact hacc e (by simpa [bfsSC] using he)
    | n :: queue =>
      simp only [bfsSC] at he
      by_cases hv : n ∈ visited
      · rw [if_pos hv] at he
        exact ih queue visited acc (fun q hq' => hq q
          (List.mem_cons_of_mem _ hq')) hacc e he
      · rw [if_neg hv] at he
        by_cases hex : strSuf "_exit" n = true
        · rw [if_pos hex] at he
          exact ih queue (n :: visited) acc (fun q hq' => hq q
            (List.mem_cons_of_mem _ hq')) hacc e he
        · rw [if_neg hex] at he
          have hqueue' : ∀ q, q ∈ queue ++ (successorsOf edges n).filter
              (fun s => s ∉ (n :: visited) ∧ !strSuf "_exit" s) → P q := by
            intro q hq'
            rcases List.mem_append.mp hq' with h | h
            · exact hq q (List.mem_cons_of_mem _ h)
            · have := List.mem_of_mem_filter h
              exact hstep n q (hq n (List.mem_cons_self _ _))
                (by revert hex; cases strSuf "_exit" n <;> simp) this
          cases hl : lookupNode nodes n with
          | none =>
            rw [hl] at he
            exact ih _ _ _ hqueue' hacc e he
          | some nd =>
            rw [hl] at he
            dsimp only at he
            by_cases hc : nd.node_type = .STATE_CHANGE ∧
                nd.modifies_state = true
            · rw [if_pos hc] at he
              refine ih _ _ _ hqueue' ?_ e he
              intro e' he'
              rcases List.mem_append.mp he' with h | h
              · exact hacc e' h
              · rcases List.mem_singleton.mp h with rfl
                refine ⟨hq n (List.mem_cons_self _ _),
                  by revert hex; cases strSuf "_exit" n <;> simp, ?_⟩
                exact (scEligible_iff nodes n).mpr ⟨nd, hl, hc.1, hc.2⟩
            · rw [if_neg hc] at he
              exact ih _ _ _ hqueue' hacc e he

/-- Post-condition of a drained BFS: every non-exit id newly added to
`visited` has all its non-exit successors in the final set and, if it is an
eligible state change, an entry in the final accumulator. -/
def BfsSealed (nodes : List (String × CFGNode)) (edges : List Edge)
    (V₀ V' : List String) (A' : List ScEntry) : Prop :=
  ∀ u, u ∈ V' → u ∉ V₀ → strSuf "_exit" u = false →
    (∀ s, s ∈ successorsOf edges u → strSuf "_exit" s = false → s ∈ V') ∧
    (scEligible nodes u = true → ∃ e, e ∈ A' ∧ e.node_id = u)

theorem bfsSC_complete (nodes : List (String × CFGNode))
    (edges : List Edge) (U : List String)
    (hUsucc : ∀ m s, s ∈ successorsOf edges m → s ∈ U) :
    ∀ (f : Nat) (queue visited : List String) (acc : List ScEntry),
      (∀ q, q ∈ queue → q ∈ U) →
      (edges.length + 1) *
        (U.filter (fun x => decide (x ∉ visited))).length +
        queue.length < f →
      (bfsSC f nodes edges queue visited acc).1 = true ∧
      (∀ q, q ∈ queue → q ∈ (bfsSC f nodes edges queue visited acc).2.1) ∧
      BfsSealed nodes edges visited
        (bfsSC f nodes edges queue visited acc).2.1
        (bfsSC f nodes edges queue visited acc).2.2 := by
  intro f
  induction f with
  | zero =>
    intro queue visited acc _ hm
    omega
  | succ f ih =>
    intro queue visited acc hqU hm
    match queue with
    | [] =>
      refine ⟨rfl, fun q hq => absurd hq (List.not_mem_nil q), ?_⟩
      intro u hu hu0 _
      exact absurd hu hu0
    | n :: queue =>
      have hnU : n ∈ U := hqU n (List.mem_cons_self _ _)
      simp only [bfsSC]
      by_cases hv : n ∈ visited
      · rw [if_pos hv]
        have hrec := ih queue visited acc
          (fun q hq => hqU q (List.mem_cons_of_mem _ hq))
          (by simp only [List.length_cons] at hm; omega)
        refine ⟨hrec.1, ?_, hrec.2.2⟩
        intro q hq
        rcases List.mem_cons.mp hq with rfl | hq'
        · exact bfsSC_visited_sub f nodes edges queue visited acc hv
        · exact hrec.2.1 q hq'
      · rw [if_neg hv]
        have hKlt : (U.filter
            (fun x => decide (x ∉ (n :: visited)))).length <
            (U.filter (fun x => decide (x ∉ visited))).length :=
          length_filter_lt_of_flip U
            (fun x hx => by
              simp only [decide_eq_true_eq] at hx ⊢
              exact fun hmem => hx (List.mem_cons_of_mem _ hmem))
            hnU (by simp [hv]) (by simp)
        by_cases hex : strSuf "_exit" n = true
        · rw [if_pos hex]
          have hrec := ih queue (n :: visited) acc
            (fun q hq => hqU q (List.mem_cons_of_mem _ hq))
            (by simp only [List.length_cons] at hm; nlinarith)
          refine ⟨hrec.1, ?_, ?_⟩
          · intro q hq
            rcases List.mem_cons.mp hq with rfl | hq'
            · exact bfsSC_visited_sub f nodes edges queue (q :: visited)
                acc (List.mem_cons_self _ _)
            · exact hrec.2.1 q hq'
          · intro u hu hu0 hnotex
            by_cases hun : u = n
            · subst hun
              exact absurd hex (by rw [hnotex]; exact Bool.false_ne_true)
            · exact hrec.2.2 u hu (by
                intro hc
                rcases List.mem_cons.mp hc with h | h
                · exact hun h
                · exact hu0 h) hnotex
        · rw [if_neg hex]
          have hnewQlen : ((successorsOf edges n).filter
              (fun s => s ∉ (n :: visited) ∧ !strSuf "_exit" s)).length ≤
              edges.length :=
            le_trans (List.length_filter_le _ _)
              (successorsOf_length_le edges n)
          have hmeas' : (edges.length + 1) *
              (U.filter (fun x => decide (x ∉ (n :: visited)))).length +
              (queue ++ (successorsOf edges n).filter
                (fun s => s ∉ (n :: visited) ∧ !strSuf "_exit" s)).length
              < f := by
            rw [List.length_append]
            simp only [List.length_cons] at hm
            nlinarith
          have hq' : ∀ q, q ∈ queue ++ (successorsOf edges n).filter
              (fun s => s ∉ (n :: visited) ∧ !strSuf "_exit" s) →
              q ∈ U := by
            intro q hq
            rcases List.mem_append.mp hq with h | h
            · exact hqU q (List.mem_cons_of_mem _ h)
            · exact hUsucc n q (List.mem_of_mem_filter h)
          have hassemble : ∀ (acc' : List ScEntry),
              ((scEligible nodes n = true → ∃ e, e ∈ acc' ∧
                e.node_id = n)) →
              (bfsSC f nodes edges (queue ++ (successorsOf edges n).filter
                (fun s => s ∉ (n :: visited) ∧ !strSuf "_exit" s))
                (n :: visited) acc').1 = true ∧
              (∀ q, q ∈ n :: queue →
                q ∈ (bfsSC f nodes edges (queue ++
                  (successorsOf edges n).filter
                  (fun s => s ∉ (n :: visited) ∧ !strSuf "_exit" s))
                  (n :: visited) acc').2.1) ∧
              BfsSealed nodes edges visited
                (bfsSC f nodes edges (queue ++
                  (successorsOf edges n).filter
                  (fun s => s ∉ (n :: visited) ∧ !strSuf "_exit" s))
                  (n :: visited) acc').2.1
                (bfsSC f nodes edges (queue ++
                  (successorsOf edges n).filter
                  (fun s => s ∉ (n :: visited) ∧ !strSuf "_exit" s))
                  (n :: visited) acc').2.2 := by
            intro acc' hel
            obtain ⟨hflag, hqmem, hseal⟩ := ih _ (n :: visited) acc' hq'
              hmeas'
            refine ⟨hflag, ?_, ?_⟩
            · intro q hq
              rcases List.mem_cons.mp hq with rfl | hq'2
              · exact bfsSC_visited_sub f nodes edges _ (q :: visited) acc'
                  (List.mem_cons_self _ _)
              · exact hqmem q (List.mem_append_left _ hq'2)
            · intro u hu hu0 hnotex
              by_cases hun : u = n
              · subst hun
                constructor
                · intro t ht htx
                  by_cases htv : t ∈ (u :: visited)
                  · exact bfsSC_visited_sub f nodes edges _ _ acc' htv
                  · refine hqmem t (List.mem_append_right _ ?_)
                    exact List.mem_filter.mpr ⟨ht, by simp [htv, htx]⟩
                · intro helig
                  obtain ⟨e, he, hid⟩ := hel helig
                  obtain ⟨ext, hext⟩ := bfsSC_acc_ext f nodes edges _
                    (u :: visited) acc'
                  exact ⟨e, by rw [hext]; exact List.mem_append_left _ he,
                    hid⟩
              · exact hseal u hu (by
                  intro hc
                  rcases List.mem_cons.mp hc with h | h
                  · exact hun h
                  · exact hu0 h) hnotex
          cases hl : lookupNode nodes n with
          | none =>
            refine hassemble acc ?_
            intro helig
            rw [scEligible_iff] at helig
            obtain ⟨nd, hnd, _⟩ := helig
            rw [hl] at hnd
            exact absurd hnd (by simp)
          | some nd =>
            dsimp only
            by_cases hc : nd.node_type = .STATE_CHANGE ∧
                nd.modifies_state = true
            · rw [if_pos hc]
              refine hassemble (acc ++ [⟨n, scName nd⟩]) ?_
              intro _
              exact ⟨⟨n, scName nd⟩, List.mem_append_right _
                (List.mem_singleton.mpr rfl), rfl⟩
            · rw [if_neg hc]
              refine hassemble acc ?_
              intro helig
              rw [scEligible_iff] at helig
              obtain ⟨nd', hnd', hty, hms⟩ := helig
              rw [hl] at hnd'
              rcases Option.some.injEq _ _ ▸ hnd' with rfl
              exact absurd ⟨hty, hms⟩ hc

/-- `_find_state_changes_after_node` returns a non-empty list exactly when
some `StateChange` node with `modifies_state = true` is forward-reachable
from the start node (excluding Exit). -/
theorem findStateChangesAfterNode_ne_iff (nodes : List (String × CFGNode))
    (edges : List Edge) (start safeKey : String) :
    findStateChangesAfterNode nodes edges start safeKey ≠ [] ↔
      StateChangeReachable nodes edges safeKey start := by
  constructor
  · intro hne
    obtain ⟨e, he⟩ := List.exists_mem_of_ne_nil _ hne
    have hsound := bfsSC_sound nodes edges
      (BfsReach edges safeKey start)
      (fun m s hm hex hs => BfsReach.step m s hm hex hs)
      ((edges.length + 1) * (edges.length + 1) +
        ((successorsOf edges start).filter
          (fun s => strPre safeKey s)).length + 1)
      ((successorsOf edges start).filter (fun s => strPre safeKey s))
      [] []
      (fun q hq => BfsReach.head q (List.mem_of_mem_filter hq)
        (by simpa using List.of_mem_filter hq))
      (fun e' he' => absurd he' (List.not_mem_nil e'))
      e he
    exact ⟨e.node_id, hsound.1, hsound.2.1, hsound.2.2⟩
  · rintro ⟨n, hr, hex, hel⟩
    intro hnil
    have hqU : ∀ q, q ∈ (successorsOf edges start).filter
        (fun s => strPre safeKey s) → q ∈ edges.map Edge.tgt :=
      fun q hq => successorsOf_sub_targets edges start q
        (List.mem_of_mem_filter hq)
    have hfl : (List.filter
        (fun x => decide (x ∉ ([] : List String)))
        (edges.map Edge.tgt)).length = edges.length := by
      rw [List.filter_eq_self.mpr (fun a _ => by simp)]
      exact List.length_map _ _
    have hmeas : (edges.length + 1) * (List.filter
        (fun x => decide (x ∉ ([] : List String)))
        (edges.map Edge.tgt)).length +
        ((successorsOf edges start).filter
          (fun s => strPre safeKey s)).length <
        (edges.length + 1) * (edges.length + 1) +
        ((successorsOf edges start).filter
          (fun s => strPre safeKey s)).length + 1 := by
      rw [hfl]
      have : (edges.length + 1) * edges.length ≤
          (edges.length + 1) * (edges.length + 1) :=
        Nat.mul_le_mul_left _ (by omega)
      omega
    obtain ⟨hflag, hqmem, hseal⟩ := bfsSC_complete nodes edges
      (edges.map Edge.tgt) (successorsOf_sub_targets edges)
      ((edges.length + 1) * (edges.length + 1) +
        ((successorsOf edges start).filter
          (fun s => strPre safeKey s)).length + 1)
      ((successorsOf edges start).filter (fun s => strPre safeKey s))
      [] [] hqU hmeas
    have hinV : ∀ m, BfsReach edges safeKey start m →
        strSuf "_exit" m = false →
        m ∈ (bfsSC ((edges.length + 1) * (edges.length + 1) +
          ((successorsOf edges start).filter
            (fun s => strPre safeKey s)).length + 1) nodes edges
          ((successorsOf edges start).filter (fun s => strPre safeKey s))
          [] []).2.1 := by
      intro m hm
      induction hm with
      | head q hq hpre =>
        intro _
        exact hqmem q (List.mem_filter.mpr ⟨hq, by simpa using hpre⟩)
      | step m' n' hm' hex' hs' ih =>
        intro hnex'
        exact (hseal m' (ih hex') (List.not_mem_nil m') hex').1 n' hs' hnex'
    have hn := hinV n hr hex
    obtain ⟨e, he, _⟩ := (hseal n hn (List.not_mem_nil n) hex).2 hel
    rw [show (bfsSC ((edges.length + 1) * (edges.length + 1) +
        ((successorsOf edges start).filter
          (fun s => strPre safeKey s)).length + 1) nodes edges
        ((successorsOf edges start).filter (fun s => strPre safeKey s))
        [] []).2.2 = findStateChangesAfterNode nodes edges start safeKey
      from rfl, hnil] at he
    exact absurd he (List.not_mem_nil e)

/-! ## CFG builder: node-id arithmetic -/

theorem nodeIdOf_inj (key : String) {a b : Nat}
    (h : nodeIdOf key a = nodeIdOf key b) : a = b := by
  unfold nodeIdOf at h
  have h2 := congrArg String.data h
  rw [String.data_append, String.data_append] at h2
  exact natStr_inj (String.ext (List.append_cancel_left h2))

theorem nodeIdOf_ne_entry (key : String) (n : Nat) :
    nodeIdOf key n ≠ entryIdOf key := by
  intro h
  unfold nodeIdOf entryIdOf at h
  have h2 := congrArg String.data h
  rw [String.data_append, String.data_append, String.data_append,
    List.append_assoc] at h2
  have h3 := List.append_cancel_left h2
  have h4 : ('_' :: 'n' :: 'o' :: 'd' :: 'e' :: '_' :: (natStr n).data) =
      ['_', 'e', 'n', 't', 'r', 'y'] := h3
  injection h4 with _ h5
  injection h5 with h6 _
  exact absurd h6 (by decide)

theorem nodeIdOf_ne_exit (key : String) (n : Nat) :
    nodeIdOf key n ≠ exitIdOf key := by
  intro h
  unfold nodeIdOf exitIdOf at h
  have h2 := congrArg String.data h
  rw [String.data_append, String.data_append, String.data_append,
    List.append_assoc] at h2
  have h3 := List.append_cancel_left h2
  have h4 : ('_' :: 'n' :: 'o' :: 'd' :: 'e' :: '_' :: (natStr n).data) =
      ['_', 'e', 'x', 'i', 't'] := h3
  injection h4 with _ h5
  injection h5 with h6 _
  exact absurd h6 (by decide)

theorem entryIdOf_ne_exitIdOf (key : String) :
    entryIdOf key ≠ exitIdOf key := by
  intro h
  unfold entryIdOf exitIdOf at h
  have h2 := congrArg String.data h
  rw [String.data_append, String.data_append] at h2
  have h3 := List.append_cancel_left h2
  have h4 : (['_', 'e', 'n', 't', 'r', 'y'] : List Char) =
      ['_', 'e', 'x', 'i', 't'] := h3
  injection h4 with _ h5
  injection h5 with _ h6
  injection h6 with h7 _
  exact absurd h7 (by decide)

theorem strPre_self_append (a s : String) : strPre a (a ++ s) = true := by
  unfold strPre
  rw [String.data_append]
  exact List.isPrefixOf_iff_prefix.mpr ⟨s.data, rfl⟩

theorem strPre_of_append (a b s : String)
    (h : strPre a (b ++ s) = true) :
    strPre a b = true ∨ strPre b a = true := by
  unfold strPre at h ⊢
  rw [String.data_append] at h
  have ha := List.isPrefixOf_iff_prefix.mp h
  have hb : b.data <+: b.data ++ s.data := ⟨s.data, rfl⟩
  rcases List.prefix_or_prefix_of_prefix ha hb with h1 | h1
  · exact Or.inl (List.isPrefixOf_iff_prefix.mpr h1)
  · exact Or.inr (List.isPrefixOf_iff_prefix.mpr h1)

/-! ## CFG builder: `add_node` / `add_edge` semantics -/

theorem addNode_go_mem (id : String) (nd : CFGNode)
    (l : List (String × CFGNode)) (p : String × CFGNode)
    (hp : p ∈ addNode.go id nd l) : p ∈ l ∨ p = (id, nd) := by
  induction l with
  | nil =>
    rcases List.mem_singleton.mp hp with rfl
    exact Or.inr rfl
  | cons hd tl ih =>
    obtain ⟨k, v⟩ := hd
    rw [show addNode.go id nd ((k, v) :: tl) =
      if k = id then (k, nd) :: tl else (k, v) :: addNode.go id nd tl
      from rfl] at hp
    split_ifs at hp with hk
    · rcases List.mem_cons.mp hp with rfl | h2
      · exact Or.inr (by rw [hk])
      · exact Or.inl (List.mem_cons_of_mem _ h2)
    · rcases List.mem_cons.mp hp with rfl | h2
      · exact Or.inl (List.mem_cons_self _ _)
      · rcases ih h2 with h3 | h3
        · exact Or.inl (List.mem_cons_of_mem _ h3)
        · exact Or.inr h3

theorem addNode_go_mem_self (id : String) (nd : CFGNode)
    (l : List (String × CFGNode)) : (id, nd) ∈ addNode.go id nd l := by
  induction l with
  | nil => exact List.mem_singleton.mpr rfl
  | cons hd tl ih =>
    obtain ⟨k, v⟩ := hd
    rw [show addNode.go id nd ((k, v) :: tl) =
      if k = id then (k, nd) :: tl else (k, v) :: addNode.go id nd tl
      from rfl]
    split_ifs with hk
    · rw [hk]
      exact List.mem_cons_self _ _
    · exact List.mem_cons_of_mem _ ih

theorem addNode_go_preserve (id : String) (nd : CFGNode)
    (l : List (String × CFGNode)) (k : String) (v : CFGNode)
    (hne : k ≠ id) (hm : (k, v) ∈ l) : (k, v) ∈ addNode.go id nd l := by
  induction l with
  | nil => exact absurd hm (List.not_mem_nil _)
  | cons hd tl ih =>
    obtain ⟨k2, v2⟩ := hd
    rw [show addNode.go id nd ((k2, v2) :: tl) =
      if k2 = id then (k2, nd) :: tl else (k2, v2) :: addNode.go id nd tl
      from rfl]
    split_ifs with hk
    · rcases List.mem_cons.mp hm with heq | h2
      · exact absurd (congrArg Prod.fst heq) (fun hkk => hne (hkk.trans hk))
      · exact List.mem_cons_of_mem _ h2
    · rcases List.mem_cons.mp hm with heq | h2
      · exact List.mem_cons.mpr (Or.inl heq)
      · exact List.mem_cons_of_mem _ (ih h2)

theorem addNode_go_keys (id : String) (nd : CFGNode)
    (l : List (String × CFGNode)) (a : String)
    (ha : a ∈ (addNode.go id nd l).map Prod.fst) :
    a ∈ l.map Prod.fst ∨ a = id := by
  rcases List.mem_map.mp ha with ⟨p, hp, rfl⟩
  rcases addNode_go_mem id nd l p hp with h | rfl
  · exact Or.inl (List.mem_map_of_mem _ h)
  · exact Or.inr rfl

theorem addNode_go_nodup (id : String) (nd : CFGNode)
    (l : List (String × CFGNode))
    (h : (l.map Prod.fst).Nodup) :
    ((addNode.go id nd l).map Prod.fst).Nodup := by
  induction l with
  | nil => simp [addNode.go]
  | cons hd tl ih =>
    obtain ⟨k, v⟩ := hd
    rw [List.map_cons, List.nodup_cons] at h
    rw [show addNode.go id nd ((k, v) :: tl) =
      if k = id then (k, nd) :: tl else (k, v) :: addNode.go id nd tl
      from rfl]
    split_ifs with hk
    · rw [List.map_cons, List.nodup_cons]
      exact h
    · rw [List.map_cons, List.nodup_cons]
      refine ⟨fun hmem => ?_, ih h.2⟩
      rcases addNode_go_keys id nd tl k hmem with h2 | h2
      · exact h.1 h2
      · exact hk h2

theorem pairMem_iff (l : List Edge) (a b : String) :
    pairMem l a b = true ↔ ∃ e ∈ l, e.src = a ∧ e.tgt = b := by
  unfold pairMem
  rw [List.any_eq_true]
  constructor
  · rintro ⟨e, he, hp⟩
    exact ⟨e, he, of_decide_eq_true hp⟩
  · rintro ⟨e, he, hp⟩
    exact ⟨e, he, decide_eq_true hp⟩

theorem addEdge_go_pair (u v : String) (lab : Option String)
    (l : List Edge) (a b : String) (h : pairMem l a b = true) :
    pairMem (addEdge.go u v lab l) a b = true := by
  induction l with
  | nil => exact absurd h (by simp [pairMem])
  | cons hd tl ih =>
    unfold addEdge.go
    rcases (pairMem_iff _ a b).mp h with ⟨e, he, hsrc, htgt⟩
    split
    next hc =>
      rcases List.mem_cons.mp he with heq | h2
      · refine (pairMem_iff _ a b).mpr ⟨⟨u, v, _⟩, List.mem_cons_self _ _,
          ?_, ?_⟩
        · exact hc.1.symm.trans (heq ▸ hsrc)
        · exact hc.2.symm.trans (heq ▸ htgt)
      · exact (pairMem_iff _ a b).mpr ⟨e, List.mem_cons_of_mem _ h2,
          hsrc, htgt⟩
    next hc =>
      rcases List.mem_cons.mp he with heq | h2
      · exact (pairMem_iff _ a b).mpr ⟨hd, List.mem_cons_self _ _,
          heq ▸ hsrc, heq ▸ htgt⟩
      · have h3 := ih ((pairMem_iff _ a b).mpr ⟨e, h2, hsrc, htgt⟩)
        rcases (pairMem_iff _ a b).mp h3 with ⟨e2, he2, h4, h5⟩
        exact (pairMem_iff _ a b).mpr ⟨e2, List.mem_cons_of_mem _ he2,
          h4, h5⟩

theorem addEdge_go_pair_self (u v : String) (lab : Option String)
    (l : List Edge) : pairMem (addEdge.go u v lab l) u v = true := by
  induction l with
  | nil =>
    refine (pairMem_iff _ u v).mpr ⟨⟨u, v, lab⟩, ?_, rfl, rfl⟩
    exact List.mem_singleton.mpr rfl
  | cons hd tl ih =>
    unfold addEdge.go
    split
    next hc =>
      exact (pairMem_iff _ u v).mpr ⟨⟨u, v, _⟩, List.mem_cons_self _ _,
        rfl, rfl⟩
    next hc =>
      rcases (pairMem_iff _ u v).mp ih with ⟨e, he, h1, h2⟩
      exact (pairMem_iff _ u v).mpr ⟨e, List.mem_cons_of_mem _ he, h1, h2⟩

/-! ## CFG builder: evolution relations -/

theorem nevolve_trans {key : String}
    {l m m2 : List (String × CFGNode)} (h1 : NEvolve key l m)
    (h2 : NEvolve key m m2) : NEvolve key l m2 := by
  induction h2 with
  | refl => exact h1
  | step m3 id nd hprev hid hfn hne hnx ih =>
    exact NEvolve.step _ m3 id nd ih hid hfn hne hnx

theorem nevolve_mem {key : String} {l m : List (String × CFGNode)}
    (h : NEvolve key l m) (p : String × CFGNode) (hp : p ∈ m) :
    p ∈ l ∨ ((∃ n, p.1 = nodeIdOf key n) ∧
      p.2.function_name = some key ∧ p.2.node_type ≠ .ENTRY ∧
      p.2.node_type ≠ .EXIT) := by
  induction h with
  | refl => exact Or.inl hp
  | step m2 id nd hprev hid hfn hne hnx ih =>
    rcases addNode_go_mem id nd m2 p hp with h2 | heq
    · exact ih h2
    · rw [heq]
      exact Or.inr ⟨hid, hfn, hne, hnx⟩

theorem nevolve_preserve {key : String} {l m : List (String × CFGNode)}
    (h : NEvolve key l m) (k : String) (v : CFGNode)
    (hk : ∀ n, k ≠ nodeIdOf key n) (hm : (k, v) ∈ l) : (k, v) ∈ m := by
  induction h with
  | refl => exact hm
  | step m2 id nd hprev hid hfn hne hnx ih =>
    rcases hid with ⟨n, hn⟩
    exact addNode_go_preserve id nd m2 k v (hn ▸ hk n) ih

theorem nevolve_nodup {key : String} {l m : List (String × CFGNode)}
    (h : NEvolve key l m) (hl : (l.map Prod.fst).Nodup) :
    (m.map Prod.fst).Nodup := by
  induction h with
  | refl => exact hl
  | step m2 id nd hprev hid hfn hne hnx ih =>
    exact addNode_go_nodup id nd m2 ih

theorem eevolve_trans {l m m2 : List Edge} (h1 : EEvolve l m)
    (h2 : EEvolve m m2) : EEvolve l m2 := by
  induction h2 with
  | refl => exact h1
  | step m3 u v lab hprev ih => exact EEvolve.step _ m3 u v lab ih

theorem eevolve_pair {l m : List Edge} (h : EEvolve l m) (a b : String)
    (hp : pairMem l a b = true) : pairMem m a b = true := by
  induction h with
  | refl => exact hp
  | step m2 u v lab hprev ih => exact addEdge_go_pair u v lab m2 a b ih

theorem cfgReach_mono {e1 e2 : List Edge}
    (hsub : ∀ a b, pairMem e1 a b = true → pairMem e2 a b = true)
    {x y : String} (h : CfgReach e1 x y) : CfgReach e2 x y := by
  induction h with
  | refl a => exact CfgReach.refl a
  | step a b c hab _ ih => exact CfgReach.step a b c (hsub a b hab) ih

theorem cfgReach_snoc {e : List Edge} {a b c : String}
    (h : CfgReach e a b) (hbc : pairMem e b c = true) : CfgReach e a c := by
  induction h with
  | refl a => exact CfgReach.step a c c hbc (CfgReach.refl c)
  | step x y z hxy _ ih => exact CfgReach.step x y c hxy (ih hbc)

theorem cfgReach_nil {a b : String} (h : CfgReach [] a b) : a = b := by
  cases h with
  | refl => rfl
  | step x y z hxy hyz => exact absurd hxy (by simp [pairMem])

/-! ## CFG builder: what the statement processors can do to the state -/

theorem processExpression_edges (tab : SymTab) :
    ∀ (f : Nat) (e : JVal) (key nodeId : String) (st : CfgSt),
      (processExpression tab f e key nodeId st).2.edges = st.edges := by
  intro f
  induction f with
  | zero => intro e key nodeId st; rfl
  | succ f ih =>
    intro e key nodeId st
    unfold processExpression
    dsimp only
    split_ifs <;> first | rfl | apply ih

theorem processExpression_nodes (tab : SymTab) :
    ∀ (f : Nat) (e : JVal) (key nodeId : String) (st : CfgSt),
      (∃ n, nodeId = nodeIdOf key n) →
      NEvolve key st.nodes
        (processExpression tab f e key nodeId st).2.nodes := by
  intro f
  induction f with
  | zero => intro e key nodeId st hid; exact NEvolve.refl _
  | succ f ih =>
    intro e key nodeId st hid
    unfold processExpression
    dsimp only
    split_ifs with h1 h2 h3 h4 h5 h6 <;>
      first
        | exact NEvolve.refl _
        | exact ih _ key nodeId st hid
        | exact NEvolve.step _ _ _ _ (NEvolve.refl _) hid rfl
            (by dsimp only; decide) (by dsimp only; decide)
        | (refine NEvolve.step _ _ _ _ (NEvolve.refl _) hid rfl ?_ ?_ <;>
            (dsimp only
             repeat' split
             all_goals (dsimp only; decide)))

theorem condition_ne_entry : NodeType.CONDITION ≠ NodeType.ENTRY := by
  decide

theorem condition_ne_exit : NodeType.CONDITION ≠ NodeType.EXIT := by
  decide

theorem return_ne_entry : NodeType.RETURN ≠ NodeType.ENTRY := by decide

theorem return_ne_exit : NodeType.RETURN ≠ NodeType.EXIT := by decide

theorem ifBranch_nodes (proc : JVal → CfgSt → (Option String × CfgSt))
    (key : String)
    (hproc : ∀ s st2, NEvolve key st2.nodes (proc s st2).2.nodes)
    (b : JVal) (conditionId mergeId exitId lab : String) (st : CfgSt) :
    NEvolve key st.nodes
      (ifBranch proc b conditionId mergeId exitId lab st).nodes := by
  unfold ifBranch
  split
  · dsimp only
    split
    · split
      · exact hproc b st
      · exact hproc b st
    · exact hproc b st
  · exact NEvolve.refl _

theorem ifBranch_edges (proc : JVal → CfgSt → (Option String × CfgSt))
    (hprocE : ∀ s st2, EEvolve st2.edges (proc s st2).2.edges)
    (b : JVal) (conditionId mergeId exitId lab : String) (st : CfgSt) :
    EEvolve st.edges
      (ifBranch proc b conditionId mergeId exitId lab st).edges := by
  unfold ifBranch
  split
  · dsimp only
    split
    · split
      · exact EEvolve.step _ _ _ _ _ (EEvolve.step _ _ _ _ _ (hprocE b st))
      · exact EEvolve.step _ _ _ _ _ (hprocE b st)
    · exact hprocE b st
  · exact EEvolve.step _ _ _ _ _ (EEvolve.refl _)

theorem processIfWith_nodes (proc : JVal → CfgSt → (Option String × CfgSt))
    (key : String)
    (hproc : ∀ s st2, NEvolve key st2.nodes (proc s st2).2.nodes)
    (stmt : JVal) (exitId : String) (st : CfgSt) :
    NEvolve key st.nodes (processIfWith proc stmt key exitId st).2.nodes :=
  by
  unfold processIfWith
  dsimp only
  refine nevolve_trans ?_ (ifBranch_nodes proc key hproc _ _ _ _ _ _)
  refine nevolve_trans ?_ (ifBranch_nodes proc key hproc _ _ _ _ _ _)
  refine nevolve_trans ?_ (NEvolve.step _ _ _ _ (NEvolve.refl _)
    ⟨st.counter + 1 + 1, rfl⟩ rfl condition_ne_entry condition_ne_exit)
  exact NEvolve.step _ _ _ _ (NEvolve.refl _) ⟨st.counter + 1, rfl⟩ rfl
    condition_ne_entry condition_ne_exit

theorem processIfWith_edges (proc : JVal → CfgSt → (Option String × CfgSt))
    (hprocE : ∀ s st2, EEvolve st2.edges (proc s st2).2.edges)
    (stmt : JVal) (key exitId : String) (st : CfgSt) :
    EEvolve st.edges (processIfWith proc stmt key exitId st).2.edges := by
  unfold processIfWith
  dsimp only
  refine eevolve_trans ?_ (ifBranch_edges proc hprocE _ _ _ _ _ _)
  refine eevolve_trans ?_ (ifBranch_edges proc hprocE _ _ _ _ _ _)
  exact EEvolve.refl _

theorem blockStep_nodes (r : Option String × CfgSt)
    (acc : Option String × Option String × CfgSt) :
    (blockStep r acc).2.2.nodes = r.2.nodes := by
  obtain ⟨r1, r2⟩ := r
  obtain ⟨a1, a2, a3⟩ := acc
  cases r1 with
  | none => rfl
  | some i =>
    cases a2 with
    | none => rfl
    | some p => rfl

theorem blockStep_eevolve (r : Option String × CfgSt)
    (acc : Option String × Option String × CfgSt) :
    EEvolve r.2.edges (blockStep r acc).2.2.edges := by
  obtain ⟨r1, r2⟩ := r
  obtain ⟨a1, a2, a3⟩ := acc
  cases r1 with
  | none => exact EEvolve.refl _
  | some i =>
    cases a2 with
    | none => exact EEvolve.refl _
    | some p => exact EEvolve.step _ _ _ _ _ (EEvolve.refl _)

theorem blockFold_nodes (tab : SymTab) (f : Nat) (key exitId : String)
    (hrec : ∀ s st2, NEvolve key st2.nodes
      (processStatement tab f s key exitId st2).2.nodes)
    (l : List JVal) :
    ∀ acc : Option String × Option String × CfgSt,
      NEvolve key acc.2.2.nodes
        ((l.foldl (fun acc s =>
          blockStep (processStatement tab f s key exitId acc.2.2) acc)
          acc)).2.2.nodes := by
  induction l with
  | nil => intro acc; exact NEvolve.refl _
  | cons s2 tl ihl =>
    intro acc
    refine nevolve_trans ?_
      (ihl (blockStep (processStatement tab f s2 key exitId acc.2.2) acc))
    rw [blockStep_nodes]
    exact hrec s2 acc.2.2

theorem blockFold_edges (tab : SymTab) (f : Nat) (key exitId : String)
    (hrecE : ∀ s st2, EEvolve st2.edges
      (processStatement tab f s key exitId st2).2.edges)
    (l : List JVal) :
    ∀ acc : Option String × Option String × CfgSt,
      EEvolve acc.2.2.edges
        ((l.foldl (fun acc s =>
          blockStep (processStatement tab f s key exitId acc.2.2) acc)
          acc)).2.2.edges := by
  induction l with
  | nil => intro acc; exact EEvolve.refl _
  | cons s2 tl ihl =>
    intro acc
    refine eevolve_trans ?_
      (ihl (blockStep (processStatement tab f s2 key exitId acc.2.2) acc))
    exact eevolve_trans (hrecE s2 acc.2.2)
      (blockStep_eevolve (processStatement tab f s2 key exitId acc.2.2)
        acc)

theorem processStatement_nodes (tab : SymTab) :
    ∀ (f : Nat) (s : JVal) (key exitId : String) (st : CfgSt),
      NEvolve key st.nodes
        (processStatement tab f s key exitId st).2.nodes := by
  intro f
  induction f with
  | zero => intro s key exitId st; exact NEvolve.refl _
  | succ f ih =>
    intro s key exitId st
    unfold processStatement
    dsimp only
    split_ifs with h1 h2 h3 h4 h5 h6 h7 h8 h9 <;>
      first
        | exact NEvolve.refl _
        | (refine processExpression_nodes tab _ _ key _
             ((getNextNodeId key st).2) ?_
           exact ⟨st.counter + 1, rfl⟩)
        | (refine NEvolve.step _ _ _ _ (NEvolve.refl _) ?_ rfl
             condition_ne_entry condition_ne_exit
           exact ⟨st.counter + 1, rfl⟩)
        | (refine NEvolve.step _ _ _ _ (NEvolve.refl _) ?_ rfl
             return_ne_entry return_ne_exit
           exact ⟨st.counter + 1, rfl⟩)
        | exact blockFold_nodes tab f key exitId
            (fun s2 st2 => ih s2 key exitId st2) _ (none, none, st)
        | exact processIfWith_nodes _ key
            (fun s2 st2 => ih s2 key exitId st2) s exitId st

theorem processStatement_edges (tab : SymTab) :
    ∀ (f : Nat) (s : JVal) (key exitId : String) (st : CfgSt),
      EEvolve st.edges
        (processStatement tab f s key exitId st).2.edges := by
  intro f
  induction f with
  | zero => intro s key exitId st; exact EEvolve.refl _
  | succ f ih =>
    intro s key exitId st
    unfold processStatement
    dsimp only
    split_ifs with h1 h2 h3 h4 h5 h6 h7 h8 h9 <;>
      first
        | exact EEvolve.refl _
        | (rw [processExpression_edges tab]; exact EEvolve.refl _)
        | exact EEvolve.step _ _ _ _ _ (EEvolve.refl _)
        | exact blockFold_edges tab f key exitId
            (fun s2 st2 => ih s2 key exitId st2) _ (none, none, st)
        | exact processIfWith_edges _
            (fun s2 st2 => ih s2 key exitId st2) s key exitId st

/-! ## CFG builder: the statement loop and the per-function build -/

theorem buildSeq_edges (tab : SymTab) (l : List JVal) :
    ∀ (key exitId prev : String) (st : CfgSt),
      EEvolve st.edges (buildSeq tab l key exitId prev st).2.edges := by
  induction l with
  | nil => intro key exitId prev st; exact EEvolve.refl _
  | cons s tl ih =>
    intro key exitId prev st
    unfold buildSeq
    dsimp only
    split
    next i heq =>
      refine eevolve_trans ?_ (ih key exitId i
        (addEdge (processStatement tab (2 * jvalDepth s + 2) s key exitId
          st).2 prev i none))
      refine eevolve_trans (processStatement_edges tab
        (2 * jvalDepth s + 2) s key exitId st) ?_
      exact EEvolve.step _ _ _ _ _ (EEvolve.refl _)
    next heq =>
      exact eevolve_trans (processStatement_edges tab
        (2 * jvalDepth s + 2) s key exitId st)
        (ih key exitId prev
          (processStatement tab (2 * jvalDepth s + 2) s key exitId st).2)

theorem buildSeq_nodes (tab : SymTab) (l : List JVal) :
    ∀ (key exitId prev : String) (st : CfgSt),
      NEvolve key st.nodes (buildSeq tab l key exitId prev st).2.nodes := by
  induction l with
  | nil => intro key exitId prev st; exact NEvolve.refl _
  | cons s tl ih =>
    intro key exitId prev st
    unfold buildSeq
    dsimp only
    split
    next i heq =>
      exact nevolve_trans (processStatement_nodes tab
        (2 * jvalDepth s + 2) s key exitId st)
        (ih key exitId i
          (addEdge (processStatement tab (2 * jvalDepth s + 2) s key
            exitId st).2 prev i none))
    next heq =>
      exact nevolve_trans (processStatement_nodes tab
        (2 * jvalDepth s + 2) s key exitId st)
        (ih key exitId prev
          (processStatement tab (2 * jvalDepth s + 2) s key exitId st).2)

theorem buildSeq_reach (tab : SymTab) (l : List JVal) :
    ∀ (key exitId prev : String) (st : CfgSt),
      CfgReach (buildSeq tab l key exitId prev st).2.edges prev
        (buildSeq tab l key exitId prev st).1 := by
  induction l with
  | nil => intro key exitId prev st; exact CfgReach.refl prev
  | cons s tl ih =>
    intro key exitId prev st
    unfold buildSeq
    dsimp only
    split
    next i heq =>
      have hpair : pairMem (addEdge
          (processStatement tab (2 * jvalDepth s + 2) s key exitId st).2
          prev i none).edges prev i = true :=
        addEdge_go_pair_self prev i none _
      have hpair2 := eevolve_pair (buildSeq_edges tab tl key exitId i _)
        prev i hpair
      exact CfgReach.step prev i _ hpair2 (ih key exitId i _)
    next heq =>
      exact ih key exitId prev _

theorem buildSeq_wires (tab : SymTab) (s : JVal) (more : List JVal)
    (key exitId prev : String) (st : CfgSt) (j : String)
    (hj : (processStatement tab (2 * jvalDepth s + 2) s key exitId st).1 =
      some j) :
    pairMem (buildSeq tab (s :: more) key exitId prev st).2.edges prev j =
      true := by
  unfold buildSeq
  dsimp only
  rw [hj]
  dsimp only
  exact eevolve_pair (buildSeq_edges tab more key exitId j _) prev j
    (addEdge_go_pair_self prev j none _)

theorem buildFunctionCfg_nodes (tab : SymTab) (key : String) (fn : JVal)
    (st : CfgSt) (p : String × CFGNode)
    (hp : p ∈ (buildFunctionCfg tab key fn st).nodes) :
    p ∈ st.nodes ∨
    p = (entryIdOf key, entryNodeOf key) ∨
    p = (exitIdOf key, exitNodeOf key) ∨
    ((∃ n, p.1 = nodeIdOf key n) ∧ p.2.function_name = some key ∧
      p.2.node_type ≠ .ENTRY ∧ p.2.node_type ≠ .EXIT) := by
  have hmem2 : ∀ q : String × CFGNode,
      q ∈ (addNode (addNode st (entryIdOf key)
        { id := entryIdOf key, node_type := .ENTRY,
          function_name := some key }) (exitIdOf key)
        { id := exitIdOf key, node_type := .EXIT,
          function_name := some key }).nodes →
      q ∈ st.nodes ∨
      q = (entryIdOf key, entryNodeOf key) ∨
      q = (exitIdOf key, exitNodeOf key) := by
    intro q hq
    rcases addNode_go_mem _ _ _ q hq with hq2 | heq
    · rcases addNode_go_mem _ _ _ q hq2 with hq3 | heq
      · exact Or.inl hq3
      · exact Or.inr (Or.inl heq)
    · exact Or.inr (Or.inr heq)
  unfold buildFunctionCfg at hp
  dsimp only at hp
  split_ifs at hp with hb hs hne
  · rcases nevolve_mem (buildSeq_nodes tab _ key (exitIdOf key)
        (entryIdOf key) _) p hp with h2 | h2
    · rcases hmem2 p h2 with h3 | h3 | h3
      · exact Or.inl h3
      · exact Or.inr (Or.inl h3)
      · exact Or.inr (Or.inr (Or.inl h3))
    · exact Or.inr (Or.inr (Or.inr h2))
  · rcases nevolve_mem (buildSeq_nodes tab _ key (exitIdOf key)
        (entryIdOf key) _) p hp with h2 | h2
    · rcases hmem2 p h2 with h3 | h3 | h3
      · exact Or.inl h3
      · exact Or.inr (Or.inl h3)
      · exact Or.inr (Or.inr (Or.inl h3))
    · exact Or.inr (Or.inr (Or.inr h2))
  · rcases hmem2 p hp with h3 | h3 | h3
    · exact Or.inl h3
    · exact Or.inr (Or.inl h3)
    · exact Or.inr (Or.inr (Or.inl h3))
  · rcases hmem2 p hp with h3 | h3 | h3
    · exact Or.inl h3
    · exact Or.inr (Or.inl h3)
    · exact Or.inr (Or.inr (Or.inl h3))

theorem buildFunctionCfg_entry_mem (tab : SymTab) (key : String)
    (fn : JVal) (st : CfgSt) :
    (entryIdOf key, entryNodeOf key) ∈
      (buildFunctionCfg tab key fn st).nodes := by
  have h1 : (entryIdOf key, (entryNodeOf key : CFGNode)) ∈
      (addNode (addNode st (entryIdOf key)
        { id := entryIdOf key, node_type := .ENTRY,
          function_name := some key }) (exitIdOf key)
        { id := exitIdOf key, node_type := .EXIT,
          function_name := some key }).nodes :=
    addNode_go_preserve _ _ _ _ _ (entryIdOf_ne_exitIdOf key)
      (addNode_go_mem_self _ _ _)
  unfold buildFunctionCfg
  dsimp only
  split_ifs with hb hs hne
  · exact nevolve_preserve (buildSeq_nodes tab _ key (exitIdOf key)
      (entryIdOf key) _) _ _
      (fun n => (nodeIdOf_ne_entry key n).symm) h1
  · exact nevolve_preserve (buildSeq_nodes tab _ key (exitIdOf key)
      (entryIdOf key) _) _ _
      (fun n => (nodeIdOf_ne_entry key n).symm) h1
  · exact h1
  · exact h1

theorem buildFunctionCfg_exit_mem (tab : SymTab) (key : String)
    (fn : JVal) (st : CfgSt) :
    (exitIdOf key, exitNodeOf key) ∈
      (buildFunctionCfg tab key fn st).nodes := by
  have h1 : (exitIdOf key, (exitNodeOf key : CFGNode)) ∈
      (addNode (addNode st (entryIdOf key)
        { id := entryIdOf key, node_type := .ENTRY,
          function_name := some key }) (exitIdOf key)
        { id := exitIdOf key, node_type := .EXIT,
          function_name := some key }).nodes :=
    addNode_go_mem_self _ _ _
  unfold buildFunctionCfg
  dsimp only
  split_ifs with hb hs hne
  · exact nevolve_preserve (buildSeq_nodes tab _ key (exitIdOf key)
      (entryIdOf key) _) _ _
      (fun n => (nodeIdOf_ne_exit key n).symm) h1
  · exact nevolve_preserve (buildSeq_nodes tab _ key (exitIdOf key)
      (entryIdOf key) _) _ _
      (fun n => (nodeIdOf_ne_exit key n).symm) h1
  · exact h1
  · exact h1

theorem buildFunctionCfg_nodup (tab : SymTab) (key : String) (fn : JVal)
    (st : CfgSt) (h : (st.nodes.map Prod.fst).Nodup) :
    (((buildFunctionCfg tab key fn st).nodes.map Prod.fst)).Nodup := by
  have h2 : (((addNode (addNode st (entryIdOf key)
      (entryNodeOf key)) (exitIdOf key) (exitNodeOf key)).nodes.map Prod.fst)).Nodup :=
    addNode_go_nodup _ _ _ (addNode_go_nodup _ _ _ h)
  unfold buildFunctionCfg
  dsimp only
  split_ifs with hb hs hne
  · exact nevolve_nodup (buildSeq_nodes tab _ key (exitIdOf key)
      (entryIdOf key) _) h2
  · exact nevolve_nodup (buildSeq_nodes tab _ key (exitIdOf key)
      (entryIdOf key) _) h2
  · exact h2
  · exact h2

/-! ## Claim C1 — detector classification -/

theorem nodup_keys_eq {α : Type} {l : List (String × α)}
    (hnd : (l.map Prod.fst).Nodup) {k : String} {a b : α}
    (ha : (k, a) ∈ l) (hb : (k, b) ∈ l) : a = b := by
  induction l with
  | nil => exact absurd ha (List.not_mem_nil _)
  | cons hd tl ih =>
    rw [List.map_cons, List.nodup_cons] at hnd
    rcases List.mem_cons.mp ha with rfl | ha'
    · rcases List.mem_cons.mp hb with heq | hb'
      · exact congrArg Prod.snd heq.symm
      · exact absurd (List.mem_map_of_mem Prod.fst hb') (by
          simpa using hnd.1)
    · rcases List.mem_cons.mp hb with rfl | hb'
      · exact absurd (List.mem_map_of_mem Prod.fst ha') (by
          simpa using hnd.1)
      · exact ih hnd.2 ha' hb'

theorem patternsForExtCall_node_id (tab : SymTab) (cg : List CgEdge)
    (ns : List (String × CFGNode)) (es : List Edge) (fk sk : String)
    (ec : ExtCallEntry) (p : Pattern)
    (hp : p ∈ patternsForExtCall tab cg ns es fk sk ec) :
    p.external_call_node = ec.node_id := by
  unfold patternsForExtCall at hp
  by_cases hk : ec.is_known = true
  · rw [if_pos hk] at hp
    cases hc : ec.called_function with
    | none =>
      rw [hc] at hp
      exact absurd hp (List.not_mem_nil p)
    | some target =>
      rw [hc] at hp
      dsimp only at hp
      split_ifs at hp with h1 h2 h3
      · rcases List.mem_singleton.mp hp with rfl
        rfl
      · exact absurd hp (List.not_mem_nil p)
      · rcases List.mem_singleton.mp hp with rfl
        rfl
      · exact absurd hp (List.not_mem_nil p)
      · exact absurd hp (List.not_mem_nil p)
  · rw [if_neg hk] at hp
    dsimp only at hp
    split_ifs at hp with h1
    · rcases List.mem_singleton.mp hp with rfl
      rfl
    · exact absurd hp (List.not_mem_nil p)

theorem patternsForExtCall_known (tab : SymTab) (cg : List CgEdge)
    (ns : List (String × CFGNode)) (es : List Edge) (fk sk : String)
    (X target : String)
    (hknown : (alookup tab.allFunctions target).isSome = true) :
    patternsForExtCall tab cg ns es fk sk ⟨X, some target, true⟩ =
      if checkReentrancyPath cg target fk then
        (if !(findStateChangesAfterNode ns es X sk).isEmpty then
          [createReentrancyPattern tab fk ⟨X, some target, true⟩
            (findStateChangesAfterNode ns es X sk) "confirmed_reentrancy"]
        else [])
      else
        (if !(findStateChangesAfterNode ns es X sk).isEmpty then
          [createReentrancyPattern tab fk ⟨X, some target, true⟩
            (findStateChangesAfterNode ns es X sk) "safe_external_call"]
        else []) := by
  simp only [patternsForExtCall]
  rw [if_pos hknown, if_pos trivial]

theorem isEmpty_bnot_iff (l : List ScEntry) :
    ((!l.isEmpty) = true) ↔ l ≠ [] := by
  cases l with
  | nil => simp
  | cons a l => simp

/-- The entries of `external_calls_found` come from the prefix-matched CFG
nodes of call type. -/
theorem mem_extCalls_iff (cfgNodes : List (String × CFGNode)) (safe : String)
    (ec : ExtCallEntry) :
    ec ∈ (cfgNodes.filter (fun p => strPre safe p.1)).filterMap (fun p =>
      if p.2.node_type = .EXTERNAL_CALL ∨
          p.2.node_type = .KNOWN_EXTERNAL_CALL then
        some (⟨p.1, p.2.called_function,
          p.2.node_type = .KNOWN_EXTERNAL_CALL⟩ : ExtCallEntry)
      else none) ↔
    ∃ nd : CFGNode, (ec.node_id, nd) ∈ cfgNodes ∧
      strPre safe ec.node_id = true ∧
      (nd.node_type = .EXTERNAL_CALL ∨
        nd.node_type = .KNOWN_EXTERNAL_CALL) ∧
      ec.called_function = nd.called_function ∧
      ec.is_known = decide (nd.node_type = .KNOWN_EXTERNAL_CALL) := by
  rw [List.mem_filterMap]
  constructor
  · rintro ⟨a, ha, hfa⟩
    have hmem := List.mem_of_mem_filter ha
    have hpre := List.of_mem_filter ha
    split_ifs at hfa with hcond
    · rcases Option.some.injEq _ _ ▸ hfa with rfl
      exact ⟨a.2, by simpa using hmem, by simpa using hpre, hcond, rfl, rfl⟩
  · rintro ⟨nd, hmem, hpre, hcond, hcf, hik⟩
    refine ⟨(ec.node_id, nd), List.mem_filter.mpr ⟨hmem, by simpa using hpre⟩,
      ?_⟩
    rw [if_pos hcond]
    cases ec with
    | mk i c k =>
      simp only at hcf hik ⊢
      rw [hcf, hik]

/-- Claim C1: for a function `F` with a `KnownExternalCall` CFG node `X`
whose `called_function` `target` exists in the symbol table,
`_analyze_function_reentrancy_multi` emits a `confirmed_reentrancy` pattern
for `X` exactly when the call graph reaches back from `target` to `F` (or
to an `EXTERNAL:*` node) and a `modifies_state` `StateChange` node is
forward-reachable from `X`; it emits `safe_external_call` for `X` exactly
when such a state change exists but no re-entry path does; and it emits no
pattern for `X` when no such state change follows the call. -/
theorem C1_detector (tab : SymTab) (cg : List CgEdge)
    (cfgNodes : List (String × CFGNode)) (cfgEdges : List Edge)
    (F X target : String) (nd : CFGNode)
    (hnodup : (cfgNodes.map Prod.fst).Nodup)
    (hmem : (X, nd) ∈ cfgNodes)
    (hpre : strPre (sanitize F) X = true)
    (htype : nd.node_type = .KNOWN_EXTERNAL_CALL)
    (htgt : nd.called_function = some target)
    (hknown : (alookup tab.allFunctions target).isSome = true) :
    ((∃ p ∈ analyzeFunctionReentrancyMulti tab cg cfgNodes cfgEdges F,
        p.external_call_node = X ∧
        p.classification = "confirmed_reentrancy") ↔
      (CgReaches cg F target ∧
        StateChangeReachable cfgNodes cfgEdges (sanitize F) X)) ∧
    ((∃ p ∈ analyzeFunctionReentrancyMulti tab cg cfgNodes cfgEdges F,
        p.external_call_node = X ∧
        p.classification = "safe_external_call") ↔
      (¬ CgReaches cg F target ∧
        StateChangeReachable cfgNodes cfgEdges (sanitize F) X)) ∧
    (¬ StateChangeReachable cfgNodes cfgEdges (sanitize F) X →
      ∀ p ∈ analyzeFunctionReentrancyMulti tab cg cfgNodes cfgEdges F,
        p.external_call_node ≠ X) := by
  have hpats : analyzeFunctionReentrancyMulti tab cg cfgNodes cfgEdges F =
      ((cfgNodes.filter (fun q => strPre (sanitize F) q.1)).filterMap
        (fun q =>
          if q.2.node_type = .EXTERNAL_CALL ∨
              q.2.node_type = .KNOWN_EXTERNAL_CALL then
            some (⟨q.1, q.2.called_function,
              q.2.node_type = .KNOWN_EXTERNAL_CALL⟩ : ExtCallEntry)
          else none)).flatMap
        (patternsForExtCall tab cg cfgNodes cfgEdges F (sanitize F)) := rfl
  have hdec : decide (nd.node_type = NodeType.KNOWN_EXTERNAL_CALL) = true :=
    by simp [htype]
  have hmemX : (⟨X, some target, true⟩ : ExtCallEntry) ∈
      (cfgNodes.filter (fun q => strPre (sanitize F) q.1)).filterMap
        (fun q =>
          if q.2.node_type = .EXTERNAL_CALL ∨
              q.2.node_type = .KNOWN_EXTERNAL_CALL then
            some (⟨q.1, q.2.called_function,
              q.2.node_type = .KNOWN_EXTERNAL_CALL⟩ : ExtCallEntry)
          else none) :=
    (mem_extCalls_iff cfgNodes (sanitize F) _).mpr
      ⟨nd, hmem, hpre, Or.inr htype, htgt.symm, hdec.symm⟩
  have huniq : ∀ ec : ExtCallEntry,
      ec ∈ (cfgNodes.filter (fun q => strPre (sanitize F) q.1)).filterMap
        (fun q =>
          if q.2.node_type = .EXTERNAL_CALL ∨
              q.2.node_type = .KNOWN_EXTERNAL_CALL then
            some (⟨q.1, q.2.called_function,
              q.2.node_type = .KNOWN_EXTERNAL_CALL⟩ : ExtCallEntry)
          else none) →
      ec.node_id = X → ec = ⟨X, some target, true⟩ := by
    intro ec hec hid
    obtain ⟨nd2, hmem2, _, _, hcf2, hik2⟩ :=
      (mem_extCalls_iff cfgNodes (sanitize F) ec).mp hec
    rw [hid] at hmem2
    have hnd2 : nd2 = nd := nodup_keys_eq hnodup hmem2 hmem
    subst hnd2
    cases ec with
    | mk i c k =>
      dsimp only at hid hcf2 hik2
      subst hid
      have hc : c = some target := hcf2.trans htgt
      have hk2 : k = true := hik2.trans hdec
      rw [hc, hk2]
  have hpf := patternsForExtCall_known tab cg cfgNodes cfgEdges F
    (sanitize F) X target hknown
  refine ⟨⟨?_, ?_⟩, ⟨?_, ?_⟩, ?_⟩
  · rintro ⟨p, hp, hnode, hcls⟩
    rw [hpats] at hp
    obtain ⟨ec, hec, hpin⟩ := List.mem_flatMap.mp hp
    have heq := patternsForExtCall_node_id tab cg cfgNodes cfgEdges F
      (sanitize F) ec p hpin
    have hid : ec.node_id = X := heq.symm.trans hnode
    rw [huniq ec hec hid] at hpin
    rw [hpf] at hpin
    by_cases hcr : checkReentrancyPath cg target F = true
    · rw [if_pos hcr] at hpin
      split_ifs at hpin with hsc
      · exact ⟨(checkReentrancyPath_iff cg target F).mp hcr,
          (findStateChangesAfterNode_ne_iff cfgNodes cfgEdges X
            (sanitize F)).mp ((isEmpty_bnot_iff _).mp hsc)⟩
      · exact absurd hpin (List.not_mem_nil p)
    · rw [if_neg hcr] at hpin
      split_ifs at hpin with hsc
      · rcases List.mem_singleton.mp hpin with rfl
        simp [createReentrancyPattern] at hcls
      · exact absurd hpin (List.not_mem_nil p)
  · rintro ⟨hreach, hscr⟩
    have hcr : checkReentrancyPath cg target F = true :=
      (checkReentrancyPath_iff cg target F).mpr hreach
    have hne : findStateChangesAfterNode cfgNodes cfgEdges X (sanitize F) ≠
        [] := (findStateChangesAfterNode_ne_iff cfgNodes cfgEdges X
      (sanitize F)).mpr hscr
    refine ⟨createReentrancyPattern tab F ⟨X, some target, true⟩
      (findStateChangesAfterNode cfgNodes cfgEdges X (sanitize F))
      "confirmed_reentrancy", ?_, rfl, rfl⟩
    rw [hpats]
    refine List.mem_flatMap.mpr ⟨⟨X, some target, true⟩, hmemX, ?_⟩
    rw [hpf, if_pos hcr, if_pos ((isEmpty_bnot_iff _).mpr hne)]
    exact List.mem_singleton.mpr rfl
  · rintro ⟨p, hp, hnode, hcls⟩
    rw [hpats] at hp
    obtain ⟨ec, hec, hpin⟩ := List.mem_flatMap.mp hp
    have heq := patternsForExtCall_node_id tab cg cfgNodes cfgEdges F
      (sanitize F) ec p hpin
    have hid : ec.node_id = X := heq.symm.trans hnode
    rw [huniq ec hec hid] at hpin
    rw [hpf] at hpin
    by_cases hcr : checkReentrancyPath cg target F = true
    · rw [if_pos hcr] at hpin
      split_ifs at hpin with hsc
      · rcases List.mem_singleton.mp hpin with rfl
        simp [createReentrancyPattern] at hcls
      · exact absurd hpin (List.not_mem_nil p)
    · rw [if_neg hcr] at hpin
      split_ifs at hpin with hsc
      · have hnr : ¬ CgReaches cg F target := by
          intro hr
          exact hcr ((checkReentrancyPath_iff cg target F).mpr hr)
        exact ⟨hnr, (findStateChangesAfterNode_ne_iff cfgNodes cfgEdges X
          (sanitize F)).mp ((isEmpty_bnot_iff _).mp hsc)⟩
      · exact absurd hpin (List.not_mem_nil p)
  · rintro ⟨hnr, hscr⟩
    have hcr : checkReentrancyPath cg target F = false := by
      cases hcrb : checkReentrancyPath cg target F with
      | false => rfl
      | true =>
        exact absurd ((checkReentrancyPath_iff cg target F).mp hcrb) hnr
    have hne : findStateChangesAfterNode cfgNodes cfgEdges X (sanitize F) ≠
        [] := (findStateChangesAfterNode_ne_iff cfgNodes cfgEdges X
      (sanitize F)).mpr hscr
    refine ⟨createReentrancyPattern tab F ⟨X, some target, true⟩
      (findStateChangesAfterNode cfgNodes cfgEdges X (sanitize F))
      "safe_external_call", ?_, rfl, rfl⟩
    rw [hpats]
    refine List.mem_flatMap.mpr ⟨⟨X, some target, true⟩, hmemX, ?_⟩
    rw [hpf, if_neg (by simp [hcr]), if_pos ((isEmpty_bnot_iff _).mpr hne)]
    exact List.mem_singleton.mpr rfl
  · intro hnsc p hp hnode
    have hscE : findStateChangesAfterNode cfgNodes cfgEdges X (sanitize F) =
        [] := by
      by_contra h
      exact hnsc ((findStateChangesAfterNode_ne_iff cfgNodes cfgEdges X
        (sanitize F)).mp h)
    rw [hpats] at hp
    obtain ⟨ec, hec, hpin⟩ := List.mem_flatMap.mp hp
    have heq := patternsForExtCall_node_id tab cg cfgNodes cfgEdges F
      (sanitize F) ec p hpin
    have hid : ec.node_id = X := heq.symm.trans hnode
    rw [huniq ec hec hid] at hpin
    rw [hpf, hscE] at hpin
    simp at hpin

/-- Instantiation of the C1 theorem on the concrete two-contract example:
`A.enter` makes a known external call to `B.pull`, a state change follows,
and the call graph contains the cycle back to `A.enter`. -/
theorem C1_witness :
    ((∃ p ∈ analyzeFunctionReentrancyMulti tabAB cgAB cfgN cfgE "A.enter",
        p.external_call_node = "A_enter_node_1" ∧
        p.classification = "confirmed_reentrancy") ↔
      (CgReaches cgAB "A.enter" "B.pull" ∧
        StateChangeReachable cfgN cfgE (sanitize "A.enter")
          "A_enter_node_1")) ∧
    ((∃ p ∈ analyzeFunctionReentrancyMulti tabAB cgAB cfgN cfgE "A.enter",
        p.external_call_node = "A_enter_node_1" ∧
        p.classification = "safe_external_call") ↔
      (¬ CgReaches cgAB "A.enter" "B.pull" ∧
        StateChangeReachable cfgN cfgE (sanitize "A.enter")
          "A_enter_node_1")) ∧
    (¬ StateChangeReachable cfgN cfgE (sanitize "A.enter")
        "A_enter_node_1" →
      ∀ p ∈ analyzeFunctionReentrancyMulti tabAB cgAB cfgN cfgE "A.enter",
        p.external_call_node ≠ "A_enter_node_1") :=
  C1_detector tabAB cgAB cfgN cfgE "A.enter" "A_enter_node_1" "B.pull"
    kecNode (by decide)
    (by
      unfold cfgN
      exact List.mem_cons_of_mem _ (List.mem_cons_of_mem _
        (List.mem_cons_self _ _)))
    (by decide) rfl rfl rfl

/-! ## Claim C7 — interface resolution -/

theorem firstWith_first (tab : SymTab) (fn : String) (pre suf : List String)
    (impl : String) (hin : fn ∈ functionsOfContract tab impl)
    (hpre : ∀ x ∈ pre, fn ∉ functionsOfContract tab x) :
    findImplementation.firstWith tab fn (pre ++ impl :: suf) = some impl := by
  induction pre with
  | nil =>
    rw [List.nil_append]
    unfold findImplementation.firstWith
    rw [if_pos hin]
  | cons hd tl ih =>
    rw [List.cons_append]
    unfold findImplementation.firstWith
    rw [if_neg (hpre hd (List.mem_cons_self hd tl))]
    exact ih (fun x hx => hpre x (List.mem_cons_of_mem hd hx))

theorem findImplementation_interface (tab : SymTab) (I fn : String)
    (cd : ContractData) (h6 : alookup tab.allContracts I = some cd)
    (h7 : cd.is_interface = true) :
    findImplementation tab I fn = findImplementation.firstWith tab fn
      ((alookup tab.interfaceImplementations I).getD []) := by
  unfold findImplementation
  rw [h6]
  dsimp only
  rw [if_pos h7]

theorem classifyCall_interface (tab : SymTab) (expression : JVal)
    (currentContract I impl fn : String)
    (hfn : expression.getStr "memberName" = fn)
    (h1 : expression.getStr "nodeType" = "MemberAccess")
    (h2 : (expression.getD "expression" (.obj [])).isType "Identifier" =
      true)
    (h3 : ¬ (expression.getD "expression" (.obj [])).getStr "name" =
      "super")
    (h4 : strIn "contract"
      (((expression.getD "expression" (.obj [])).getD "typeDescriptions"
        (.obj [])).getStr "typeString") = true)
    (h5 : extractContractFromType
      (((expression.getD "expression" (.obj [])).getD "typeDescriptions"
        (.obj [])).getStr "typeString") = some I)
    (hfi : findImplementation tab I fn = some impl)
    (h9 : I ≠ currentContract) :
    (classifyCall tab expression currentContract).is_cross_contract =
      true ∧
    (classifyCall tab expression currentContract).target_contract =
      some I ∧
    (classifyCall tab expression currentContract).implementation_contract =
      some impl ∧
    (classifyCall tab expression currentContract).target_function =
      some fn := by
  unfold classifyCall
  dsimp only
  rw [if_pos h1, if_pos h2, if_neg h3, if_pos h4, h5]
  dsimp only
  rw [hfn, hfi]
  dsimp only
  rw [if_pos h9]
  refine ⟨?_, ?_, ?_, ?_⟩ <;> (split_ifs <;> rfl)

/-- Claim C7: when the syntactic target of a call is an interface `I`
recorded in the symbol table, `_find_implementation` scans `I`'s recorded
implementers in order and returns the first whose function set contains the
requested member name; `_process_function_call_multi` then emits exactly
one call-graph edge, targeting that implementer's function, with
`call_type = cross_contract`, `is_resolved = true` and
`via_interface = I`, together with the matching cross-contract-call
record. -/
theorem C7_interface_resolution (tab : SymTab) (im : InhMap)
    (callNode expression : JVal) (currentFunction I impl fn : String)
    (cd : ContractData) (pre suf : List String)
    (hexpr : callNode.getD "expression" (.obj []) = expression)
    (hfn : expression.getStr "memberName" = fn)
    (h1 : expression.getStr "nodeType" = "MemberAccess")
    (h2 : (expression.getD "expression" (.obj [])).isType "Identifier" =
      true)
    (h3 : ¬ (expression.getD "expression" (.obj [])).getStr "name" =
      "super")
    (h4 : strIn "contract"
      (((expression.getD "expression" (.obj [])).getD "typeDescriptions"
        (.obj [])).getStr "typeString") = true)
    (h5 : extractContractFromType
      (((expression.getD "expression" (.obj [])).getD "typeDescriptions"
        (.obj [])).getStr "typeString") = some I)
    (h6 : alookup tab.allContracts I = some cd)
    (h7 : cd.is_interface = true)
    (himpls : (alookup tab.interfaceImplementations I).getD [] =
      pre ++ impl :: suf)
    (hin : fn ∈ functionsOfContract tab impl)
    (hpre : ∀ x ∈ pre, fn ∉ functionsOfContract tab x)
    (h9 : I ≠ contractOf currentFunction)
    (h10 : (alookup tab.allFunctions (impl ++ "." ++ fn)).isSome = true) :
    processFunctionCallMulti tab im callNode currentFunction =
      { crossContractCalls :=
          [⟨currentFunction, impl ++ "." ++ fn, some I⟩],
        edges := [{ src := currentFunction, tgt := impl ++ "." ++ fn,
                    call_type := "cross_contract", is_resolved := true,
                    via_interface := some I }] } := by
  have hfi : findImplementation tab I fn = some impl := by
    rw [findImplementation_interface tab I fn cd h6 h7, himpls]
    exact firstWith_first tab fn pre suf impl hin hpre
  obtain ⟨hcc, htc, hic, htf⟩ := classifyCall_interface tab expression
    (contractOf currentFunction) I impl fn hfn h1 h2 h3 h4 h5 hfi h9
  unfold processFunctionCallMulti
  dsimp only
  rw [hexpr, if_pos hcc, hic, htc, htf]
  simp only [Option.orElse, Option.isSome_some]
  rw [if_pos h10]
  simp

/-- Instantiation of C7 on scenario 5: in `Vault.deposit`, the call
`token.transfer(...)` through `IToken` resolves to `Token.transfer`. -/
theorem C7_witness :
    processFunctionCallMulti tab7 {} itokenCall "Vault.deposit" =
      { crossContractCalls :=
          [⟨"Vault.deposit", "Token" ++ "." ++ "transfer", some "IToken"⟩],
        edges := [{ src := "Vault.deposit",
                    tgt := "Token" ++ "." ++ "transfer",
                    call_type := "cross_contract", is_resolved := true,
                    via_interface := some "IToken" }] } :=
  C7_interface_resolution tab7 {} itokenCall itokenExpr "Vault.deposit"
    "IToken" "Token" "transfer" ⟨["transfer"], true, false, []⟩ [] []
    rfl rfl rfl rfl (by decide) rfl rfl rfl rfl rfl (by decide)
    (fun x hx => absurd hx (List.not_mem_nil x)) (by decide) rfl

/-! ## Claim C8 — indirect calls via encoded selectors -/

theorem walkFields_cons_mem {α : Type} (π : WalkEff → List α)
    (hπ : ∀ a b : WalkEff, π (a ++ b) = π a ++ π b)
    (tab : SymTab) (im : InhMap) (f : String) (self : JVal)
    (hd : String × JVal) (tl : List (String × JVal)) (x : α)
    (hx : x ∈ π (walkFields tab im f self tl)) :
    x ∈ π (walkFields tab im f self (hd :: tl)) := by
  obtain ⟨k2, v2⟩ := hd
  cases v2 with
  | obj g =>
    rw [show walkFields tab im f self ((k2, JVal.obj g) :: tl) =
      walkAst tab im f (.obj g) (some self) ++
        walkFields tab im f self tl from rfl, hπ]
    exact List.mem_append_right _ hx
  | arr its =>
    rw [show walkFields tab im f self ((k2, JVal.arr its) :: tl) =
      walkItems tab im f self its ++
        walkFields tab im f self tl from rfl, hπ]
    exact List.mem_append_right _ hx
  | str s =>
    rw [show walkFields tab im f self ((k2, JVal.str s) :: tl) =
      ({} : WalkEff) ++ walkFields tab im f self tl from rfl, hπ]
    exact List.mem_append_right _ hx
  | jbool b =>
    rw [show walkFields tab im f self ((k2, JVal.jbool b) :: tl) =
      ({} : WalkEff) ++ walkFields tab im f self tl from rfl, hπ]
    exact List.mem_append_right _ hx
  | num m =>
    rw [show walkFields tab im f self ((k2, JVal.num m) :: tl) =
      ({} : WalkEff) ++ walkFields tab im f self tl from rfl, hπ]
    exact List.mem_append_right _ hx
  | null =>
    rw [show walkFields tab im f self ((k2, JVal.null) :: tl) =
      ({} : WalkEff) ++ walkFields tab im f self tl from rfl, hπ]
    exact List.mem_append_right _ hx

theorem walkItems_cons_mem {α : Type} (π : WalkEff → List α)
    (hπ : ∀ a b : WalkEff, π (a ++ b) = π a ++ π b)
    (tab : SymTab) (im : InhMap) (f : String) (self : JVal)
    (hd : JVal) (tl : List JVal) (x : α)
    (hx : x ∈ π (walkItems tab im f self tl)) :
    x ∈ π (walkItems tab im f self (hd :: tl)) := by
  cases hd with
  | obj g =>
    rw [show walkItems tab im f self (JVal.obj g :: tl) =
      walkAst tab im f (.obj g) (some self) ++
        walkItems tab im f self tl from rfl, hπ]
    exact List.mem_append_right _ hx
  | arr its =>
    rw [show walkItems tab im f self (JVal.arr its :: tl) =
      ({} : WalkEff) ++ walkItems tab im f self tl from rfl, hπ]
    exact List.mem_append_right _ hx
  | str s =>
    rw [show walkItems tab im f self (JVal.str s :: tl) =
      ({} : WalkEff) ++ walkItems tab im f self tl from rfl, hπ]
    exact List.mem_append_right _ hx
  | jbool b =>
    rw [show walkItems tab im f self (JVal.jbool b :: tl) =
      ({} : WalkEff) ++ walkItems tab im f self tl from rfl, hπ]
    exact List.mem_append_right _ hx
  | num m =>
    rw [show walkItems tab im f self (JVal.num m :: tl) =
      ({} : WalkEff) ++ walkItems tab im f self tl from rfl, hπ]
    exact List.mem_append_right _ hx
  | null =>
    rw [show walkItems tab im f self (JVal.null :: tl) =
      ({} : WalkEff) ++ walkItems tab im f self tl from rfl, hπ]
    exact List.mem_append_right _ hx

theorem walkFields_mem_obj {α : Type} (π : WalkEff → List α)
    (hπ : ∀ a b : WalkEff, π (a ++ b) = π a ++ π b)
    (tab : SymTab) (im : InhMap) (f : String) (self : JVal)
    (fields : List (String × JVal)) (k : String)
    (g : List (String × JVal)) (x : α)
    (hkv : (k, JVal.obj g) ∈ fields)
    (hx : x ∈ π (walkAst tab im f (.obj g) (some self))) :
    x ∈ π (walkFields tab im f self fields) := by
  induction fields with
  | nil => exact absurd hkv (List.not_mem_nil _)
  | cons hd tl ih =>
    rcases List.mem_cons.mp hkv with heq | htl
    · rw [← heq]
      rw [show walkFields tab im f self ((k, JVal.obj g) :: tl) =
        walkAst tab im f (.obj g) (some self) ++
          walkFields tab im f self tl from rfl, hπ]
      exact List.mem_append_left _ hx
    · exact walkFields_cons_mem π hπ tab im f self hd tl x (ih htl)

theorem walkFields_mem_arr {α : Type} (π : WalkEff → List α)
    (hπ : ∀ a b : WalkEff, π (a ++ b) = π a ++ π b)
    (tab : SymTab) (im : InhMap) (f : String) (self : JVal)
    (fields : List (String × JVal)) (k : String) (items : List JVal)
    (x : α) (hkv : (k, JVal.arr items) ∈ fields)
    (hx : x ∈ π (walkItems tab im f self items)) :
    x ∈ π (walkFields tab im f self fields) := by
  induction fields with
  | nil => exact absurd hkv (List.not_mem_nil _)
  | cons hd tl ih =>
    rcases List.mem_cons.mp hkv with heq | htl
    · rw [← heq]
      rw [show walkFields tab im f self ((k, JVal.arr items) :: tl) =
        walkItems tab im f self items ++
          walkFields tab im f self tl from rfl, hπ]
      exact List.mem_append_left _ hx
    · exact walkFields_cons_mem π hπ tab im f self hd tl x (ih htl)

theorem walkItems_mem {α : Type} (π : WalkEff → List α)
    (hπ : ∀ a b : WalkEff, π (a ++ b) = π a ++ π b)
    (tab : SymTab) (im : InhMap) (f : String) (self : JVal)
    (items : List JVal) (g : List (String × JVal)) (x : α)
    (hmem : JVal.obj g ∈ items)
    (hx : x ∈ π (walkAst tab im f (.obj g) (some self))) :
    x ∈ π (walkItems tab im f self items) := by
  induction items with
  | nil => exact absurd hmem (List.not_mem_nil _)
  | cons hd tl ih =>
    rcases List.mem_cons.mp hmem with heq | htl
    · rw [← heq]
      rw [show walkItems tab im f self (JVal.obj g :: tl) =
        walkAst tab im f (.obj g) (some self) ++
          walkItems tab im f self tl from rfl, hπ]
      exact List.mem_append_left _ hx
    · exact walkItems_cons_mem π hπ tab im f self hd tl x (ih htl)

theorem walkVisits_mem {α : Type} (π : WalkEff → List α)
    (hπ : ∀ a b : WalkEff, π (a ++ b) = π a ++ π b)
    (tab : SymTab) (im : InhMap) (f : String) (r n : JVal)
    (p q : Option JVal) (h : WalkVisits r p n q) (x : α) :
    x ∈ π (walkDispatch tab im f n q) → x ∈ π (walkAst tab im f r p) := by
  induction h with
  | here fields p2 =>
    intro hx
    rw [show walkAst tab im f (.obj fields) p2 =
      walkDispatch tab im f (.obj fields) p2 ++
        walkFields tab im f (.obj fields) fields from rfl, hπ]
    exact List.mem_append_left _ hx
  | fieldObj fields p2 k g n2 q2 hkv _ ih =>
    intro hx
    rw [show walkAst tab im f (.obj fields) p2 =
      walkDispatch tab im f (.obj fields) p2 ++
        walkFields tab im f (.obj fields) fields from rfl, hπ]
    refine List.mem_append_right _ ?_
    exact walkFields_mem_obj π hπ tab im f (.obj fields) fields k g x
      hkv (ih hx)
  | arrItem fields p2 k items g n2 q2 hkv hitem _ ih =>
    intro hx
    rw [show walkAst tab im f (.obj fields) p2 =
      walkDispatch tab im f (.obj fields) p2 ++
        walkFields tab im f (.obj fields) fields from rfl, hπ]
    refine List.mem_append_right _ ?_
    refine walkFields_mem_arr π hπ tab im f (.obj fields) fields k
      items x hkv ?_
    exact walkItems_mem π hπ tab im f (.obj fields) items g x hitem (ih hx)

theorem walkDispatch_memberAccess (tab : SymTab) (im : InhMap)
    (curF : String) (n : JVal) (q : Option JVal)
    (hnt : n.getStr "nodeType" = "MemberAccess")
    (hmm : n.getStr "memberName" = "encodeWithSelector" ∨
      n.getStr "memberName" = "encode" ∨
      n.getStr "memberName" = "encodePacked") :
    walkDispatch tab im curF n q = checkForIndirectCallMulti tab curF q :=
  by
  unfold walkDispatch
  dsimp only
  rw [hnt]
  rw [if_neg (by decide : ¬("MemberAccess" = "FunctionCall")), if_pos rfl]
  rw [if_pos hmm]

theorem checkForIndirect_eval (tab : SymTab) (curF : String)
    (parent firstArg : JVal) (rest : List JVal) (fname : String)
    (hpc : parent.isType "FunctionCall" = true)
    (hargs : (parent.getD "arguments" (.arr [])).items = firstArg :: rest)
    (hfa : firstArg.isType "MemberAccess" = true)
    (hsel : firstArg.getStr "memberName" = "selector")
    (hsb : (firstArg.getD "expression" (.obj [])).isType "MemberAccess" =
      true)
    (hfname : (firstArg.getD "expression" (.obj [])).getStr "memberName" =
      fname)
    (hbase : ((firstArg.getD "expression" (.obj [])).getD "expression"
      (.obj [])).isType "Identifier" = true)
    (hthis : ((firstArg.getD "expression" (.obj [])).getD "expression"
      (.obj [])).getStr "name" = "this") :
    checkForIndirectCallMulti tab curF (some parent) =
      if (alookup tab.allFunctions
          (contractOf curF ++ "." ++ fname)).isSome then
        { edges := [{ src := curF, tgt := contractOf curF ++ "." ++ fname,
                      call_type := "indirect" }],
          indirectCalls := [(curF, contractOf curF ++ "." ++ fname)] }
      else {} := by
  unfold checkForIndirectCallMulti
  dsimp only
  rw [if_pos hpc, hargs]
  dsimp only
  rw [if_pos ⟨hfa, hsel⟩, if_pos hsb, hfname, if_pos ⟨hbase, hthis⟩]

/-- Claim C8 (amended): for an occurrence of the indirect-call pattern —
a `MemberAccess` named `encodeWithSelector`/`encode`/`encodePacked` whose
parent is a `FunctionCall` whose first argument is
`MemberAccess(memberName = selector)` over
`MemberAccess(Identifier(this), F)` — in the walked AST of
`current_function` of contract `C`: *provided `C.F` is a recorded
function*, an edge `current_function → C.F` with `call_type = indirect`
and an indirect-call entry are added; when `C.F` is not recorded, the
occurrence contributes nothing. -/
theorem C8_indirect_amended (tab : SymTab) (im : InhMap) (curF : String)
    (root n parent firstArg : JVal) (p : Option JVal)
    (rest : List JVal) (fname : String)
    (hocc : WalkVisits root p n (some parent))
    (hnt : n.getStr "nodeType" = "MemberAccess")
    (hmm : n.getStr "memberName" = "encodeWithSelector" ∨
      n.getStr "memberName" = "encode" ∨
      n.getStr "memberName" = "encodePacked")
    (hpc : parent.isType "FunctionCall" = true)
    (hargs : (parent.getD "arguments" (.arr [])).items = firstArg :: rest)
    (hfa : firstArg.isType "MemberAccess" = true)
    (hsel : firstArg.getStr "memberName" = "selector")
    (hsb : (firstArg.getD "expression" (.obj [])).isType "MemberAccess" =
      true)
    (hfname : (firstArg.getD "expression" (.obj [])).getStr "memberName" =
      fname)
    (hbase : ((firstArg.getD "expression" (.obj [])).getD "expression"
      (.obj [])).isType "Identifier" = true)
    (hthis : ((firstArg.getD "expression" (.obj [])).getD "expression"
      (.obj [])).getStr "name" = "this") :
    ((alookup tab.allFunctions (contractOf curF ++ "." ++ fname)).isSome =
        true →
      ({ src := curF, tgt := contractOf curF ++ "." ++ fname,
         call_type := "indirect" } : CgEdge) ∈
          (walkAst tab im curF root p).edges ∧
      (curF, contractOf curF ++ "." ++ fname) ∈
          (walkAst tab im curF root p).indirectCalls) ∧
    ((alookup tab.allFunctions (contractOf curF ++ "." ++ fname)).isSome =
        false →
      walkDispatch tab im curF n (some parent) = {}) := by
  have hck := checkForIndirect_eval tab curF parent firstArg rest fname
    hpc hargs hfa hsel hsb hfname hbase hthis
  have hwd : walkDispatch tab im curF n (some parent) =
      checkForIndirectCallMulti tab curF (some parent) :=
    walkDispatch_memberAccess tab im curF n (some parent) hnt hmm
  constructor
  · intro hknown
    have hone : walkDispatch tab im curF n (some parent) =
        { edges := [{ src := curF, tgt := contractOf curF ++ "." ++ fname,
                      call_type := "indirect" }],
          indirectCalls := [(curF, contractOf curF ++ "." ++ fname)] } :=
      by rw [hwd, hck, if_pos hknown]
    constructor
    · refine walkVisits_mem WalkEff.edges (fun a b => rfl) tab im curF
        root n p (some parent) hocc _ ?_
      rw [hone]
      exact List.mem_singleton.mpr rfl
    · refine walkVisits_mem WalkEff.indirectCalls (fun a b => rfl) tab im
        curF root n p (some parent) hocc _ ?_
      rw [hone]
      exact List.mem_singleton.mpr rfl
  · intro hunknown
    rw [hwd, hck, if_neg (by rw [hunknown]; exact Bool.false_ne_true)]

theorem walkVisits_encMem :
    WalkVisits (.obj dispatchFields) none (.obj encMemFields)
      (some (.obj encCallFields)) := by
  refine WalkVisits.fieldObj dispatchFields none "body" bodyFields _ _
    (List.mem_cons_of_mem _ (List.mem_cons_self _ _)) ?_
  refine WalkVisits.arrItem bodyFields (some (.obj dispatchFields))
    "statements" [.obj exprStmtFields] exprStmtFields _ _
    (List.mem_cons_self _ _) (List.mem_cons_self _ _) ?_
  refine WalkVisits.fieldObj exprStmtFields (some (.obj bodyFields))
    "expression" encCallFields _ _
    (List.mem_cons_of_mem _ (List.mem_cons_self _ _)) ?_
  refine WalkVisits.fieldObj encCallFields (some (.obj exprStmtFields))
    "expression" encMemFields _ _
    (List.mem_cons_of_mem _ (List.mem_cons_self _ _)) ?_
  exact WalkVisits.here encMemFields (some (.obj encCallFields))

/-- Claim C8 counterexample: the body of `A.dispatch` contains the full
indirect-call pattern `abi.encodeWithSelector(this.target.selector)` —
the walk visits the `encodeWithSelector` member access with the enclosing
`FunctionCall` as parent and every syntactic condition of the pattern
holds — yet, because `A.target` is not a recorded function, the walk adds
no edge and records no indirect-call entry at all. -/
theorem C8_counterexample :
    WalkVisits (.obj dispatchFields) none (.obj encMemFields)
        (some (.obj encCallFields)) ∧
    (JVal.obj encMemFields).getStr "nodeType" = "MemberAccess" ∧
    (JVal.obj encMemFields).getStr "memberName" = "encodeWithSelector" ∧
    (JVal.obj encCallFields).isType "FunctionCall" = true ∧
    ((JVal.obj encCallFields).getD "arguments" (.arr [])).items =
      [.obj selArgFields] ∧
    (JVal.obj selArgFields).isType "MemberAccess" = true ∧
    (JVal.obj selArgFields).getStr "memberName" = "selector" ∧
    ((JVal.obj selArgFields).getD "expression" (.obj [])).getStr
      "memberName" = "target" ∧
    (((JVal.obj selArgFields).getD "expression" (.obj [])).getD
      "expression" (.obj [])).getStr "name" = "this" ∧
    (alookup tab8bad.allFunctions ("A" ++ "." ++ "target")).isSome =
      false ∧
    (walkAst tab8bad ⟨[]⟩ "A.dispatch" (.obj dispatchFields) none).edges =
      [] ∧
    (walkAst tab8bad ⟨[]⟩ "A.dispatch" (.obj dispatchFields)
      none).indirectCalls = [] :=
  ⟨walkVisits_encMem, rfl, rfl, rfl, rfl, rfl, rfl, rfl, rfl, by decide,
    by decide, by decide⟩

/-- Instantiation of the amended C8 theorem on the same AST with
`A.target` recorded: the indirect edge and the indirect-call entry are
emitted. -/
theorem C8_witness :
    ((alookup tabD.allFunctions (contractOf "A.dispatch" ++ "." ++
        "target")).isSome = true →
      ({ src := "A.dispatch",
         tgt := contractOf "A.dispatch" ++ "." ++ "target",
         call_type := "indirect" } : CgEdge) ∈
          (walkAst tabD ⟨[]⟩ "A.dispatch" (.obj dispatchFields)
            none).edges ∧
      ("A.dispatch", contractOf "A.dispatch" ++ "." ++ "target") ∈
          (walkAst tabD ⟨[]⟩ "A.dispatch" (.obj dispatchFields)
            none).indirectCalls) ∧
    ((alookup tabD.allFunctions (contractOf "A.dispatch" ++ "." ++
        "target")).isSome = false →
      walkDispatch tabD ⟨[]⟩ "A.dispatch" (.obj encMemFields)
        (some (.obj encCallFields)) = {}) :=
  C8_indirect_amended tabD ⟨[]⟩ "A.dispatch" (.obj dispatchFields)
    (.obj encMemFields) (.obj encCallFields) (.obj selArgFields) none []
    "target" walkVisits_encMem rfl (Or.inl rfl) rfl rfl rfl rfl rfl rfl
    rfl rfl

/-! ## Claim C3 — Entry/Exit shape of each function CFG -/

/-- Claim C3 counterexample: with an empty statement list no edge is added
at all — in particular there is no direct Entry → Exit edge — and a body
whose single statement is an empty `Block` yields a CFG with one statement
and no edges, so Exit is not reachable from Entry. -/
theorem C3_counterexample :
    (buildFunctionCfg {} "A.f" emptyBodyFn {}).edges = [] ∧
    (buildFunctionCfg {} "A.f" emptyBodyFn {}).nodes.map Prod.fst =
      [entryIdOf "A.f", exitIdOf "A.f"] ∧
    ((blockOnlyFn.getD "body" (.obj [])).getD "statements"
      (.arr [])).items.length = 1 ∧
    (buildFunctionCfg {} "A.g" blockOnlyFn {}).edges = [] ∧
    ¬ CfgReach (buildFunctionCfg {} "A.g" blockOnlyFn {}).edges
      (entryIdOf "A.g") (exitIdOf "A.g") := by
  refine ⟨by decide, by decide, by decide, by decide, fun h => ?_⟩
  have h2 : CfgReach [] (entryIdOf "A.g") (exitIdOf "A.g") := by
    have he : (buildFunctionCfg {} "A.g" blockOnlyFn {}).edges =
        ([] : List Edge) := by decide
    rw [he] at h
    exact h
  exact entryIdOf_ne_exitIdOf "A.g" (cfgReach_nil h2)

/-- Claim C3 (amended): every per-function CFG build writes exactly one
Entry node (`<key>_entry`) and exactly one Exit node (`<key>_exit`): both
are present, every Entry/Exit-typed node carries those ids, and node ids
are duplicate-free.  When the function has no body or an empty statement
list, *no* edge is added at all (the claimed direct Entry → Exit edge does
not exist).  Exit is reachable from Entry whenever the statement loop ends
with `prev_id` moved off the Entry node, i.e. at least one statement
yielded a CFG node. -/
theorem C3_entry_exit_shape (tab : SymTab) (key : String) (fn : JVal) :
    ((entryIdOf key, entryNodeOf key) ∈
      (buildFunctionCfg tab key fn {}).nodes) ∧
    ((exitIdOf key, exitNodeOf key) ∈
      (buildFunctionCfg tab key fn {}).nodes) ∧
    (∀ p ∈ (buildFunctionCfg tab key fn {}).nodes,
      (p.2.node_type = .ENTRY → p.1 = entryIdOf key) ∧
      (p.2.node_type = .EXIT → p.1 = exitIdOf key)) ∧
    (((buildFunctionCfg tab key fn {}).nodes.map Prod.fst).Nodup) ∧
    ((fn.getD "body" (.obj [])).truthy = false →
      (buildFunctionCfg tab key fn {}).edges = []) ∧
    (((fn.getD "body" (.obj [])).getD "statements" (.arr [])).truthy =
        false → (buildFunctionCfg tab key fn {}).edges = []) ∧
    (∀ r, buildSeq tab
        ((fn.getD "body" (.obj [])).getD "statements" (.arr [])).items key
        (exitIdOf key) (entryIdOf key)
        (addNode
          (addNode {} (entryIdOf key)
            { id := entryIdOf key, node_type := .ENTRY,
              function_name := some key })
          (exitIdOf key)
          { id := exitIdOf key, node_type := .EXIT,
            function_name := some key }) = r →
      (fn.getD "body" (.obj [])).truthy = true →
      ((fn.getD "body" (.obj [])).getD "statements" (.arr [])).truthy =
        true →
      r.1 ≠ entryIdOf key →
      CfgReach (buildFunctionCfg tab key fn {}).edges (entryIdOf key)
        (exitIdOf key)) := by
  refine ⟨buildFunctionCfg_entry_mem tab key fn {},
    buildFunctionCfg_exit_mem tab key fn {}, ?_, ?_, ?_, ?_, ?_⟩
  · intro p hp
    rcases buildFunctionCfg_nodes tab key fn {} p hp with h | h | h | h
    · exact absurd h (List.not_mem_nil p)
    · rw [h]
      refine ⟨fun _ => rfl, fun hx => ?_⟩
      simp [entryNodeOf] at hx
    · rw [h]
      refine ⟨fun hx => ?_, fun _ => rfl⟩
      simp [exitNodeOf] at hx
    · exact ⟨fun hx => absurd hx h.2.2.1, fun hx => absurd hx h.2.2.2⟩
  · exact buildFunctionCfg_nodup tab key fn {} (by simp)
  · intro hb
    unfold buildFunctionCfg
    dsimp only
    rw [if_neg (by rw [hb]; exact Bool.false_ne_true)]
    rfl
  · intro hs
    unfold buildFunctionCfg
    dsimp only
    split_ifs with hb hs2 hne <;>
      first
        | rfl
        | exact absurd (hs.symm.trans hs2) (by decide)
  · intro r hr hb hs hne
    unfold buildFunctionCfg
    dsimp only
    rw [if_pos hb, if_pos hs, hr, if_pos hne]
    have h1 := buildSeq_reach tab
      ((fn.getD "body" (.obj [])).getD "statements" (.arr [])).items key
      (exitIdOf key) (entryIdOf key)
      (addNode
        (addNode {} (entryIdOf key)
          { id := entryIdOf key, node_type := .ENTRY,
            function_name := some key })
        (exitIdOf key)
        { id := exitIdOf key, node_type := .EXIT,
          function_name := some key })
    rw [hr] at h1
    have h2 := cfgReach_mono (fun a b h =>
      addEdge_go_pair r.1 (exitIdOf key) none r.2.edges a b h) h1
    exact cfgReach_snoc h2 (addEdge_go_pair_self r.1 (exitIdOf key) none
      r.2.edges)

/-- Instantiation of the amended C3 theorem on a function whose single
assignment statement yields a node: Exit is reachable from Entry. -/
theorem C3_witness :
    CfgReach (buildFunctionCfg {} "Vault.w" fnLocked {}).edges
      (entryIdOf "Vault.w") (exitIdOf "Vault.w") :=
  (C3_entry_exit_shape {} "Vault.w" fnLocked).2.2.2.2.2.2 _ rfl
    (by decide) (by decide) (by decide)

/-! ## Claim C5 — global id uniqueness and prefix enumeration -/

theorem buildCfgs_mem (tab : SymTab) (fns : List (String × JVal)) :
    ∀ (st : CfgSt) (p : String × CFGNode),
      p ∈ (buildCfgs tab fns st).nodes →
      p ∈ st.nodes ∨ ∃ K ∈ fns.map Prod.fst, FnNodeOK K p := by
  induction fns with
  | nil => intro st p hp; exact Or.inl hp
  | cons hd tl ih =>
    intro st p hp
    rcases ih (buildFunctionCfg tab hd.1 hd.2 st) p hp with h2 |
      ⟨K, hK, hOK⟩
    · rcases buildFunctionCfg_nodes tab hd.1 hd.2 st p h2 with
        h3 | h3 | h3 | h3
      · exact Or.inl h3
      · refine Or.inr ⟨hd.1,
          List.mem_map_of_mem _ (List.mem_cons_self _ _), ?_⟩
        rw [h3]
        exact ⟨rfl, Or.inl rfl⟩
      · refine Or.inr ⟨hd.1,
          List.mem_map_of_mem _ (List.mem_cons_self _ _), ?_⟩
        rw [h3]
        exact ⟨rfl, Or.inr (Or.inl rfl)⟩
      · exact Or.inr ⟨hd.1,
          List.mem_map_of_mem _ (List.mem_cons_self _ _), h3.2.1,
          Or.inr (Or.inr h3.1)⟩
    · refine Or.inr ⟨K, ?_, hOK⟩
      rw [List.map_cons]
      exact List.mem_cons_of_mem _ hK

theorem buildCfgs_nodup (tab : SymTab) (fns : List (String × JVal)) :
    ∀ st : CfgSt, (st.nodes.map Prod.fst).Nodup →
      (((buildCfgs tab fns st).nodes.map Prod.fst)).Nodup := by
  induction fns with
  | nil => intro st h; exact h
  | cons hd tl ih =>
    intro st h
    exact ih (buildFunctionCfg tab hd.1 hd.2 st)
      (buildFunctionCfg_nodup tab hd.1 hd.2 st h)

theorem fnNodeOK_shape {K : String} {p : String × CFGNode}
    (h : FnNodeOK K p) : ∃ sfx, p.1 = sanitize K ++ sfx := by
  rcases h.2 with h2 | h2 | ⟨n, h2⟩
  · exact ⟨"_entry", h2⟩
  · exact ⟨"_exit", h2⟩
  · exact ⟨"_node_" ++ natStr n, by
      rw [h2]
      exact (String.append_assoc _ _ _)⟩

/-- Claim C5 counterexample: `"A.b_c"` and `"A_b.c"` are distinct function
keys with the same sanitized prefix, so their CFG node ids collide — the
second build overwrites the first function's Entry/Exit nodes, leaving two
stored nodes attributed to `"A_b.c"`.  And `sanitize "A.f"` is a prefix of
`sanitize "A.fo"`, so prefix matching for `A.f` wrongly captures all of
`A.fo`'s nodes. -/
theorem C5_counterexample :
    ("A.b_c" ≠ "A_b.c") ∧
    entryIdOf "A.b_c" = entryIdOf "A_b.c" ∧
    (buildCfgs {} [("A.b_c", emptyBodyFn), ("A_b.c", emptyBodyFn)]
      {}).nodes.length = 2 ∧
    ((lookupNode (buildCfgs {} [("A.b_c", emptyBodyFn),
      ("A_b.c", emptyBodyFn)] {}).nodes (entryIdOf "A.b_c")).map
      (fun nd => nd.function_name)) = some (some "A_b.c") ∧
    ("A.f" ≠ "A.fo") ∧
    ((buildCfgs {} [("A.f", emptyBodyFn), ("A.fo", emptyBodyFn)]
        {}).nodes.filter (fun p => strPre (sanitize "A.f") p.1)).map
      (fun p => (p.1, p.2.function_name)) =
      [("A_f_entry", some "A.f"), ("A_f_exit", some "A.f"),
       ("A_fo_entry", some "A.fo"), ("A_fo_exit", some "A.fo")] := by
  refine ⟨by decide, by decide, by decide, by decide, by decide,
    by decide⟩

/-- Claim C5 (amended): when the sanitized keys of distinct analyzed
functions are pairwise non-prefixes of one another, the shared CFG's node
ids are duplicate-free and prefix matching enumerates exactly each
function's own nodes: a stored node's id starts with `sanitize F` iff the
node belongs to `F` (its `function_name` is `F`). -/
theorem C5_prefix_amended (tab : SymTab) (fns : List (String × JVal))
    (hpair : ∀ F G, F ∈ fns.map Prod.fst → G ∈ fns.map Prod.fst →
      F ≠ G → strPre (sanitize F) (sanitize G) = false) :
    (((buildCfgs tab fns {}).nodes.map Prod.fst).Nodup) ∧
    ∀ F ∈ fns.map Prod.fst, ∀ p ∈ (buildCfgs tab fns {}).nodes,
      (strPre (sanitize F) p.1 = true ↔
        p.2.function_name = some F) := by
  refine ⟨buildCfgs_nodup tab fns {} (by simp), ?_⟩
  intro F hF p hp
  rcases buildCfgs_mem tab fns {} p hp with h | ⟨K, hK, hOK⟩
  · exact absurd h (List.not_mem_nil p)
  rcases fnNodeOK_shape hOK with ⟨sfx, hid⟩
  constructor
  · intro hstr
    rw [hid] at hstr
    have hFK : F = K := by
      by_contra hne
      rcases strPre_of_append (sanitize F) (sanitize K) sfx hstr with
        h2 | h2
      · rw [hpair F K hF hK hne] at h2
        exact Bool.false_ne_true h2
      · rw [hpair K F hK hF (Ne.symm hne)] at h2
        exact Bool.false_ne_true h2
    rw [hFK]
    exact hOK.1
  · intro hfn
    have hKF : K = F := Option.some.inj (hOK.1.symm.trans hfn)
    rw [hid, ← hKF]
    exact strPre_self_append (sanitize K) sfx

/-- Instantiation of the amended C5 theorem on two functions whose
sanitized keys are not prefixes of each other. -/
theorem C5_witness :
    ((buildCfgs {} [("A.f", emptyBodyFn), ("B.g", emptyBodyFn)]
      {}).nodes.map Prod.fst).Nodup ∧
    ∀ F ∈ ([("A.f", emptyBodyFn), ("B.g", emptyBodyFn)] :
        List (String × JVal)).map Prod.fst,
      ∀ p ∈ (buildCfgs {} [("A.f", emptyBodyFn), ("B.g", emptyBodyFn)]
        {}).nodes,
      (strPre (sanitize F) p.1 = true ↔
        p.2.function_name = some F) :=
  C5_prefix_amended {} [("A.f", emptyBodyFn), ("B.g", emptyBodyFn)]
    (by
      intro F G hF hG hne
      fin_cases hF <;> fin_cases hG <;>
        first
          | exact absurd rfl hne
          | decide)

/-! ## Claim C10 — wiring after an `if` statement -/

/-- Claim C10 counterexample: in the nested-if function `A.h`, the inner
`if`'s merge node (`A_h_node_4`, a Condition node carrying no AST — the
signature of the synthetic merge) receives an outgoing edge to the outer
merge `A_h_node_2`, so a merge node is *not* always without outgoing
edges.  (The final edge list also shows the sequence leaving the outer
`if` from its condition node `A_h_node_1`, not from a merge.) -/
theorem C10_counterexample :
    pairMem (buildFunctionCfg {} "A.h" fnNest {}).edges "A_h_node_4"
      "A_h_node_2" = true ∧
    nodeIdOf "A.h" 4 = "A_h_node_4" ∧
    nodeIdOf "A.h" 2 = "A_h_node_2" ∧
    ((lookupNode (buildFunctionCfg {} "A.h" fnNest {}).nodes
      "A_h_node_4").map (fun nd => (nd.node_type, nd.ast_node.isSome))) =
      some (.CONDITION, false) ∧
    ((lookupNode (buildFunctionCfg {} "A.h" fnNest {}).nodes
      "A_h_node_2").map (fun nd => (nd.node_type, nd.ast_node.isSome))) =
      some (.CONDITION, false) ∧
    (buildFunctionCfg {} "A.h" fnNest {}).edges.map
      (fun e => (e.src, e.tgt)) =
      [("A_h_node_3", "A_h_node_5"), ("A_h_node_5", "A_h_node_4"),
       ("A_h_node_3", "A_h_node_4"), ("A_h_node_1", "A_h_node_3"),
       ("A_h_node_4", "A_h_node_2"), ("A_h_node_1", "A_h_node_2"),
       ("A_h_entry", "A_h_node_1"), ("A_h_node_1", "A_h_exit")] := by
  refine ⟨by decide, by decide, by decide, by decide, by decide,
    by decide⟩

/-- Claim C10 (amended): processing an `IfStatement` yields the id of its
Condition node (`node_<c+1>`), which differs from its merge node
(`node_<c+2>`); the statement loop wires the incoming edge to that
Condition id and continues the sequence from it, so any following
statement that yields a node is wired as a successor of the Condition
node — not of the merge node.  (A merge node may still gain an outgoing
edge when its `if` is nested inside another `if`'s branch, as the
counterexample shows.) -/
theorem C10_condition_wiring (tab : SymTab) (stmt : JVal)
    (key exitId prev : String) (st : CfgSt) (more : List JVal)
    (hobj : stmt.isObj = true)
    (hty : stmt.getStr "nodeType" = "IfStatement") :
    (processStatement tab (2 * jvalDepth stmt + 2) stmt key exitId st).1 =
      some (nodeIdOf key (st.counter + 1)) ∧
    nodeIdOf key (st.counter + 1) ≠ nodeIdOf key (st.counter + 2) ∧
    pairMem (buildSeq tab (stmt :: more) key exitId prev st).2.edges prev
      (nodeIdOf key (st.counter + 1)) = true ∧
    (∀ (s2 : JVal) (more2 : List JVal) (st2 : CfgSt) (j : String),
      (processStatement tab (2 * jvalDepth s2 + 2) s2 key exitId st2).1 =
        some j →
      pairMem (buildSeq tab (s2 :: more2) key exitId
        (nodeIdOf key (st.counter + 1)) st2).2.edges
        (nodeIdOf key (st.counter + 1)) j = true) := by
  have h1 : (processStatement tab (2 * jvalDepth stmt + 2) stmt key
      exitId st).1 = some (nodeIdOf key (st.counter + 1)) := by
    unfold processStatement
    dsimp only
    rw [hty]
    rw [if_neg (by rw [hobj]; decide)]
    rw [if_neg (by decide : ¬("IfStatement" = "ExpressionStatement"))]
    rw [if_neg (by decide : ¬("IfStatement" = "EmitStatement"))]
    rw [if_neg (by decide :
      ¬("IfStatement" = "VariableDeclarationStatement"))]
    rw [if_neg (by decide : ¬("IfStatement" = "Return"))]
    rw [if_neg (by decide : ¬("IfStatement" = "Block"))]
    rw [if_pos rfl]
    rfl
  refine ⟨h1, ?_, ?_, ?_⟩
  · intro h
    have := nodeIdOf_inj key h
    omega
  · exact buildSeq_wires tab stmt more key exitId prev st _ h1
  · intro s2 more2 st2 j hj
    exact buildSeq_wires tab s2 more2 key exitId _ st2 j hj

/-- Instantiation of the amended C10 theorem on the concrete nested-if
statement of `A.h` at the initial state. -/
theorem C10_witness :
    (processStatement {} (2 * jvalDepth outerIfStmt + 2) outerIfStmt
      "A.h" (exitIdOf "A.h") {}).1 =
      some (nodeIdOf "A.h" (0 + 1)) ∧
    nodeIdOf "A.h" (0 + 1) ≠ nodeIdOf "A.h" (0 + 2) ∧
    pairMem (buildSeq {} [outerIfStmt] "A.h" (exitIdOf "A.h")
      (entryIdOf "A.h") {}).2.edges (entryIdOf "A.h")
      (nodeIdOf "A.h" (0 + 1)) = true ∧
    (∀ (s2 : JVal) (more2 : List JVal) (st2 : CfgSt) (j : String),
      (processStatement {} (2 * jvalDepth s2 + 2) s2 "A.h"
        (exitIdOf "A.h") st2).1 = some j →
      pairMem (buildSeq {} (s2 :: more2) "A.h" (exitIdOf "A.h")
        (nodeIdOf "A.h" (0 + 1)) st2).2.edges
        (nodeIdOf "A.h" (0 + 1)) j = true) :=
  C10_condition_wiring {} outerIfStmt "A.h" (exitIdOf "A.h")
    (entryIdOf "A.h") {} [] rfl rfl

/-! ## Claim C4 — severity assignment -/

/-- Claim C4: severity is a function of classification, caller visibility
and the number of state changes after the call: `safe_external_call`
patterns get severity `low`; `confirmed_reentrancy` patterns get
`critical`; a `potential_reentrancy` pattern gets `high` when the function's
visibility is `public` or `external` and there are at least 2 state changes
after the call, `medium` when the visibility is `public` or `external` and
at least one state change remains (i.e. exactly one, the high case having
taken precedence), and `low` otherwise. -/
theorem C4_severity (tab : SymTab) (scs : List ScEntry)
    (funcKey cls vis : String)
    (hvis : alookup tab.allFunctions funcKey = some ⟨vis⟩) :
    (cls = "safe_external_call" →
      determineSeverity tab scs funcKey cls = "low") ∧
    (cls = "confirmed_reentrancy" →
      determineSeverity tab scs funcKey cls = "critical") ∧
    (cls = "potential_reentrancy" →
      (((vis = "public" ∨ vis = "external") ∧ 2 ≤ scs.length →
        determineSeverity tab scs funcKey cls = "high") ∧
      ((vis = "public" ∨ vis = "external") ∧ scs.length = 1 →
        determineSeverity tab scs funcKey cls = "medium") ∧
      (¬((vis = "public" ∨ vis = "external") ∧ 1 ≤ scs.length) →
        determineSeverity tab scs funcKey cls = "low"))) := by
  refine ⟨fun h => by simp [determineSeverity, h],
    fun h => by simp [determineSeverity, h], fun h => ?_⟩
  subst h
  have e1 : determineSeverity tab scs funcKey "potential_reentrancy"
      = if scs.length > 1 ∧ (vis = "public" ∨ vis = "external") then "high"
        else if !scs.isEmpty ∧ (vis = "public" ∨ vis = "external") then
          "medium"
        else "low" := by
    simp only [determineSeverity, hvis]
    rw [if_neg (by decide), if_neg (by decide)]
  rw [e1]
  have hbe : ∀ h' : scs ≠ [], (!scs.isEmpty) = true := by
    intro h'
    cases scs with
    | nil => exact absurd rfl h'
    | cons a l => rfl
  refine ⟨fun h => ?_, fun h => ?_, fun hno => ?_⟩
  · rw [if_pos ⟨by have := h.2; omega, h.1⟩]
  · have hc1 : ¬(scs.length > 1 ∧ (vis = "public" ∨ vis = "external")) := by
      intro hc
      have h1 := hc.1
      have h2 := h.2
      omega
    rw [if_neg hc1, if_pos ?_]
    exact ⟨hbe (by intro he; rw [he] at h; simp at h), h.1⟩
  · have hg1 : ¬(scs.length > 1 ∧ (vis = "public" ∨ vis = "external")) := by
      intro hc
      exact hno ⟨hc.2, by have := hc.1; omega⟩
    have hg2 : ¬((!scs.isEmpty) = true ∧
        (vis = "public" ∨ vis = "external")) := by
      intro hc
      have hne : scs ≠ [] := by
        intro he
        rw [he] at hc
        simp at hc
      refine hno ⟨hc.2, ?_⟩
      cases scs with
      | nil => exact absurd rfl hne
      | cons a l => simp
    rw [if_neg hg1, if_neg hg2]

/-- Witness for C4: a public function with two state changes after the call
is rated `high`. -/
theorem C4_witness :
    determineSeverity vaultTab [⟨"a", "a"⟩, ⟨"b", "b"⟩] "Vault.withdraw"
      "potential_reentrancy" = "high" :=
  ((C4_severity vaultTab [⟨"a", "a"⟩, ⟨"b", "b"⟩] "Vault.withdraw"
    "potential_reentrancy" "public" (by decide)).2.2 rfl).1
    ⟨Or.inl rfl, by decide⟩

/-! ## Claim C2 — the state-variable access test misses index writes -/

/-- Claim C2, evaluated at the failing input (scenario 1 of the spec): the
LHS of `balances[msg.sender] -= amount` is an `IndexAccess`, for which
`_is_state_variable_access_multi` has no case, so even though `balances` is
a declared state variable of `Vault`, the CFG node is a `StateChange` with
`modifies_state = false`, and although it directly follows an
`ExternalCall` node, no `potential_reentrancy` pattern is emitted: the test
does produce a false negative for this first-level state-variable write. -/
theorem C2_state_var_false_negative :
    "balances" ∈ (alookup vaultTab.stateVariables "Vault").getD [] ∧
    isStateVarAccess vaultTab withdrawLhs "Vault" = false ∧
    (lookupNode vaultSt.nodes "Vault_withdraw_node_2").map
      CFGNode.node_type = some .EXTERNAL_CALL ∧
    (lookupNode vaultSt.nodes "Vault_withdraw_node_3").map
      (fun nd => (nd.node_type, nd.modifies_state)) =
      some (.STATE_CHANGE, false) ∧
    ("Vault_withdraw_node_2", "Vault_withdraw_node_3") ∈
      vaultSt.edges.map (fun e => (e.src, e.tgt)) ∧
    analyzeFunctionReentrancyMulti vaultTab [] vaultSt.nodes vaultSt.edges
      "Vault.withdraw" = [] := by
  refine ⟨by decide, by decide, by decide, by decide, by decide, by decide⟩

/-! ## Claim C6 — the loader -/

/-- Counterexample to C6 as stated: a path to a single JSON artifact file
produces no contract contexts at all (`Path.glob` on a non-directory
matches nothing), even though the file's contents parse to one contract;
and a directory is processed in enumeration order, not filename sort order
(listing `b.json` before `a.json` yields `B` before `A`). -/
theorem C6_counterexample :
    loadBuildInfo (.filePath "vault.json" srcUnitVault) = [] ∧
    (extractContractsFromBuild srcUnitVault "vault.json").map
      ContractContext.contract_name = ["Vault"] ∧
    (loadBuildInfo (.dirPath [("b.json", oneFnSourceUnit "B" "f"),
      ("a.json", oneFnSourceUnit "A" "f")])).map
      ContractContext.contract_name = ["B", "A"] :=
  ⟨rfl, by decide, by decide⟩

/-- Claim C6 as amended: the loader globs `*.json` under the given path —
on a directory it processes exactly the entries whose name ends in `.json`,
non-recursively, in the order the directory is enumerated (it does not
sort); on a path naming a single file the glob matches nothing and no
contexts are produced. -/
theorem C6_loader :
    (∀ (n : String) (c : JVal), loadBuildInfo (.filePath n c) = []) ∧
    (∀ listing : List (String × JVal),
      loadBuildInfo (.dirPath listing) =
        (listing.filter (fun p => strSuf ".json" p.1)).flatMap
          (fun f => extractContractsFromBuild f.2 f.1)) :=
  ⟨fun _ _ => rfl, fun _ => rfl⟩

/-! ## Claim C9 — determinism -/

/-- Counterexample to C9 as stated: the same two artifact files (same names,
same bytes), enumerated by the filesystem in the other order, give a run
whose CFG node ids differ — identical input bytes alone do not determine
the output, because `load_build_info` processes files in `Path.glob`'s
enumeration order without sorting. -/
theorem C9_counterexample :
    listingVW.Perm listingWV ∧
    (runAnalyzer (.dirPath listingVW)).cfg.nodes.map Prod.fst ≠
      (runAnalyzer (.dirPath listingWV)).cfg.nodes.map Prod.fst := by
  constructor
  · exact List.Perm.swap _ _ _
  · decide

/-- Claim C9 as amended: the analysis is deterministic relative to the
loaded artifact sequence — any two runs that load the same contexts (in
particular two runs over a directory enumerated in the same order) produce
identical outputs — but the enumeration order is not determined by the file
bytes, and the same file set enumerated differently yields different CFG
node ids. -/
theorem C9_determinism :
    (∀ p q : FsPath, loadBuildInfo p = loadBuildInfo q →
      runAnalyzer p = runAnalyzer q) ∧
    (runAnalyzer (.dirPath listingVW)).cfg.nodes.map Prod.fst ≠
      (runAnalyzer (.dirPath listingWV)).cfg.nodes.map Prod.fst := by
  constructor
  · intro p q h
    simp only [runAnalyzer, h]
  · decide

/-- Witness for C9: two runs that load the same (here empty) context list
produce identical outputs. -/
theorem C9_witness :
    runAnalyzer (.filePath "a.json" .null) = runAnalyzer (.dirPath []) :=
  C9_determinism.1 (.filePath "a.json" .null) (.dirPath []) rfl

end RA
